import Mathlib

/-!
Verification of the shortest-path routing core of the mapping-algorithm
repository (src/js/routing.js, src/js/config.js, and the MinHeap priority
queue).  The JavaScript code is shallowly embedded: JS `Map` becomes `JsMap`
(an insertion-ordered association list with JS `Map.get/set/has/size`
semantics), the binary min-heap `MinHeap` is embedded with its exact
`push`/`pop`/`_bubbleUp`/`_bubbleDown` index manipulations, and the three
search algorithms (`dijkstra`, `astar`, `bidirectionalDijkstra`) are embedded
as fuelled loops over an explicit state record (JS `while` loops become
recursion on a fuel parameter; a run that exhausts its fuel yields `none`,
which never happens for the fuel bounds proved below).  Edge weights and
priorities are rationals (`ℚ`); the JS `Infinity` default in
`dist.get(u) ?? Infinity` is modelled with `WithTop ℚ`.

The haversine function lives in geo.js, whose source is not available here;
following the specification it is modelled as an abstract great-circle
distance function passed to `astar` as a parameter (`hdist`), mirroring the
module boundary of the import in routing.js.
-/

/-! ### JS `Map` embedding -/

/-- Insertion-ordered association list with the semantics of a JS `Map`
whose keys are strings: `get` finds the first (unique) matching key,
`set` overwrites in place or appends, iteration follows insertion order. -/
structure JsMap (β : Type) where
  entries : List (String × β)
deriving Repr

namespace JsMap

def empty {β : Type} : JsMap β := ⟨[]⟩

def get {β : Type} (m : JsMap β) (k : String) : Option β :=
  (m.entries.find? (fun e => e.1 = k)).map (·.2)

def has {β : Type} (m : JsMap β) (k : String) : Bool :=
  (m.entries.find? (fun e => e.1 = k)).isSome

def set {β : Type} (m : JsMap β) (k : String) (v : β) : JsMap β :=
  if m.has k then
    ⟨m.entries.map (fun e => if e.1 = k then (k, v) else e)⟩
  else
    ⟨m.entries ++ [(k, v)]⟩

def size {β : Type} (m : JsMap β) : ℕ := m.entries.length

def keys {β : Type} (m : JsMap β) : List String := m.entries.map (·.1)

theorem has_iff_get_isSome {β : Type} (m : JsMap β) (k : String) :
    m.has k = true ↔ (m.get k).isSome = true := by
  simp [has, get]

theorem get_eq_none_of_not_has {β : Type} (m : JsMap β) (k : String)
    (h : m.has k = false) : m.get k = none := by
  simp only [has] at h
  rcases hf : m.entries.find? (fun e => e.1 = k) with _ | e
  · simp [get, hf]
  · rw [hf] at h; simp at h

theorem mem_keys_iff_has {β : Type} (m : JsMap β) (k : String) :
    k ∈ m.keys ↔ m.has k = true := by
  simp only [keys, has, List.find?_isSome, List.mem_map]
  constructor
  · rintro ⟨e, he, rfl⟩
    exact ⟨e, he, by simp⟩
  · rintro ⟨e, he, hk⟩
    simp only [decide_eq_true_eq] at hk
    exact ⟨e, he, hk⟩

theorem find?_replace_self {β : Type} (l : List (String × β)) (k : String) (v : β)
    (h : (l.find? (fun e => e.1 = k)).isSome = true) :
    ((l.map (fun e => if e.1 = k then (k, v) else e)).find?
      (fun e => e.1 = k)) = some (k, v) := by
  induction l with
  | nil => simp at h
  | cons a as ih =>
    by_cases ha : a.1 = k
    · simp [ha]
    · have ha' : (decide (a.1 = k)) = false := by simp [ha]
      simp only [List.map_cons, if_neg ha] at *
      rw [List.find?_cons_of_neg _ (by simp [ha])] at h ⊢
      exact ih h

theorem find?_replace_ne {β : Type} (l : List (String × β)) (k k' : String) (v : β)
    (hne : k' ≠ k) :
    ((l.map (fun e => if e.1 = k then (k, v) else e)).find?
      (fun e => e.1 = k')) = l.find? (fun e => e.1 = k') := by
  induction l with
  | nil => simp
  | cons a as ih =>
    by_cases ha : a.1 = k
    · have h1 : ¬ ((k : String), v).1 = k' := fun hh => hne hh.symm
      have h2 : ¬ a.1 = k' := by rw [ha]; exact fun hh => hne hh.symm
      simp only [List.map_cons, if_pos ha]
      rw [List.find?_cons_of_neg _ (by simpa using h1),
        List.find?_cons_of_neg _ (by simpa using h2)]
      exact ih
    · simp only [List.map_cons, if_neg ha]
      by_cases ha' : a.1 = k'
      · rw [List.find?_cons_of_pos _ (by simpa using ha'),
          List.find?_cons_of_pos _ (by simpa using ha')]
      · rw [List.find?_cons_of_neg _ (by simpa using ha'),
          List.find?_cons_of_neg _ (by simpa using ha')]
        exact ih

theorem get_set_self {β : Type} (m : JsMap β) (k : String) (v : β) :
    (m.set k v).get k = some v := by
  unfold set
  by_cases h : m.has k
  · simp only [h, if_true, get]
    rw [find?_replace_self m.entries k v h]
    rfl
  · simp only [h, if_false, get, List.find?_append]
    have hnone : m.entries.find? (fun e => e.1 = k) = none := by
      simp only [has] at h
      rcases hf : m.entries.find? (fun e => e.1 = k) with _ | e
      · exact hf
      · rw [hf] at h; simp at h
    simp [hnone]

theorem get_set_ne {β : Type} (m : JsMap β) (k k' : String) (v : β)
    (hne : k' ≠ k) : (m.set k v).get k' = m.get k' := by
  unfold set
  by_cases h : m.has k
  · simp only [h, if_true, get]
    rw [find?_replace_ne m.entries k k' v hne]
  · simp only [h, if_false, get, List.find?_append]
    have hkk : (decide (((k : String), v).1 = k')) = false := by
      simp only [decide_eq_false_iff_not]
      exact fun hh => hne hh.symm
    rcases hfind : m.entries.find? (fun e => e.1 = k') with _ | e
    · simp [hfind, List.find?, hkk]
    · simp [hfind]

theorem has_eq_isSome_get {β : Type} (m : JsMap β) (k : String) :
    m.has k = (m.get k).isSome := by
  simp [has, get]

theorem has_set_self {β : Type} (m : JsMap β) (k : String) (v : β) :
    (m.set k v).has k = true := by
  rw [has_eq_isSome_get, get_set_self]
  rfl

theorem has_set_ne {β : Type} (m : JsMap β) (k k' : String) (v : β)
    (hne : k' ≠ k) : (m.set k v).has k' = m.has k' := by
  rw [has_eq_isSome_get, get_set_ne m k k' v hne, has_eq_isSome_get]

theorem has_set {β : Type} (m : JsMap β) (k k' : String) (v : β) :
    (m.set k v).has k' = (k' = k || m.has k') := by
  by_cases h : k' = k
  · subst h; simp [has_set_self]
  · simp [has_set_ne m k k' v h, h]

end JsMap

/-! ### MinHeap embedding (utils.js)

The JS class stores entries in a flat array `heap`; an entry is an array
whose element 0 is the numeric priority.  Here an entry is a pair
`(priority, payload)`; for `dijkstra` the payload is the node id, for
`astar` it is the pair `(gScore, node)`. -/

/-- Entry list of a binary min-heap: priority with payload. -/
abbrev HeapEntry (α : Type) := ℚ × α

/-- Swap the values at two positions of a list (JS array destructuring swap). -/
def listSwap {α : Type} (l : List α) (i j : ℕ) : List α :=
  match l[i]?, l[j]? with
  | some a, some b => (l.set i b).set j a
  | _, _ => l

theorem listSwap_length {α : Type} (l : List α) (i j : ℕ) :
    (listSwap l i j).length = l.length := by
  unfold listSwap
  cases l[i]? <;> cases l[j]? <;> simp

/-- Fuelled body of `MinHeap._bubbleUp`; the index strictly decreases on
every iteration, so fuel `i` always suffices and the fuel argument never
changes the computed value. -/
def bubbleUpGo {α : Type} :
    ℕ → List (HeapEntry α) → ℕ → List (HeapEntry α)
  | 0, l, _ => l
  | fuel + 1, l, i =>
    if i = 0 then l
    else
      match l[i]?, l[(i - 1) / 2]? with
      | some ei, some ep =>
        if ei.1 ≥ ep.1 then l
        else bubbleUpGo fuel (listSwap l i ((i - 1) / 2)) ((i - 1) / 2)
      | _, _ => l

/-- Embedding of `MinHeap._bubbleUp`: float the element at `index` up while
it is strictly smaller than its parent. -/
def bubbleUp {α : Type} (l : List (HeapEntry α)) (i : ℕ) : List (HeapEntry α) :=
  bubbleUpGo i l i

/-- Selection step of `MinHeap._bubbleDown`: index of the smaller of the two
children if it beats the current node (comparing the left child first), else
the current index.  Out-of-range children are skipped, as by the JS bounds
checks `leftChild < this.heap.length`. -/
def bdSel1 {α : Type} (l : List (HeapEntry α)) (i : ℕ) : ℕ :=
  match l[2 * i + 1]?, l[i]? with
  | some el, some es => if el.1 < es.1 then 2 * i + 1 else i
  | _, _ => i

def bdSel2 {α : Type} (l : List (HeapEntry α)) (i : ℕ) : ℕ :=
  match l[2 * i + 2]?, l[bdSel1 l i]? with
  | some er, some es => if er.1 < es.1 then 2 * i + 2 else bdSel1 l i
  | _, _ => bdSel1 l i

/-- Fuelled body of `MinHeap._bubbleDown`; the index strictly increases and
stays below the (constant) length, so fuel `l.length` always suffices and
the fuel argument never changes the computed value. -/
def bubbleDownGo {α : Type} :
    ℕ → List (HeapEntry α) → ℕ → List (HeapEntry α)
  | 0, l, _ => l
  | fuel + 1, l, i =>
    if bdSel2 l i = i then l
    else
      if i < bdSel2 l i ∧ bdSel2 l i < l.length then
        bubbleDownGo fuel (listSwap l i (bdSel2 l i)) (bdSel2 l i)
      else l

/-- Embedding of `MinHeap._bubbleDown`: sink the element at `index` down by
swapping with the smaller child while a child is strictly smaller. -/
def bubbleDown {α : Type} (l : List (HeapEntry α)) (i : ℕ) : List (HeapEntry α) :=
  bubbleDownGo l.length l i

/-- Embedding of the `MinHeap` class of utils.js. -/
structure MinHeap (α : Type) where
  heap : List (HeapEntry α)
deriving Repr

namespace MinHeap

def mkEmpty {α : Type} : MinHeap α := ⟨[]⟩

/-- Embedding of `MinHeap.push`: append then bubble up from the last index. -/
def push {α : Type} (h : MinHeap α) (e : HeapEntry α) : MinHeap α :=
  ⟨bubbleUp (h.heap ++ [e]) h.heap.length⟩

/-- Embedding of `MinHeap.pop`: return the root, remove the last element,
move it to the root and bubble it down; `none` on an empty heap.  (On a
nonempty JS array `pop()` always yields the last element, hence the single
combined match.) -/
def pop {α : Type} (h : MinHeap α) : Option (HeapEntry α × MinHeap α) :=
  match h.heap, h.heap.getLast? with
  | root :: _, some last =>
    if (h.heap.dropLast).length > 0 then
      some (root, ⟨bubbleDown ((h.heap.dropLast).set 0 last) 0⟩)
    else
      some (root, ⟨h.heap.dropLast⟩)
  | _, _ => none

def size {α : Type} (h : MinHeap α) : ℕ := h.heap.length

end MinHeap

/-! ### Verification of the MinHeap: `push` and `pop` are permutations, a
popped entry is a minimum, and the heap shape invariant is preserved. -/

theorem eq_take_cons_drop_of_getElem? {α : Type} :
    ∀ (l : List α) (j : ℕ) (b : α), l[j]? = some b →
      l = l.take j ++ b :: l.drop (j + 1)
  | [], j, b, h => by simp at h
  | x :: t, 0, b, h => by simp_all
  | x :: t, j + 1, b, h => by
    simp only [List.getElem?_cons_succ] at h
    simpa using eq_take_cons_drop_of_getElem? t j b h

theorem set_set_perm_of_lt {α : Type} (l : List α) (i j : ℕ) (a b : α)
    (hlt : i < j) (hi : l[i]? = some a) (hj : l[j]? = some b) :
    ((l.set i b).set j a).Perm l := by
  have hjlen : j < l.length := (List.getElem?_eq_some_iff.mp hj).1
  have hilen : i < l.length := (List.getElem?_eq_some_iff.mp hi).1
  have hdecomp := eq_take_cons_drop_of_getElem? l i a hi
  have hset1 : l.set i b = l.take i ++ b :: l.drop (i + 1) :=
    List.set_eq_take_cons_drop _ hilen
  have hjd : (l.drop (i + 1))[j - (i + 1)]? = some b := by
    rw [List.getElem?_drop]
    rwa [Nat.add_sub_cancel' (Nat.succ_le_of_lt hlt)]
  have hset2 : (l.set i b).set j a =
      l.take i ++ b :: ((l.drop (i + 1)).set (j - (i + 1)) a) := by
    rw [hset1, List.set_append]
    have hjtake : ¬ j < (l.take i).length := by
      simp only [List.length_take]
      omega
    rw [if_neg hjtake]
    congr 1
    have : j - (l.take i).length = (j - (i + 1)) + 1 := by
      simp only [List.length_take, Nat.min_eq_left (Nat.le_of_lt hilen)]
      omega
    rw [this, List.set_cons_succ]
  rw [hset2]
  have hd2 := eq_take_cons_drop_of_getElem? (l.drop (i + 1)) (j - (i + 1)) b hjd
  have hlen2 : j - (i + 1) < (l.drop (i + 1)).length := by
    simp only [List.length_drop]
    omega
  have hsetd : (l.drop (i + 1)).set (j - (i + 1)) a =
      (l.drop (i + 1)).take (j - (i + 1)) ++ a :: (l.drop (i + 1)).drop (j - (i + 1) + 1) :=
    List.set_eq_take_cons_drop _ hlen2
  rw [hsetd]
  conv_rhs => rw [hdecomp, hd2]
  set A := l.take i
  set B := (l.drop (i + 1)).take (j - (i + 1))
  set C := (l.drop (i + 1)).drop (j - (i + 1) + 1)
  refine List.Perm.append_left A ?_
  have h1 : (B ++ a :: C).Perm (a :: (B ++ C)) := List.perm_middle
  have h2 : (B ++ b :: C).Perm (b :: (B ++ C)) := List.perm_middle
  exact (List.Perm.cons b h1).trans
    ((List.Perm.swap a b (B ++ C)).trans (List.Perm.cons a h2.symm))

theorem listSwap_perm {α : Type} (l : List α) (i j : ℕ) :
    (listSwap l i j).Perm l := by
  unfold listSwap
  rcases hi : l[i]? with _ | a
  · exact List.Perm.refl l
  rcases hj : l[j]? with _ | b
  · exact List.Perm.refl l
  simp only []
  rcases Nat.lt_trichotomy i j with hlt | heq | hgt
  · exact set_set_perm_of_lt l i j a b hlt hi hj
  · subst heq
    rw [hi] at hj
    cases hj
    have hlen : i < l.length := (List.getElem?_eq_some_iff.mp hi).1
    rw [List.set_set]
    have : l.set i a = l := by
      conv_rhs => rw [eq_take_cons_drop_of_getElem? l i a hi]
      rw [List.set_eq_take_cons_drop _ hlen]
    rw [this]
  · rw [List.set_comm b a l (show i ≠ j by omega)]
    exact set_set_perm_of_lt l j i b a hgt hj hi

theorem listSwap_getElem?_fst {α : Type} (l : List α) (i j : ℕ) (a b : α)
    (hij : i ≠ j) (hi : l[i]? = some a) (hj : l[j]? = some b) :
    (listSwap l i j)[i]? = some b := by
  unfold listSwap
  rw [hi, hj]
  rw [List.getElem?_set_ne (by omega : j ≠ i),
    List.getElem?_set_self ((List.getElem?_eq_some_iff.mp hi).1)]

theorem listSwap_getElem?_snd {α : Type} (l : List α) (i j : ℕ) (a b : α)
    (hi : l[i]? = some a) (hj : l[j]? = some b) :
    (listSwap l i j)[j]? = some a := by
  unfold listSwap
  rw [hi, hj]
  have : j < (l.set i b).length := by
    rw [List.length_set]
    exact (List.getElem?_eq_some_iff.mp hj).1
  rw [List.getElem?_set_self this]

theorem listSwap_getElem?_other {α : Type} (l : List α) (i j k : ℕ)
    (hik : k ≠ i) (hjk : k ≠ j) :
    (listSwap l i j)[k]? = l[k]? := by
  unfold listSwap
  cases l[i]? <;> cases l[j]? <;>
    simp only [] <;>
    first
      | rfl
      | rw [List.getElem?_set_ne (by omega : j ≠ k),
          List.getElem?_set_ne (by omega : i ≠ k)]

/-- Binary min-heap ordering on the entry list: every non-root entry is at
least its parent. -/
def IsMinHeap {α : Type} (l : List (HeapEntry α)) : Prop :=
  ∀ j a b, 0 < j → l[(j - 1) / 2]? = some a → l[j]? = some b → a.1 ≤ b.1

theorem isMinHeap_root_le {α : Type} {l : List (HeapEntry α)} (hh : IsMinHeap l)
    {r : HeapEntry α} (hr : l[0]? = some r) :
    ∀ (j : ℕ) (b : HeapEntry α), l[j]? = some b → r.1 ≤ b.1 := by
  intro j
  induction j using Nat.strong_induction_on with
  | _ j ihj =>
    intro b hb
    rcases Nat.eq_zero_or_pos j with rfl | hj
    · rw [hr] at hb
      cases hb
      exact le_refl _
    · have hjlen : j < l.length := (List.getElem?_eq_some_iff.mp hb).1
      have hplen : (j - 1) / 2 < l.length := by
        have : (j - 1) / 2 < j := by omega
        omega
      obtain ⟨a, ha⟩ : ∃ a, l[(j - 1) / 2]? = some a := by
        rw [List.getElem?_eq_getElem hplen]
        exact ⟨_, rfl⟩
      exact le_trans (ihj ((j - 1) / 2) (by omega) a ha) (hh j a b hj ha hb)

/-- Invariant preserved by `bubbleUp`: the heap property holds for every
parent/child pair except possibly at child `i`, and (when `i` has a parent)
the parent-to-be of `i` already dominates the children of `i`. -/
structure UpInv {α : Type} (l : List (HeapEntry α)) (i : ℕ) : Prop where
  pairs : ∀ j a b, 0 < j → j ≠ i → l[(j - 1) / 2]? = some a → l[j]? = some b →
    a.1 ≤ b.1
  gp : 0 < i → ∀ c a b, (c - 1) / 2 = i → 0 < c → l[(i - 1) / 2]? = some a →
    l[c]? = some b → a.1 ≤ b.1

theorem bubbleUpGo_isHeap {α : Type} :
    ∀ (fuel : ℕ) (l : List (HeapEntry α)) (i : ℕ), i ≤ fuel →
      UpInv l i → IsMinHeap (bubbleUpGo fuel l i) := by
  intro fuel
  induction fuel with
  | zero =>
    intro l i hle hinv
    have h0 : i = 0 := Nat.le_zero.mp hle
    subst h0
    intro j a b hj hpa hjb
    exact hinv.pairs j a b hj (by omega) hpa hjb
  | succ fuel ih =>
    intro l i hle hinv
    rw [bubbleUpGo]
    split
    · next h0 =>
      subst h0
      intro j a b hj hpa hjb
      exact hinv.pairs j a b hj (by omega) hpa hjb
    · next h0 =>
      split
      · next ei ep hi hp =>
        split
        · next hge =>
          -- already at least the parent: the whole list is a heap
          intro j a b hj hpa hjb
          by_cases hji : j = i
          · subst hji
            rw [hi] at hjb
            rw [hp] at hpa
            cases hjb; cases hpa
            exact le_of_not_lt (fun hc => absurd hge (not_le_of_lt hc))
          · exact hinv.pairs j a b hj hji hpa hjb
        · next hge =>
          have hlt : ei.1 < ep.1 := lt_of_not_ge hge
          have hpne : i ≠ (i - 1) / 2 := by omega
          apply ih (listSwap l i ((i - 1) / 2)) ((i - 1) / 2) (by omega)
          constructor
          · intro j a b hj hjp hpa hjb
            by_cases hji : j = i
            · rw [hji] at hpa hjb
              rw [listSwap_getElem?_snd l i ((i - 1) / 2) ei ep hi hp] at hpa
              rw [listSwap_getElem?_fst l i ((i - 1) / 2) ei ep hpne hi hp] at hjb
              cases hpa; cases hjb
              exact le_of_lt hlt
            · have hjval : (listSwap l i ((i - 1) / 2))[j]? = l[j]? :=
                listSwap_getElem?_other l i ((i - 1) / 2) j hji hjp
              rw [hjval] at hjb
              by_cases hq : (j - 1) / 2 = i
              · -- j is a child of i: use the grandparent bound
                rw [hq, listSwap_getElem?_fst l i ((i - 1) / 2) ei ep hpne hi hp] at hpa
                cases hpa
                exact hinv.gp (by omega) j ep b hq hj hp hjb
              · by_cases hqp : (j - 1) / 2 = (i - 1) / 2
                · rw [hqp, listSwap_getElem?_snd l i ((i - 1) / 2) ei ep hi hp] at hpa
                  cases hpa
                  have hold := hinv.pairs j ep b hj hji (by rw [hqp]; exact hp) hjb
                  exact le_trans (le_of_lt hlt) hold
                · rw [listSwap_getElem?_other l i ((i - 1) / 2) ((j - 1) / 2) hq hqp] at hpa
                  exact hinv.pairs j a b hj hji hpa hjb
          · intro hpz c a b hcp hc hga hcb
            -- grandparent of the new position dominates its children
            have hgne1 : ((i - 1) / 2 - 1) / 2 ≠ i := by omega
            have hgne2 : ((i - 1) / 2 - 1) / 2 ≠ (i - 1) / 2 := by omega
            rw [listSwap_getElem?_other l i ((i - 1) / 2) _ hgne1 hgne2] at hga
            by_cases hci : c = i
            · rw [hci] at hcb
              rw [listSwap_getElem?_fst l i ((i - 1) / 2) ei ep hpne hi hp] at hcb
              cases hcb
              exact hinv.pairs ((i - 1) / 2) a ep hpz (Ne.symm hpne) hga hp
            · have hcp' : c ≠ (i - 1) / 2 := by omega
              rw [listSwap_getElem?_other l i ((i - 1) / 2) c hci hcp'] at hcb
              have h1 : ep.1 ≤ b.1 :=
                hinv.pairs c ep b hc hci (by rw [hcp]; exact hp) hcb
              have h2 : a.1 ≤ ep.1 :=
                hinv.pairs ((i - 1) / 2) a ep hpz (Ne.symm hpne) hga hp
              exact le_trans h2 h1
      · next hfail =>
        -- a lookup failed: `i` is out of range, so the list is already a heap
        intro j a b hj hpa hjb
        by_cases hji : j = i
        · rw [hji] at hpa hjb
          exact (hfail b a hjb hpa).elim
        · exact hinv.pairs j a b hj hji hpa hjb

theorem bdSel1_self_le {α : Type} {l : List (HeapEntry α)} {i : ℕ}
    (h : bdSel1 l i = i) :
    ∀ el ei, l[2 * i + 1]? = some el → l[i]? = some ei → ei.1 ≤ el.1 := by
  intro el ei hl hi
  unfold bdSel1 at h
  rw [hl, hi] at h
  simp only [] at h
  split at h
  · omega
  · exact le_of_not_lt (by assumption)

theorem bdSel1_spec {α : Type} (l : List (HeapEntry α)) (i : ℕ) :
    bdSel1 l i = i ∨ (bdSel1 l i = 2 * i + 1 ∧
      ∃ el ei, l[2 * i + 1]? = some el ∧ l[i]? = some ei ∧ el.1 < ei.1) := by
  unfold bdSel1
  split
  · next el es hl hi =>
    split
    · next hlt => exact Or.inr ⟨rfl, el, es, hl, hi, hlt⟩
    · exact Or.inl rfl
  · exact Or.inl rfl

theorem bdSel2_cases {α : Type} (l : List (HeapEntry α)) (i : ℕ) :
    bdSel2 l i = bdSel1 l i ∨ (bdSel2 l i = 2 * i + 2 ∧
      ∃ er es, l[2 * i + 2]? = some er ∧ l[bdSel1 l i]? = some es ∧
        er.1 < es.1) := by
  unfold bdSel2
  split
  · next er es hr hs =>
    split
    · next hlt => exact Or.inr ⟨rfl, er, es, hr, hs, hlt⟩
    · exact Or.inl rfl
  · exact Or.inl rfl

theorem bdSel2_rc_ge {α : Type} {l : List (HeapEntry α)} {i : ℕ}
    (h : bdSel2 l i = bdSel1 l i) (hne : (2 * i + 2 : ℕ) ≠ bdSel1 l i) :
    ∀ er es, l[2 * i + 2]? = some er → l[bdSel1 l i]? = some es →
      es.1 ≤ er.1 := by
  intro er es hr hs
  unfold bdSel2 at h
  rw [hr, hs] at h
  simp only [] at h
  split at h
  · exact (hne h).elim
  · exact le_of_not_lt (by assumption)

theorem bdSel2_self_le {α : Type} {l : List (HeapEntry α)} {i : ℕ}
    (h : bdSel2 l i = i) :
    ∀ c ec ei, (c = 2 * i + 1 ∨ c = 2 * i + 2) → l[c]? = some ec →
      l[i]? = some ei → ei.1 ≤ ec.1 := by
  intro c ec ei hc hcl hi
  rcases bdSel2_cases l i with heq | ⟨heq, er, es, hr, hs, hlt⟩
  · have h1 : bdSel1 l i = i := by rw [← heq, h]
    rcases hc with rfl | rfl
    · exact bdSel1_self_le h1 ec ei hcl hi
    · have := bdSel2_rc_ge heq (by omega) ec ei hcl (by rw [h1]; exact hi)
      exact this
  · rw [heq] at h
    omega

theorem bdSel2_ne {α : Type} {l : List (HeapEntry α)} {i : ℕ}
    (h : bdSel2 l i ≠ i) :
    i < bdSel2 l i ∧ bdSel2 l i < l.length ∧
      ∃ es ei, l[bdSel2 l i]? = some es ∧ l[i]? = some ei ∧ es.1 < ei.1 ∧
        ∀ c ec, (c = 2 * i + 1 ∨ c = 2 * i + 2) → l[c]? = some ec →
          es.1 ≤ ec.1 := by
  rcases bdSel2_cases l i with heq | ⟨heq, er, es, hr, hs, hlt⟩
  · rcases bdSel1_spec l i with h1 | ⟨h1, el, ei, hel, hei, hlti⟩
    · rw [heq, h1] at h
      exact (h rfl).elim
    · rw [heq, h1]
      refine ⟨by omega, (List.getElem?_eq_some_iff.mp hel).1, el, ei, hel, hei,
        hlti, ?_⟩
      intro c ec hc hcl
      rcases hc with rfl | rfl
      · rw [hel] at hcl; cases hcl; exact le_refl _
      · have := bdSel2_rc_ge heq (by omega) ec el hcl (by rw [h1]; exact hel)
        exact this
  · rw [heq]
    rcases bdSel1_spec l i with h1 | ⟨h1, el, ei, hel, hei, hlti⟩
    · rw [h1] at hs
      refine ⟨by omega, (List.getElem?_eq_some_iff.mp hr).1, er, es, hr, hs,
        hlt, ?_⟩
      intro c ec hc hcl
      rcases hc with rfl | rfl
      · exact le_trans (le_of_lt hlt) (bdSel1_self_le h1 ec es hcl hs)
      · rw [hr] at hcl; cases hcl; exact le_refl _
    · rw [h1, hel] at hs
      cases hs
      refine ⟨by omega, (List.getElem?_eq_some_iff.mp hr).1, er, ei, hr, hei,
        lt_trans hlt hlti, ?_⟩
      intro c ec hc hcl
      rcases hc with rfl | rfl
      · rw [hel] at hcl; cases hcl; exact le_of_lt hlt
      · rw [hr] at hcl; cases hcl; exact le_refl _

/-- Invariant preserved by `bubbleDown`: the heap property holds for every
parent/child pair except possibly those whose parent is `i`, and (when `i`
is not the root) the parent of `i` dominates the children of `i`. -/
structure DownInv {α : Type} (l : List (HeapEntry α)) (i : ℕ) : Prop where
  pairs : ∀ j a b, 0 < j → (j - 1) / 2 ≠ i → l[(j - 1) / 2]? = some a →
    l[j]? = some b → a.1 ≤ b.1
  gp : ∀ c a b, 0 < i → (c - 1) / 2 = i → 0 < c → l[(i - 1) / 2]? = some a →
    l[c]? = some b → a.1 ≤ b.1

theorem bubbleDownGo_isHeap {α : Type} :
    ∀ (fuel : ℕ) (l : List (HeapEntry α)) (i : ℕ), l.length - i ≤ fuel →
      DownInv l i → IsMinHeap (bubbleDownGo fuel l i) := by
  intro fuel
  induction fuel with
  | zero =>
    intro l i hn hinv
    intro j a b hj hpa hjb
    have hjlen : j < l.length := (List.getElem?_eq_some_iff.mp hjb).1
    exact hinv.pairs j a b hj (by omega) hpa hjb
  | succ n ihn =>
    intro l i hn hinv
    rw [bubbleDownGo]
    split
    · next hsel =>
      intro j a b hj hpa hjb
      by_cases hq : (j - 1) / 2 = i
      · have hc : j = 2 * i + 1 ∨ j = 2 * i + 2 := by omega
        rw [hq] at hpa
        exact bdSel2_self_le hsel j b a hc hjb hpa
      · exact hinv.pairs j a b hj hq hpa hjb
    · next hsel =>
      obtain ⟨hilt, hslen, es, ei, hes, hei, heslt, hbound⟩ := bdSel2_ne hsel
      rw [if_pos ⟨hilt, hslen⟩]
      set s := bdSel2 l i with hs
      have hsc : s = 2 * i + 1 ∨ s = 2 * i + 2 := by
        rcases bdSel2_cases l i with heq | ⟨heq, _, _, _, _, _⟩
        · rcases bdSel1_spec l i with h1 | ⟨h1, _, _, _, _, _⟩
          · rw [hs, heq, h1] at hsel
            exact (hsel rfl).elim
          · rw [hs, heq, h1]
            exact Or.inl rfl
        · rw [hs, heq]
          exact Or.inr rfl
      have hsne : i ≠ s := by omega
      have hswap_i : (listSwap l i s)[i]? = some es :=
        listSwap_getElem?_fst l i s ei es hsne hei hes
      have hswap_s : (listSwap l i s)[s]? = some ei :=
        listSwap_getElem?_snd l i s ei es hei hes
      apply ihn
      · rw [listSwap_length]
        omega
      constructor
      · intro j a b hj hjs hpa hjb
        by_cases hq : (j - 1) / 2 = i
        · have hc : j = 2 * i + 1 ∨ j = 2 * i + 2 := by omega
          rw [hq, hswap_i] at hpa
          cases hpa
          by_cases hjs' : j = s
          · rw [hjs', hswap_s] at hjb
            cases hjb
            exact le_of_lt heslt
          · rw [listSwap_getElem?_other l i s j (by omega) hjs'] at hjb
            exact hbound j b hc hjb
        · by_cases hji : j = i
          · rw [hji, hswap_i] at hjb
            cases hjb
            rw [hji] at hpa hq hj
            have hgne1 : (i - 1) / 2 ≠ i := hq
            have hgne2 : (i - 1) / 2 ≠ s := by omega
            rw [listSwap_getElem?_other l i s _ hgne1 hgne2] at hpa
            exact hinv.gp s a es (by omega) (by omega) (by omega) hpa hes
          · have hq2 : (j - 1) / 2 ≠ s := hjs
            have hq3 : j ≠ s := by
              intro hcon
              rw [hcon] at hq
              omega
            rw [listSwap_getElem?_other l i s _ (by omega) hq2] at hpa
            rw [listSwap_getElem?_other l i s j hji hq3] at hjb
            exact hinv.pairs j a b hj hq hpa hjb
      · intro c a b hps hcs hc hpa hcb
        have hpsi : (s - 1) / 2 = i := by omega
        rw [hpsi, hswap_i] at hpa
        cases hpa
        have hcne_s : c ≠ s := by omega
        have hcne_i : c ≠ i := by omega
        rw [listSwap_getElem?_other l i s c hcne_i hcne_s] at hcb
        exact hinv.pairs c es b (by omega) (by omega) (by rw [hcs]; exact hes) hcb

theorem bubbleDownGo_perm {α : Type} :
    ∀ (fuel : ℕ) (l : List (HeapEntry α)) (i : ℕ),
      (bubbleDownGo fuel l i).Perm l := by
  intro fuel
  induction fuel with
  | zero => intro l i; exact List.Perm.refl l
  | succ n ihn =>
    intro l i
    rw [bubbleDownGo]
    split
    · exact List.Perm.refl l
    · next hsel =>
      split
      · exact List.Perm.trans (ihn _ _) (listSwap_perm l i (bdSel2 l i))
      · exact List.Perm.refl l

theorem bubbleDown_isHeap {α : Type} :
    ∀ (n : ℕ) (l : List (HeapEntry α)) (i : ℕ), l.length - i ≤ n →
      DownInv l i → IsMinHeap (bubbleDown l i) :=
  fun _ l i _ hinv => bubbleDownGo_isHeap l.length l i (by omega) hinv

theorem bubbleDown_perm {α : Type} :
    ∀ (n : ℕ) (l : List (HeapEntry α)) (i : ℕ), l.length - i ≤ n →
      (bubbleDown l i).Perm l :=
  fun _ l i _ => bubbleDownGo_perm l.length l i

theorem bubbleUpGo_perm {α : Type} :
    ∀ (fuel : ℕ) (l : List (HeapEntry α)) (i : ℕ),
      (bubbleUpGo fuel l i).Perm l := by
  intro fuel
  induction fuel with
  | zero => intro l i; exact List.Perm.refl l
  | succ fuel ih =>
    intro l i
    rw [bubbleUpGo]
    split
    · exact List.Perm.refl l
    · next h0 =>
      split
      · next ei ep hi hp =>
        split
        · exact List.Perm.refl l
        · exact List.Perm.trans
            (ih (listSwap l i ((i - 1) / 2)) ((i - 1) / 2))
            (listSwap_perm l i ((i - 1) / 2))
      · exact List.Perm.refl l

theorem bubbleUp_isHeap {α : Type} :
    ∀ (i : ℕ) (l : List (HeapEntry α)), UpInv l i → IsMinHeap (bubbleUp l i) :=
  fun i l hinv => bubbleUpGo_isHeap i l i (le_refl i) hinv

theorem bubbleUp_perm {α : Type} :
    ∀ (i : ℕ) (l : List (HeapEntry α)), (bubbleUp l i).Perm l :=
  fun i l => bubbleUpGo_perm i l i

theorem MinHeap.push_perm {α : Type} (h : MinHeap α) (e : HeapEntry α) :
    (h.push e).heap.Perm (e :: h.heap) := by
  unfold MinHeap.push
  exact List.Perm.trans (bubbleUp_perm h.heap.length (h.heap ++ [e]))
    (List.perm_append_singleton e h.heap)

theorem MinHeap.push_isHeap {α : Type} (h : MinHeap α) (e : HeapEntry α)
    (hh : IsMinHeap h.heap) : IsMinHeap (h.push e).heap := by
  unfold MinHeap.push
  apply bubbleUp_isHeap
  constructor
  · intro j a b hj hjn hpa hjb
    have hjlen : j < (h.heap ++ [e]).length := (List.getElem?_eq_some_iff.mp hjb).1
    rw [List.length_append, List.length_singleton] at hjlen
    have hjlt : j < h.heap.length := by omega
    rw [List.getElem?_append_left hjlt] at hjb
    rw [List.getElem?_append_left (by omega : (j - 1) / 2 < h.heap.length)] at hpa
    exact hh j a b hj hpa hjb
  · intro hn c a b hcp hc hpa hcb
    have hclen : c < (h.heap ++ [e]).length := (List.getElem?_eq_some_iff.mp hcb).1
    rw [List.length_append, List.length_singleton] at hclen
    omega

theorem MinHeap.pop_eq_none_iff {α : Type} (h : MinHeap α) :
    h.pop = none ↔ h.heap = [] := by
  unfold MinHeap.pop
  constructor
  · intro hp
    split at hp
    · split at hp <;> cases hp
    · next hfail =>
      rcases hl : h.heap with _ | ⟨root, t⟩
      · rfl
      · have hlast : h.heap.getLast? = some (h.heap.getLast (by rw [hl]; simp)) :=
          List.getLast?_eq_getLast _ _
        exact (hfail root t (h.heap.getLast (by rw [hl]; simp)) hl hlast).elim
  · intro hempty
    split
    · next root xs last hcons hlast =>
      rw [hempty] at hcons
      cases hcons
    · rfl

theorem MinHeap.pop_spec {α : Type} (h : MinHeap α) (e : HeapEntry α)
    (h' : MinHeap α) (hpop : h.pop = some (e, h')) :
    h.heap.Perm (e :: h'.heap) ∧ h.heap[0]? = some e ∧
      (IsMinHeap h.heap → IsMinHeap h'.heap) := by
  unfold MinHeap.pop at hpop
  split at hpop
  · next root xs last hne hlast =>
    rw [hne] at hpop hlast ⊢
    rcases xs with _ | ⟨b, t'⟩
    · simp only [List.dropLast_single, List.length_nil, gt_iff_lt,
        lt_irrefl, if_false] at hpop
      cases hpop
      refine ⟨List.Perm.refl _, rfl, ?_⟩
      intro _ j a c hj hpa hjb
      simp at hjb
    · -- heap has at least two entries
      rw [List.getLast?_cons_cons] at hlast
      have htne : (b :: t') ≠ [] := by simp
      have hlast' : last = (b :: t').getLast htne := by
        rw [List.getLast?_eq_getLast (b :: t') htne] at hlast
        exact (Option.some_inj.mp hlast).symm
      have hdec : (b :: t').dropLast ++ [last] = b :: t' := by
        rw [hlast']
        exact List.dropLast_concat_getLast htne
      simp only [List.dropLast_cons₂] at hpop
      have hlen : (root :: (b :: t').dropLast).length > 0 := by simp
      rw [if_pos hlen] at hpop
      cases hpop
      constructor
      · refine List.Perm.cons e (List.Perm.symm ?_)
        refine List.Perm.trans
          (bubbleDown_perm ((e :: (b :: t').dropLast).set 0 last).length _ 0
            (by omega)) ?_
        have hset : ((e :: (b :: t').dropLast).set 0 last) =
            last :: (b :: t').dropLast := rfl
        rw [hset]
        have h1 := (List.perm_append_singleton last ((b :: t').dropLast)).symm
        rw [hdec] at h1
        exact h1
      refine ⟨rfl, ?_⟩
      intro hh
      apply bubbleDown_isHeap ((e :: (b :: t').dropLast).set 0 last).length _ 0
        (by omega)
      have hset : ((e :: (b :: t').dropLast).set 0 last) =
          last :: (b :: t').dropLast := rfl
      rw [hset]
      constructor
      · intro j a c hj hjne hpa hjb
        have hpz : 0 < (j - 1) / 2 := Nat.pos_of_ne_zero hjne
        have hja : (last :: (b :: t').dropLast)[(j - 1) / 2]? =
            (e :: b :: t')[(j - 1) / 2]? := by
          rcases hk : (j - 1) / 2 with _ | k
          · omega
          · simp only [List.getElem?_cons_succ]
            have hblen : j < (last :: (b :: t').dropLast).length :=
              (List.getElem?_eq_some_iff.mp hjb).1
            rw [List.getElem?_dropLast, if_pos]
            simp only [List.length_cons, List.length_dropLast] at hblen ⊢
            omega
        have hjval : (last :: (b :: t').dropLast)[j]? =
            (e :: b :: t')[j]? := by
          rcases j with _ | k
          · omega
          · simp only [List.getElem?_cons_succ]
            have hblen : k + 1 < (last :: (b :: t').dropLast).length :=
              (List.getElem?_eq_some_iff.mp hjb).1
            rw [List.getElem?_dropLast, if_pos]
            simp only [List.length_cons, List.length_dropLast] at hblen ⊢
            omega
        rw [hja] at hpa
        rw [hjval] at hjb
        exact hh j a c hj hpa hjb
      · intro c a x hz hcp hc hpa hcb
        omega
  · cases hpop

theorem MinHeap.pop_le {α : Type} {h : MinHeap α} {e : HeapEntry α}
    {h' : MinHeap α} (hh : IsMinHeap h.heap) (hpop : h.pop = some (e, h')) :
    ∀ x ∈ h.heap, e.1 ≤ x.1 := by
  obtain ⟨_, hroot, _⟩ := MinHeap.pop_spec h e h' hpop
  intro x hx
  obtain ⟨n, hn⟩ := List.mem_iff_getElem?.mp hx
  exact isMinHeap_root_le hh hroot n x hn

theorem MinHeap.pop_isSome_of_ne_nil {α : Type} (h : MinHeap α)
    (hne : h.heap ≠ []) : ∃ e h', h.pop = some (e, h') := by
  rcases hp : h.pop with _ | ⟨e, h'⟩
  · exact absurd ((MinHeap.pop_eq_none_iff h).mp hp) hne
  · exact ⟨e, h', rfl⟩

theorem MinHeap.push_size {α : Type} (h : MinHeap α) (e : HeapEntry α) :
    (h.push e).size = h.size + 1 := by
  have := (MinHeap.push_perm h e).length_eq
  simpa [MinHeap.size] using this

theorem MinHeap.pop_size {α : Type} (h : MinHeap α) (e : HeapEntry α)
    (h' : MinHeap α) (hpop : h.pop = some (e, h')) :
    h.size = h'.size + 1 := by
  have := (MinHeap.pop_spec h e h' hpop).1.length_eq
  simpa [MinHeap.size] using this

theorem MinHeap.mem_of_pop {α : Type} {h : MinHeap α} {e : HeapEntry α}
    {h' : MinHeap α} (hpop : h.pop = some (e, h')) :
    e ∈ h.heap ∧ ∀ x ∈ h'.heap, x ∈ h.heap := by
  have hperm := (MinHeap.pop_spec h e h' hpop).1
  constructor
  · exact hperm.mem_iff.mpr (List.mem_cons_self e h'.heap)
  · intro x hx
    exact hperm.mem_iff.mpr (List.mem_cons_of_mem e hx)

/-! ### Embedding of routing.js

Weights and priorities are `ℚ`; the JS `?? Infinity` default is `WithTop ℚ`.
JS `while` loops are fuelled recursion returning `none` on fuel exhaustion;
the termination theorems below show suitable fuel always exists. -/

/-- Adjacency-list graph: node id to ordered `[neighbor, weight]` pairs. -/
abbrev Graph := JsMap (List (String × ℚ))

/-- Coordinate lookup: node id to `[lat, lon]`. -/
abbrev Coords := JsMap (ℚ × ℚ)

/-- One event of `visitedOrder`: `{id, parent}` plus the `side` tag that only
`bidirectionalDijkstra` adds (`'start'`/`'end'`).  The JS `parent.get(u)` can
be a node id, `null` (for the origin) or `undefined` (never reached in the
guarded calls); the latter two collapse to `none`. -/
structure Visit where
  id : String
  parent : Option String
  side : Option String
deriving Repr, DecidableEq

/-- Common result shape of the three search functions. -/
structure SearchResult where
  path : Option (List String)
  travelTime : Option ℚ
  nodesExplored : ℕ
  visitedOrder : List Visit
  estimatedMemoryKB : ℚ
deriving Repr

/-- Embedding of `dist.get(u) ?? Infinity`. -/
def getInf (m : JsMap ℚ) (k : String) : WithTop ℚ :=
  match m.get k with
  | some d => (d : WithTop ℚ)
  | none => ⊤

/-- Walk of `reconstructPath`: push the current node and follow the parent
pointer until `null`.  The cons-accumulator builds the list already reversed,
matching the JS `push` loop followed by `reverse()`.  An `undefined` lookup
also stops the walk (the JS callers guarantee it never happens: every node in
a parent chain is a key of the parent map). -/
def reconstructPathGo (parent : JsMap (Option String)) :
    ℕ → Option String → List String → List String
  | 0, _, acc => acc
  | _ + 1, none, acc => acc
  | fuel + 1, some cur, acc =>
    reconstructPathGo parent fuel ((parent.get cur).join) (cur :: acc)

/-- Embedding of `reconstructPath` (routing.js): walk backwards through
parent pointers from `target`, then reverse. -/
def reconstructPath (parent : JsMap (Option String)) (target : String) :
    List String :=
  reconstructPathGo parent (parent.size + 1) (some target) []

/-- Loop state of `dijkstra`. -/
structure DState where
  dist : JsMap ℚ
  parent : JsMap (Option String)
  pq : MinHeap String
  nodesExplored : ℕ
  visitedOrder : List Visit
  maxPqSize : ℕ

/-- The mutable data touched by the neighbor relaxation `for` loop: the
distance map, the parent map, the frontier and the running frontier-size
maximum.  `dijkstra` and each direction of `bidirectionalDijkstra` run the
identical relaxation code over these four components. -/
structure RelaxAcc where
  dist : JsMap ℚ
  parent : JsMap (Option String)
  pq : MinHeap String
  maxPqSize : ℕ

/-- Body of the neighbor relaxation `for` loop of `dijkstra` (duplicated
verbatim in the source for each direction of `bidirectionalDijkstra`):
relax edge `vw` out of `u`, whose extracted priority is `curT`. -/
def relaxCore (u : String) (curT : ℚ) (acc : RelaxAcc) (vw : String × ℚ) :
    RelaxAcc :=
  if ((curT + vw.2 : ℚ) : WithTop ℚ) < getInf acc.dist vw.1 then
    let pq' := acc.pq.push (curT + vw.2, vw.1)
    { dist := acc.dist.set vw.1 (curT + vw.2)
      parent := acc.parent.set vw.1 (some u)
      pq := pq'
      maxPqSize := max acc.maxPqSize pq'.size }
  else acc

/-- Embedding of the `while` loop of `dijkstra`, in the exact source order:
pop, count the visit, record the trace event, break on target, skip stale
entries, relax the neighbors. -/
def dijkstraLoop (graph : Graph) (target : String) :
    ℕ → DState → Option DState
  | 0, _ => none
  | fuel + 1, st =>
    if st.pq.size > 0 then
      match st.pq.pop with
      | none => none
      | some ((curT, u), pq') =>
        let st1 : DState :=
          { st with
            pq := pq'
            nodesExplored := st.nodesExplored + 1
            visitedOrder := st.visitedOrder ++ [⟨u, (st.parent.get u).join, none⟩] }
        if u = target then some st1
        else if (curT : WithTop ℚ) > getInf st1.dist u then
          dijkstraLoop graph target fuel st1
        else
          let acc := ((graph.get u).getD []).foldl (relaxCore u curT)
            ⟨st1.dist, st1.parent, st1.pq, st1.maxPqSize⟩
          dijkstraLoop graph target fuel
            { st1 with
              dist := acc.dist
              parent := acc.parent
              pq := acc.pq
              maxPqSize := acc.maxPqSize }
    else some st

/-- Embedding of `dijkstra` (routing.js).  The unused `nodeCoords` parameter
is kept for the uniform algorithm interface, as in the source. -/
def dijkstra (fuel : ℕ) (graph : Graph) (start target : String)
    (nodeCoords : Coords) : Option SearchResult :=
  let st0 : DState :=
    { dist := ⟨[(start, 0)]⟩
      parent := ⟨[(start, none)]⟩
      pq := MinHeap.mkEmpty.push (0, start)
      nodesExplored := 0
      visitedOrder := []
      maxPqSize := 1 }
  match dijkstraLoop graph target fuel st0 with
  | none => none
  | some st =>
    let estimatedMemoryKB : ℚ :=
      ((st.dist.size * 100 : ℚ) + (st.parent.size * 100 : ℚ)
        + (st.maxPqSize * 50 : ℚ)) / 1024
    if st.dist.has target then
      some
        { path := some (reconstructPath st.parent target)
          travelTime := st.dist.get target
          nodesExplored := st.nodesExplored
          visitedOrder := st.visitedOrder
          estimatedMemoryKB := estimatedMemoryKB }
    else
      some
        { path := none
          travelTime := none
          nodesExplored := st.nodesExplored
          visitedOrder := st.visitedOrder
          estimatedMemoryKB := estimatedMemoryKB }

/-- Modelled from the spec: the `haversine` function of geo.js is imported by
routing.js but its source is not under src/.  The spec describes it as the
great-circle distance in kilometers between two `(latitude, longitude)`
coordinates; it is modelled as an abstract distance function `hdist` passed
to `astar` as an explicit parameter, mirroring the import boundary. -/
def HaversineFun : Type := (ℚ × ℚ) → (ℚ × ℚ) → ℚ

/-- Heuristic of `astar`: straight-line distance to the target converted to
minutes at 60 km/h (`distKm / (60 / 60.0)`), and `0` for a node without
coordinates. -/
def astarHeuristic (hdist : HaversineFun) (nodeCoords : Coords)
    (targetCoord : ℚ × ℚ) (node : String) : ℚ :=
  match nodeCoords.get node with
  | none => 0
  | some c => hdist c targetCoord / (60 / 60)

/-- Loop state of `astar`. -/
structure AState where
  gScore : JsMap ℚ
  fScore : JsMap ℚ
  parent : JsMap (Option String)
  pq : MinHeap (ℚ × String)
  nodesExplored : ℕ
  visitedOrder : List Visit
  maxPqSize : ℕ

/-- Body of the neighbor relaxation loop of `astar`.  As in the source,
`tentativeG` is computed from `gScore.get(u)` (equal to the popped `curG`
after the stale check); the `getD 0` default is never taken because every
popped node has a `gScore` entry. -/
def astarRelax (h : String → ℚ) (u : String) (st : AState) (vw : String × ℚ) :
    AState :=
  let tentativeG := (st.gScore.get u).getD 0 + vw.2
  if ((tentativeG : ℚ) : WithTop ℚ) < getInf st.gScore vw.1 then
    let f := tentativeG + h vw.1
    let pq' := st.pq.push (f, (tentativeG, vw.1))
    { st with
      gScore := st.gScore.set vw.1 tentativeG
      fScore := st.fScore.set vw.1 f
      parent := st.parent.set vw.1 (some u)
      pq := pq'
      maxPqSize := max st.maxPqSize pq'.size }
  else st

/-- Embedding of the `while` loop of `astar`: pop by lowest `fScore`, count
and record the visit, break on target, skip entries stale in `gScore`,
relax the neighbors. -/
def astarLoop (graph : Graph) (h : String → ℚ) (target : String) :
    ℕ → AState → Option AState
  | 0, _ => none
  | fuel + 1, st =>
    if st.pq.size > 0 then
      match st.pq.pop with
      | none => none
      | some ((_, (curG, u)), pq') =>
        let st1 : AState :=
          { st with
            pq := pq'
            nodesExplored := st.nodesExplored + 1
            visitedOrder := st.visitedOrder ++ [⟨u, (st.parent.get u).join, none⟩] }
        if u = target then some st1
        else if (curG : WithTop ℚ) > getInf st1.gScore u then
          astarLoop graph h target fuel st1
        else
          astarLoop graph h target fuel
            (((graph.get u).getD []).foldl (astarRelax h u) st1)
    else some st

/-- Embedding of `astar` (routing.js): fail immediately with zero explored
nodes when the start or target has no coordinate entry, otherwise run the
heuristic-guided loop. -/
def astar (hdist : HaversineFun) (fuel : ℕ) (graph : Graph)
    (start target : String) (nodeCoords : Coords) : Option SearchResult :=
  if ¬ (nodeCoords.has target ∧ nodeCoords.has start) then
    some
      { path := none
        travelTime := none
        nodesExplored := 0
        visitedOrder := []
        estimatedMemoryKB := 0 }
  else
    let targetCoord := (nodeCoords.get target).getD (0, 0)
    let h := astarHeuristic hdist nodeCoords targetCoord
    let st0 : AState :=
      { gScore := ⟨[(start, 0)]⟩
        fScore := ⟨[(start, h start)]⟩
        parent := ⟨[(start, none)]⟩
        pq := MinHeap.mkEmpty.push (h start, (0, start))
        nodesExplored := 0
        visitedOrder := []
        maxPqSize := 1 }
    match astarLoop graph h target fuel st0 with
    | none => none
    | some st =>
      let estimatedMemoryKB : ℚ :=
        ((st.gScore.size * 100 : ℚ) + (st.fScore.size * 100 : ℚ)
          + (st.parent.size * 100 : ℚ) + (st.maxPqSize * 70 : ℚ)) / 1024
      if st.gScore.has target then
        some
          { path := some (reconstructPath st.parent target)
            travelTime := st.gScore.get target
            nodesExplored := st.nodesExplored
            visitedOrder := st.visitedOrder
            estimatedMemoryKB := estimatedMemoryKB }
      else
        some
          { path := none
            travelTime := none
            nodesExplored := st.nodesExplored
            visitedOrder := st.visitedOrder
            estimatedMemoryKB := estimatedMemoryKB }

/-- Per-direction state of `bidirectionalDijkstra` (dist/parent/frontier and
the settled set used by the memory estimate). -/
structure SideState where
  dist : JsMap ℚ
  parent : JsMap (Option String)
  pq : MinHeap String
  settled : List String
  maxPqSize : ℕ

/-- Loop state of `bidirectionalDijkstra`. -/
structure BState where
  fwd : SideState
  bwd : SideState
  bestPathCost : WithTop ℚ
  meetingNode : Option String
  nodesExplored : ℕ
  visitedOrder : List Visit

/-- Embedding of `reverseGraph` construction: every edge `u→v` of weight `w`
contributes `v→u` of weight `w`, in iteration order; also counts the edges.
The JS `reverseGraph.get(v).push([u, w])` after a conditional
`set(v, [])` is one functional `set` appending to the current (default
empty) list. -/
def buildReverseGraph (graph : Graph) : Graph × ℕ :=
  graph.entries.foldl
    (fun acc uv =>
      uv.2.foldl
        (fun (acc : Graph × ℕ) vw =>
          (acc.1.set vw.1 (((acc.1.get vw.1).getD []) ++ [(uv.1, vw.2)]),
            acc.2 + 1))
        acc)
    (JsMap.empty, 0)

/-- One expansion step of one direction of `bidirectionalDijkstra`.  The
source duplicates this code verbatim for the forward and backward frontier;
here it is a single function applied to the direction's graph, state,
side tag, and the opposite direction's distance map. -/
def expandSide (g : Graph) (sideTag : String) (my : SideState)
    (otherDist : JsMap ℚ) (best : WithTop ℚ) (meeting : Option String)
    (explored : ℕ) (visited : List Visit) :
    SideState × WithTop ℚ × Option String × ℕ × List Visit :=
  if my.pq.size > 0 then
    match my.pq.pop with
    | none => (my, best, meeting, explored, visited)
    | some ((curT, u), pq') =>
      let explored := explored + 1
      let visited := visited ++ [⟨u, (my.parent.get u).join, some sideTag⟩]
      let my1 : SideState := { my with pq := pq' }
      if (curT : WithTop ℚ) ≤ getInf my1.dist u then
        let my2 : SideState :=
          { my1 with
            settled := if u ∈ my1.settled then my1.settled else my1.settled ++ [u] }
        let bm : WithTop ℚ × Option String :=
          match otherDist.get u, my2.dist.get u with
          | some db, some dm =>
            if ((dm + db : ℚ) : WithTop ℚ) < best then
              (((dm + db : ℚ) : WithTop ℚ), some u)
            else (best, meeting)
          | _, _ => (best, meeting)
        let acc := ((g.get u).getD []).foldl (relaxCore u curT)
          ⟨my2.dist, my2.parent, my2.pq, my2.maxPqSize⟩
        let my3 : SideState :=
          { my2 with
            dist := acc.dist
            parent := acc.parent
            pq := acc.pq
            maxPqSize := acc.maxPqSize }
        (my3, bm.1, bm.2, explored, visited)
      else
        (my1, best, meeting, explored, visited)
  else (my, best, meeting, explored, visited)

/-- Minimum stored priority of a frontier, `Infinity` when empty
(`pq.size() > 0 ? pq.heap[0][0] : Infinity`). -/
def peekMin (pq : MinHeap String) : WithTop ℚ :=
  match pq.heap[0]? with
  | some e => (e.1 : WithTop ℚ)
  | none => ⊤

/-- Embedding of the interleaved `while` loop of `bidirectionalDijkstra`:
one forward expansion, one backward expansion (seeing the updated forward
distances), then the termination test
`minF + minB >= bestPathCost`. -/
def bidiLoop (graph reverseGraph : Graph) :
    ℕ → BState → Option BState
  | 0, _ => none
  | fuel + 1, st =>
    if st.fwd.pq.size > 0 || st.bwd.pq.size > 0 then
      match expandSide graph "start" st.fwd st.bwd.dist st.bestPathCost
          st.meetingNode st.nodesExplored st.visitedOrder with
      | (fwd1, best1, meeting1, explored1, visited1) =>
        match expandSide reverseGraph "end" st.bwd fwd1.dist best1 meeting1
            explored1 visited1 with
        | (bwd2, best2, meeting2, explored2, visited2) =>
          let st2 : BState := ⟨fwd1, bwd2, best2, meeting2, explored2, visited2⟩
          if peekMin st2.fwd.pq + peekMin st2.bwd.pq ≥ st2.bestPathCost then
            some st2
          else
            bidiLoop graph reverseGraph fuel st2
    else some st

/-- Conversion of the `WithTop ℚ` best path cost into the nullable
`travelTime` field (finite only; `meetingNode === null` guards the `⊤`
case in the source). -/
def withTopToOption (x : WithTop ℚ) : Option ℚ :=
  x.recTopCoe none some

/-- Embedding of `bidirectionalDijkstra` (routing.js). -/
def bidirectionalDijkstra (fuel : ℕ) (graph : Graph) (start target : String)
    (nodeCoords : Coords) : Option SearchResult :=
  let rg := buildReverseGraph graph
  let st0 : BState :=
    { fwd :=
        { dist := ⟨[(start, 0)]⟩
          parent := ⟨[(start, none)]⟩
          pq := MinHeap.mkEmpty.push (0, start)
          settled := []
          maxPqSize := 1 }
      bwd :=
        { dist := ⟨[(target, 0)]⟩
          parent := ⟨[(target, none)]⟩
          pq := MinHeap.mkEmpty.push (0, target)
          settled := []
          maxPqSize := 1 }
      bestPathCost := ⊤
      meetingNode := none
      nodesExplored := 0
      visitedOrder := [] }
  match bidiLoop graph rg.1 fuel st0 with
  | none => none
  | some st =>
    let reverseGraphMem : ℚ := rg.2 * 50
    let forwardMem : ℚ := (st.fwd.dist.size * 100 : ℚ)
      + (st.fwd.parent.size * 100 : ℚ) + (st.fwd.settled.length * 50 : ℚ)
      + (st.fwd.maxPqSize * 50 : ℚ)
    let backwardMem : ℚ := (st.bwd.dist.size * 100 : ℚ)
      + (st.bwd.parent.size * 100 : ℚ) + (st.bwd.settled.length * 50 : ℚ)
      + (st.bwd.maxPqSize * 50 : ℚ)
    let estimatedMemoryKB := (reverseGraphMem + forwardMem + backwardMem) / 1024
    match st.meetingNode with
    | none =>
      some
        { path := none
          travelTime := none
          nodesExplored := st.nodesExplored
          visitedOrder := st.visitedOrder
          estimatedMemoryKB := estimatedMemoryKB }
    | some mt =>
      let pathToMeeting := reconstructPath st.fwd.parent mt
      let pathFromMeeting := (reconstructPath st.bwd.parent mt).reverse
      let fullPath := pathToMeeting ++ pathFromMeeting.drop 1
      some
        { path := some fullPath
          travelTime := withTopToOption st.bestPathCost
          nodesExplored := st.nodesExplored
          visitedOrder := st.visitedOrder
          estimatedMemoryKB := estimatedMemoryKB }

/-- Embedding of `buildGoogleMapsUrl` (routing.js).  String rendering of the
rational coordinates abstracts the JS number formatting. -/
def buildGoogleMapsUrl (path : List String) (nodeCoords : Coords) :
    Option String :=
  if path.length < 2 then none
  else
    let coords := (path.filter (fun nid => nodeCoords.has nid)).filterMap
      (fun nid => nodeCoords.get nid)
    if coords.length < 2 then none
    else
      let origin := coords.headI
      let dest := coords.getLastD (0, 0)
      let waypoints := (coords.drop 1).dropLast
      let base := "https://www.google.com/maps/dir/?api=1&origin="
        ++ toString origin.1 ++ "," ++ toString origin.2
        ++ "&destination=" ++ toString dest.1 ++ "," ++ toString dest.2
      if waypoints.length > 0 then
        let subset := waypoints.take 10
        let wpStr := String.intercalate "|"
          (subset.map (fun c => toString c.1 ++ "," ++ toString c.2))
        some (base ++ "&waypoints=" ++ wpStr)
      else
        some base

/-- Static metadata and entry point of one algorithm, as in the
`ALGORITHMS` array. -/
structure AlgoDef where
  name : String
  func : ℕ → Graph → String → String → Coords → Option SearchResult
  timeComplexity : String
  spaceComplexity : String
  spaceNote : String
  description : String

/-- Embedding of the `ALGORITHMS` array of routing.js (the fuel argument and
the haversine parameter of `astar` are threaded through). -/
def ALGORITHMS (hdist : HaversineFun) : List AlgoDef :=
  [ { name := "Dijkstra"
      func := dijkstra
      timeComplexity := "O((V + E) log V)"
      spaceComplexity := "O(V)"
      spaceNote := "High"
      description := "Classic shortest path. Explores all directions equally - visits many nodes, high memory." }
  , { name := "A* (A-Star)"
      func := astar hdist
      timeComplexity := "O((V + E) log V)*"
      spaceComplexity := "O(V)*"
      spaceNote := "Medium"
      description := "Heuristic-guided. Explores fewer nodes than Dijkstra - lower memory in practice." }
  , { name := "Bidirectional Dijkstra"
      func := bidirectionalDijkstra
      timeComplexity := "O((V + E) log V)"
      spaceComplexity := "O(V + E)"
      spaceNote := "Highest"
      description := "Dual search from both ends. Needs reverse graph - highest memory overhead." } ]

/-- Report assembled by `runAlgorithm`.  The wall-clock `execTimeMs` field is
not modelled (real time is outside the embedding). -/
structure Report where
  name : String
  path : Option (List String)
  travelTime : Option ℚ
  nodesExplored : ℕ
  visitedOrder : List Visit
  estimatedMemoryKB : ℚ
  timeComplexity : String
  spaceComplexity : String
  spaceNote : String
  description : String
  pathLength : ℕ
  gmapsUrl : Option String

/-- Embedding of `runAlgorithm` (routing.js): invoke the algorithm and pack
the outcome with the static metadata; `pathLength` is `path.length` or `0`,
`gmapsUrl` is built only for a non-null path. -/
def runAlgorithm (algo : AlgoDef) (fuel : ℕ) (graph : Graph)
    (start target : String) (nodeCoords : Coords) : Option Report :=
  match algo.func fuel graph start target nodeCoords with
  | none => none
  | some r =>
    some
      { name := algo.name
        path := r.path
        travelTime := r.travelTime
        nodesExplored := r.nodesExplored
        visitedOrder := r.visitedOrder
        estimatedMemoryKB := r.estimatedMemoryKB
        timeComplexity := algo.timeComplexity
        spaceComplexity := algo.spaceComplexity
        spaceNote := algo.spaceNote
        description := algo.description
        pathLength := match r.path with | some p => p.length | none => 0
        gmapsUrl := match r.path with
          | some p => buildGoogleMapsUrl p nodeCoords
          | none => none }

/-! ### Concrete scenario inputs from the specification -/

/-- Scenario graph `{A: [(B,1),(C,4)], B: [(C,1)], C: []}` (spec §8). -/
def exampleGraph : Graph :=
  ⟨[("A", [("B", 1), ("C", 4)]), ("B", [("C", 1)]), ("C", [])]⟩

/-- Empty coordinate lookup (unused by `dijkstra`). -/
def emptyCoords : Coords := ⟨[]⟩

/-- Inadmissible-heuristic input: the direct edge `A→T` costs 10, the detour
`A→M→T` costs 2, and the straight-line estimate at `M` vastly exceeds the
true remaining cost. -/
def cexGraph : Graph :=
  ⟨[("A", [("T", 10), ("M", 1)]), ("M", [("T", 1)]), ("T", [])]⟩

def cexCoords : Coords :=
  ⟨[("A", (0, 0)), ("M", (50, 50)), ("T", (0, 1))]⟩

/-- An instance of the spec-modelled great-circle distance: about 1000 km
from the far-away point `(50,50)` to anywhere, and 0 between the remaining
(nearby) points.  Distances are non-negative and zero at the target itself,
as for the real haversine. -/
def cexHdist : HaversineFun := fun c _ => if c = ((50 : ℚ), (50 : ℚ)) then 1000 else 0

/-- C3: on the graph `{A: [(B,1),(C,4)], B: [(C,1)], C: []}`, uniform-cost
search (`dijkstra`) from `A` to `C` returns the path `[A,B,C]` with total
cost 2. -/
theorem C3_dijkstra_scenario_path_cost :
    (dijkstra 20 exampleGraph "A" "C" emptyCoords).map
      (fun r => (r.path, r.travelTime)) =
    some (some ["A", "B", "C"], some 2) := by
  with_unfolding_all rfl

/-- C4: contrary to the claim, a frontier extraction whose stored priority
exceeds the node's best-known cost is counted and traced before the stale
check runs: on the scenario graph searched from `A` towards an absent `Z`,
the superseded entry `(4, C)` (best-known cost of `C` is 2) is popped as the
fourth extraction, `nodesExplored` becomes 4 and a fourth visitation event
for `C` is appended, where the claimed behavior leaves 3 and three events. -/
theorem C4_stale_extraction_counted_at_failing_input :
    (dijkstra 20 exampleGraph "A" "Z" emptyCoords).map
      (fun r => (r.nodesExplored, r.visitedOrder.map Visit.id)) =
    some (4, ["A", "B", "C", "C"]) := by
  with_unfolding_all rfl

/-- C8 counterexample: the claim fixes the explored count at 2 (the spec's
number), but `dijkstra` from `A` to the absent `Z` on the scenario graph
explores 4 (three valid extractions plus one counted stale extraction). -/
theorem C8_counterexample_explored_count :
    ¬ ((dijkstra 20 exampleGraph "A" "Z" emptyCoords).map
        (fun r => r.nodesExplored) = some 2) := by
  with_unfolding_all decide

/-- C8 (amended): `dijkstra` from `A` to the absent `Z` on the scenario
graph returns a null path and null cost, and `nodesExplored = 4` — the
reachable nodes `A`, `B`, `C` each validly extracted once, plus the counted
stale re-extraction of `C`. -/
theorem C8_dijkstra_missing_target_result :
    (dijkstra 20 exampleGraph "A" "Z" emptyCoords).map
      (fun r => (r.path, r.travelTime, r.nodesExplored)) =
    some (none, none, 4) := by
  with_unfolding_all rfl

/-- C1 counterexample: with the great-circle distance instance `cexHdist`
(which overestimates the remaining cost at `M`), `astar` and `dijkstra` both
return a path on `cexGraph` from `A` to `T`, but `astar` reports cost 10
(the direct edge) while `dijkstra` reports the optimal cost 2. -/
theorem C1_counterexample :
    (astar cexHdist 30 cexGraph "A" "T" cexCoords).map
        (fun r => (r.path, r.travelTime)) =
      some (some ["A", "T"], some 10) ∧
    (dijkstra 30 cexGraph "A" "T" cexCoords).map
        (fun r => (r.path, r.travelTime)) =
      some (some ["A", "M", "T"], some 2) ∧
    ¬ ((astar cexHdist 30 cexGraph "A" "T" cexCoords).map
        SearchResult.travelTime =
      (dijkstra 30 cexGraph "A" "T" cexCoords).map
        SearchResult.travelTime) := by
  refine ⟨?_, ?_, ?_⟩ <;> with_unfolding_all decide

/-- C7: when the coordinate lookup is missing the start node or the target
node, `astar` returns the failure result through the normal result channel —
null path, null cost, zero `nodesExplored`, empty trace — and for any node
absent from the lookup the heuristic contributes zero. -/
theorem C7_astar_missing_coordinate_failure
    (hdist : HaversineFun) (fuel : ℕ) (graph : Graph) (start target : String)
    (nodeCoords : Coords)
    (h : nodeCoords.has start = false ∨ nodeCoords.has target = false) :
    astar hdist fuel graph start target nodeCoords =
      some { path := none, travelTime := none, nodesExplored := 0,
             visitedOrder := [], estimatedMemoryKB := 0 } ∧
    ∀ (targetCoord : ℚ × ℚ) (node : String), nodeCoords.has node = false →
      astarHeuristic hdist nodeCoords targetCoord node = 0 := by
  constructor
  · unfold astar
    rw [if_pos]
    intro hcon
    rcases h with h | h
    · rw [hcon.2] at h
      cases h
    · rw [hcon.1] at h
      cases h
  · intro targetCoord node hnode
    unfold astarHeuristic
    rw [JsMap.get_eq_none_of_not_has nodeCoords node hnode]

theorem C7_witness :
    ((⟨[]⟩ : Coords).has "A" = false ∨ (⟨[]⟩ : Coords).has "C" = false) ∧
    (astar cexHdist 5 exampleGraph "A" "C" ⟨[]⟩ =
      some { path := none, travelTime := none, nodesExplored := 0,
             visitedOrder := [], estimatedMemoryKB := 0 } ∧
     ∀ (targetCoord : ℚ × ℚ) (node : String),
       (⟨[]⟩ : Coords).has node = false →
       astarHeuristic cexHdist ⟨[]⟩ targetCoord node = 0) :=
  ⟨Or.inl rfl,
    C7_astar_missing_coordinate_failure cexHdist 5 exampleGraph "A" "C" ⟨[]⟩
      (Or.inl rfl)⟩

/-! ### Null-path and null-cost coupling of the three algorithms -/

theorem dijkstra_path_none_travelTime_none (fuel : ℕ) (g : Graph)
    (s t : String) (c : Coords) (r : SearchResult)
    (h : dijkstra fuel g s t c = some r) (hp : r.path = none) :
    r.travelTime = none := by
  unfold dijkstra at h
  simp only [] at h
  split at h
  · cases h
  · split at h
    · cases h
      simp at hp
    · cases h
      rfl

theorem astar_path_none_travelTime_none (hdist : HaversineFun) (fuel : ℕ)
    (g : Graph) (s t : String) (c : Coords) (r : SearchResult)
    (h : astar hdist fuel g s t c = some r) (hp : r.path = none) :
    r.travelTime = none := by
  unfold astar at h
  simp only [] at h
  split at h
  · cases h
    rfl
  · split at h
    · cases h
    · split at h
      · cases h
        simp at hp
      · cases h
        rfl

theorem bidi_path_none_travelTime_none (fuel : ℕ) (g : Graph)
    (s t : String) (c : Coords) (r : SearchResult)
    (h : bidirectionalDijkstra fuel g s t c = some r) (hp : r.path = none) :
    r.travelTime = none := by
  unfold bidirectionalDijkstra at h
  simp only [] at h
  split at h
  · cases h
  · split at h
    · cases h
      rfl
    · cases h
      simp at hp

/-- C9: whenever the selected algorithm returns a null path, the report of
`runAlgorithm` carries no valid-looking path-derived values: `travelTime` is
null, `gmapsUrl` is null, and `pathLength` is the integer 0. -/
theorem C9_null_path_report_fields (hdist : HaversineFun) (algo : AlgoDef)
    (halgo : algo ∈ ALGORITHMS hdist) (fuel : ℕ) (g : Graph) (s t : String)
    (coords : Coords) (report : Report)
    (hrun : runAlgorithm algo fuel g s t coords = some report)
    (hpath : report.path = none) :
    report.travelTime = none ∧ report.gmapsUrl = none ∧
      report.pathLength = 0 := by
  unfold runAlgorithm at hrun
  split at hrun
  · cases hrun
  · next r heq =>
    cases hrun
    simp only [] at hpath
    refine ⟨?_, ?_, ?_⟩
    · simp only [ALGORITHMS, List.mem_cons, List.not_mem_nil, or_false] at halgo
      rcases halgo with rfl | rfl | rfl
      · exact dijkstra_path_none_travelTime_none fuel g s t coords r heq hpath
      · exact astar_path_none_travelTime_none hdist fuel g s t coords r heq hpath
      · exact bidi_path_none_travelTime_none fuel g s t coords r heq hpath
    · simp only [hpath]
    · simp only [hpath]

instance : Inhabited AlgoDef :=
  ⟨{ name := "", func := dijkstra, timeComplexity := "", spaceComplexity := "",
     spaceNote := "", description := "" }⟩

theorem C9_witness :
    ∃ report,
      runAlgorithm ((ALGORITHMS cexHdist).headI) 20 exampleGraph "A" "Z"
          emptyCoords = some report ∧
      report.path = none ∧ report.travelTime = none ∧
      report.gmapsUrl = none ∧ report.pathLength = 0 := by
  rcases hcomp : runAlgorithm ((ALGORITHMS cexHdist).headI) 20 exampleGraph
      "A" "Z" emptyCoords with _ | report
  · have hsome : (runAlgorithm ((ALGORITHMS cexHdist).headI) 20 exampleGraph
        "A" "Z" emptyCoords).isSome = true := by
      with_unfolding_all rfl
    rw [hcomp] at hsome
    cases hsome
  · have hpathm : (runAlgorithm ((ALGORITHMS cexHdist).headI) 20 exampleGraph
        "A" "Z" emptyCoords).map Report.path = some none := by
      with_unfolding_all rfl
    rw [hcomp] at hpathm
    replace hpathm : report.path = none := by simpa using hpathm
    have hmem : (ALGORITHMS cexHdist).headI ∈ ALGORITHMS cexHdist := by
      simp [ALGORITHMS, List.headI]
    obtain ⟨h1, h2, h3⟩ := C9_null_path_report_fields cexHdist _ hmem 20
      exampleGraph "A" "Z" emptyCoords report hcomp hpathm
    exact ⟨report, rfl, hpathm, h1, h2, h3⟩

/-! ### Path costs, non-negative weights, and the node set of a graph -/

/-- All node ids mentioned by a graph object: its keys together with every
edge target, deduplicated.  This is the total node count referred to by the
specification's invariants. -/
def graphNodes (g : Graph) : List String :=
  (g.entries.map (fun e => e.1)
    ++ g.entries.flatMap (fun e => e.2.map (fun vw => vw.1))).dedup

/-- Every edge weight of the graph is non-negative (stated over the stored
adjacency lists; the data model fixes weights as non-negative travel
times). -/
def NonnegWeights (g : Graph) : Prop :=
  ∀ e ∈ g.entries, ∀ vw ∈ e.2, 0 ≤ vw.2

theorem JsMap.get_eq_some_mem {β : Type} (m : JsMap β) (k : String) (v : β)
    (h : m.get k = some v) : (k, v) ∈ m.entries := by
  unfold JsMap.get at h
  rcases hf : m.entries.find? (fun e => e.1 = k) with _ | e
  · rw [hf] at h
    cases h
  · rw [hf] at h
    have hmem := List.mem_of_find?_eq_some hf
    have hk := List.find?_some hf
    simp only [decide_eq_true_eq] at hk
    replace h : e.2 = v := by simpa using h
    have : e = (k, v) := by
      cases e
      simp only [] at hk h
      rw [hk, h]
    rwa [this] at hmem

/-- `NonnegWeights` transferred to the adjacency lists the searches read. -/
theorem NonnegWeights.get {g : Graph} (hnn : NonnegWeights g) (u : String) :
    ∀ vw ∈ (g.get u).getD [], 0 ≤ vw.2 := by
  rcases hg : g.get u with _ | adj
  · simp
  · simpa using hnn (u, adj) (JsMap.get_eq_some_mem g u adj hg)

/-- `PathTo g s v c`: some walk along edges of `g` leads from `s` to `v`
with total weight `c`; edges are appended at the far end, matching the
relaxation order of the searches. -/
inductive PathTo (g : Graph) (s : String) : String → ℚ → Prop
  | refl : PathTo g s s 0
  | step {u v : String} {c w : ℚ} :
      PathTo g s u c → (v, w) ∈ (g.get u).getD [] → PathTo g s v (c + w)

/-- `PathFrom g t v c`: some walk along edges of `g` leads from `v` to `t`
with total weight `c`; edges are prepended at the near end, matching the
suffix decomposition used for heuristic admissibility. -/
inductive PathFrom (g : Graph) (t : String) : String → ℚ → Prop
  | refl : PathFrom g t t 0
  | cons {u v : String} {w c : ℚ} :
      (v, w) ∈ (g.get u).getD [] → PathFrom g t v c → PathFrom g t u (w + c)

theorem pathTo_cast {g : Graph} {s v : String} {c c' : ℚ}
    (h : PathTo g s v c) (hc : c = c') : PathTo g s v c' := hc ▸ h

theorem pathFrom_cast {g : Graph} {t v : String} {c c' : ℚ}
    (h : PathFrom g t v c) (hc : c = c') : PathFrom g t v c' := hc ▸ h

theorem PathTo.prepend {g : Graph} {s v z : String} {w c : ℚ}
    (he : (v, w) ∈ (g.get s).getD []) (h : PathTo g v z c) :
    PathTo g s z (w + c) := by
  induction h with
  | refl => exact pathTo_cast (PathTo.step PathTo.refl he) (by ring)
  | step hp he' ih => exact pathTo_cast (PathTo.step ih he') (by ring)

theorem PathFrom.snoc {g : Graph} {u v s : String} {w c : ℚ}
    (h : PathFrom g u s c) (he : (v, w) ∈ (g.get u).getD []) :
    PathFrom g v s (c + w) := by
  induction h with
  | refl => exact pathFrom_cast (PathFrom.cons he PathFrom.refl) (by ring)
  | cons he' hp ih => exact pathFrom_cast (PathFrom.cons he' ih) (by ring)

/-- The two path predicates describe the same walks with the same total
weight. -/
theorem pathFrom_iff_pathTo {g : Graph} {s t : String} {c : ℚ} :
    PathFrom g t s c ↔ PathTo g s t c := by
  constructor
  · intro h
    induction h with
    | refl => exact PathTo.refl
    | cons he hp ih => exact PathTo.prepend he ih
  · intro h
    induction h with
    | refl => exact PathFrom.refl
    | step hp he ih => exact PathFrom.snoc ih he

theorem PathTo.nonneg {g : Graph} {s v : String} {c : ℚ}
    (hnn : NonnegWeights g) (h : PathTo g s v c) : 0 ≤ c := by
  induction h with
  | refl => exact le_refl 0
  | step hp he ih => exact add_nonneg ih (hnn.get _ _ he)

/-! ### Monotonicity and positivity of `nodesExplored` -/

theorem dijkstraLoop_explored_mono (g : Graph) (t : String) :
    ∀ fuel (st res : DState), dijkstraLoop g t fuel st = some res →
      st.nodesExplored ≤ res.nodesExplored := by
  intro fuel
  induction fuel with
  | zero => intro st res h; cases h
  | succ n ih =>
    intro st res h
    rw [dijkstraLoop] at h
    split at h
    · split at h
      · cases h
      · next curT u pq' heq =>
        simp only [] at h
        split at h
        · cases h
          exact Nat.le_succ _
        · split at h
          · exact le_trans (Nat.le_succ _) (ih _ _ h)
          · exact le_trans (Nat.le_succ _) (ih _ _ h)
    · cases h
      exact le_refl _

theorem dijkstraLoop_explored_pos (g : Graph) (t : String)
    (fuel : ℕ) (st res : DState) (hpq : 0 < st.pq.size)
    (h : dijkstraLoop g t fuel st = some res) :
    1 ≤ res.nodesExplored := by
  cases fuel with
  | zero => cases h
  | succ n =>
    rw [dijkstraLoop] at h
    rw [if_pos hpq] at h
    split at h
    · cases h
    · next curT u pq' heq =>
      simp only [] at h
      split at h
      · cases h
        exact Nat.le_add_left 1 _
      · split at h
        · exact le_trans (Nat.le_add_left 1 _) (dijkstraLoop_explored_mono g t n _ _ h)
        · exact le_trans (Nat.le_add_left 1 _) (dijkstraLoop_explored_mono g t n _ _ h)

theorem astarRelax_foldl_explored (h0 : String → ℚ) (u : String)
    (l : List (String × ℚ)) (st : AState) :
    (l.foldl (astarRelax h0 u) st).nodesExplored = st.nodesExplored := by
  induction l generalizing st with
  | nil => rfl
  | cons a l ih =>
    rw [List.foldl_cons, ih]
    unfold astarRelax
    simp only []
    split <;> rfl

theorem astarLoop_explored_mono (g : Graph) (h0 : String → ℚ) (t : String) :
    ∀ fuel (st res : AState), astarLoop g h0 t fuel st = some res →
      st.nodesExplored ≤ res.nodesExplored := by
  intro fuel
  induction fuel with
  | zero => intro st res h; cases h
  | succ n ih =>
    intro st res h
    rw [astarLoop] at h
    split at h
    · split at h
      · cases h
      · next f curG u pq' heq =>
        simp only [] at h
        split at h
        · cases h
          exact Nat.le_succ _
        · split at h
          · exact le_trans (Nat.le_succ _) (ih _ _ h)
          · have hrec := ih _ _ h
            rw [astarRelax_foldl_explored] at hrec
            exact le_trans (Nat.le_succ _) hrec
    · cases h
      exact le_refl _

theorem astarLoop_explored_pos (g : Graph) (h0 : String → ℚ) (t : String)
    (fuel : ℕ) (st res : AState) (hpq : 0 < st.pq.size)
    (h : astarLoop g h0 t fuel st = some res) :
    1 ≤ res.nodesExplored := by
  cases fuel with
  | zero => cases h
  | succ n =>
    rw [astarLoop] at h
    rw [if_pos hpq] at h
    split at h
    · cases h
    · next f curG u pq' heq =>
      simp only [] at h
      split at h
      · cases h
        exact Nat.le_add_left 1 _
      · split at h
        · exact le_trans (Nat.le_add_left 1 _) (astarLoop_explored_mono g h0 t n _ _ h)
        · have hrec := astarLoop_explored_mono g h0 t n _ _ h
          rw [astarRelax_foldl_explored] at hrec
          exact le_trans (Nat.le_add_left 1 _) hrec

theorem expandSide_explored_ge (g : Graph) (tag : String) (my : SideState)
    (od : JsMap ℚ) (best : WithTop ℚ) (meeting : Option String)
    (explored : ℕ) (visited : List Visit) :
    explored ≤ (expandSide g tag my od best meeting explored visited).2.2.2.1 := by
  rw [expandSide]
  split
  · split
    · exact le_refl _
    · simp only []
      split
      · exact Nat.le_succ _
      · exact Nat.le_succ _
  · exact le_refl _

theorem expandSide_explored_gt (g : Graph) (tag : String) (my : SideState)
    (od : JsMap ℚ) (best : WithTop ℚ) (meeting : Option String)
    (explored : ℕ) (visited : List Visit) (hpq : 0 < my.pq.size) :
    explored + 1 ≤ (expandSide g tag my od best meeting explored visited).2.2.2.1 := by
  rw [expandSide]
  rw [if_pos hpq]
  split
  · next heq =>
    obtain ⟨e, h', hpop⟩ := MinHeap.pop_isSome_of_ne_nil my.pq
      (fun hnil => by simp [MinHeap.size, hnil] at hpq)
    rw [hpop] at heq
    cases heq
  · simp only []
    split
    · exact le_refl _
    · exact le_refl _

theorem bidiLoop_explored_mono (g rg : Graph) :
    ∀ fuel (st res : BState), bidiLoop g rg fuel st = some res →
      st.nodesExplored ≤ res.nodesExplored := by
  intro fuel
  induction fuel with
  | zero => intro st res h; cases h
  | succ n ih =>
    intro st res h
    rw [bidiLoop] at h
    split at h
    · have h1 := expandSide_explored_ge g "start" st.fwd st.bwd.dist
        st.bestPathCost st.meetingNode st.nodesExplored st.visitedOrder
      rcases hf : expandSide g "start" st.fwd st.bwd.dist st.bestPathCost
        st.meetingNode st.nodesExplored st.visitedOrder with
        ⟨fwd1, best1, meeting1, explored1, visited1⟩
      rw [hf] at h h1
      simp only [] at h h1
      have h2 := expandSide_explored_ge rg "end" st.bwd fwd1.dist best1
        meeting1 explored1 visited1
      rcases hb : expandSide rg "end" st.bwd fwd1.dist best1 meeting1
        explored1 visited1 with ⟨bwd2, best2, meeting2, explored2, visited2⟩
      rw [hb] at h h2
      simp only [] at h h2
      split at h
      · cases h
        exact le_trans h1 h2
      · exact le_trans (le_trans h1 h2) (ih _ _ h)
    · cases h
      exact le_refl _

theorem bidiLoop_explored_pos (g rg : Graph) (fuel : ℕ) (st res : BState)
    (hpq : 0 < st.fwd.pq.size) (h : bidiLoop g rg fuel st = some res) :
    1 ≤ res.nodesExplored := by
  cases fuel with
  | zero => cases h
  | succ n =>
    rw [bidiLoop] at h
    rw [if_pos (by simp [hpq])] at h
    have h1 := expandSide_explored_gt g "start" st.fwd st.bwd.dist
      st.bestPathCost st.meetingNode st.nodesExplored st.visitedOrder hpq
    rcases hf : expandSide g "start" st.fwd st.bwd.dist st.bestPathCost
      st.meetingNode st.nodesExplored st.visitedOrder with
      ⟨fwd1, best1, meeting1, explored1, visited1⟩
    rw [hf] at h h1
    simp only [] at h h1
    have h2 := expandSide_explored_ge rg "end" st.bwd fwd1.dist best1
      meeting1 explored1 visited1
    rcases hb : expandSide rg "end" st.bwd fwd1.dist best1 meeting1
      explored1 visited1 with ⟨bwd2, best2, meeting2, explored2, visited2⟩
    rw [hb] at h h2
    simp only [] at h h2
    have hbase : 1 ≤ explored2 :=
      le_trans (Nat.le_add_left 1 _) (le_trans h1 h2)
    split at h
    · cases h
      exact hbase
    · exact le_trans hbase (bidiLoop_explored_mono g rg n _ _ h)

/-! ### C5: exploration count of the three algorithms -/

theorem dijkstra_explored_from_loop (fuel : ℕ) (g : Graph) (s t : String)
    (nc : Coords) (r : SearchResult) (h : dijkstra fuel g s t nc = some r) :
    ∃ st, dijkstraLoop g t fuel
        { dist := ⟨[(s, 0)]⟩
          parent := ⟨[(s, none)]⟩
          pq := MinHeap.mkEmpty.push (0, s)
          nodesExplored := 0
          visitedOrder := []
          maxPqSize := 1 } = some st ∧
      r.nodesExplored = st.nodesExplored := by
  unfold dijkstra at h
  simp only [] at h
  split at h
  · cases h
  · next st heq =>
    refine ⟨st, heq, ?_⟩
    split at h
    · cases h
      rfl
    · cases h
      rfl

theorem astar_explored_from_loop (hdist : HaversineFun) (fuel : ℕ)
    (g : Graph) (s t : String) (nc : Coords) (r : SearchResult)
    (h : astar hdist fuel g s t nc = some r) (hp : r.path ≠ none) :
    ∃ st, astarLoop g
        (astarHeuristic hdist nc ((nc.get t).getD (0, 0))) t fuel
        { gScore := ⟨[(s, 0)]⟩
          fScore := ⟨[(s, astarHeuristic hdist nc ((nc.get t).getD (0, 0)) s)]⟩
          parent := ⟨[(s, none)]⟩
          pq := MinHeap.mkEmpty.push
            (astarHeuristic hdist nc ((nc.get t).getD (0, 0)) s, (0, s))
          nodesExplored := 0
          visitedOrder := []
          maxPqSize := 1 } = some st ∧
      r.nodesExplored = st.nodesExplored := by
  unfold astar at h
  simp only [] at h
  split at h
  · cases h
    simp at hp
  · split at h
    · cases h
    · next st heq =>
      refine ⟨st, heq, ?_⟩
      split at h
      · cases h
        rfl
      · cases h
        rfl

theorem bidi_explored_from_loop (fuel : ℕ) (g : Graph) (s t : String)
    (nc : Coords) (r : SearchResult)
    (h : bidirectionalDijkstra fuel g s t nc = some r) :
    ∃ st, bidiLoop g (buildReverseGraph g).1 fuel
        { fwd :=
            { dist := ⟨[(s, 0)]⟩
              parent := ⟨[(s, none)]⟩
              pq := MinHeap.mkEmpty.push (0, s)
              settled := []
              maxPqSize := 1 }
          bwd :=
            { dist := ⟨[(t, 0)]⟩
              parent := ⟨[(t, none)]⟩
              pq := MinHeap.mkEmpty.push (0, t)
              settled := []
              maxPqSize := 1 }
          bestPathCost := ⊤
          meetingNode := none
          nodesExplored := 0
          visitedOrder := [] } = some st ∧
      r.nodesExplored = st.nodesExplored := by
  unfold bidirectionalDijkstra at h
  simp only [] at h
  split at h
  · cases h
  · next st heq =>
    refine ⟨st, heq, ?_⟩
    split at h
    · cases h
      rfl
    · cases h
      rfl

theorem singleton_push_size {α : Type} (e : HeapEntry α) :
    (MinHeap.mkEmpty.push e).size = 1 := by
  rw [MinHeap.push_size]
  rfl

/-- C5 counterexample: on the scenario graph, `dijkstra` from `A` to an
absent node `Z` reports `nodesExplored = 4`, strictly more than the graph's
3 nodes, because the superseded frontier entry `(4, C)` is counted when
popped; so the claimed upper bound `nodesExplored ≤ node count` fails. -/
theorem C5_counterexample_explored_exceeds_node_count :
    ¬ ∀ r, dijkstra 10 exampleGraph "A" "Z" emptyCoords = some r →
        r.nodesExplored ≤ (graphNodes exampleGraph).length := by
  intro hall
  have hmap : (dijkstra 10 exampleGraph "A" "Z" emptyCoords).map
      (fun r => decide
        (r.nodesExplored ≤ (graphNodes exampleGraph).length)) = some false := by
    with_unfolding_all rfl
  rcases hres : dijkstra 10 exampleGraph "A" "Z" emptyCoords with _ | r
  · rw [hres] at hmap
    cases hmap
  · rw [hres] at hmap
    replace hmap : decide
        (r.nodesExplored ≤ (graphNodes exampleGraph).length) = false := by
      simpa using hmap
    exact absurd (hall r hres) (of_decide_eq_false hmap)

/-- C5: (amended to the half that holds) every result any of the three
algorithms returns with a non-null path has a strictly positive
`nodesExplored`; the claimed upper bound by the node count is refuted by
`C5_counterexample_explored_exceeds_node_count`. -/
theorem C5_nodesExplored_positive (hdist : HaversineFun) (fuel : ℕ)
    (g : Graph) (s t : String) (nc : Coords) :
    (∀ r, dijkstra fuel g s t nc = some r → r.path ≠ none →
      1 ≤ r.nodesExplored) ∧
    (∀ r, astar hdist fuel g s t nc = some r → r.path ≠ none →
      1 ≤ r.nodesExplored) ∧
    (∀ r, bidirectionalDijkstra fuel g s t nc = some r → r.path ≠ none →
      1 ≤ r.nodesExplored) := by
  refine ⟨fun r h _ => ?_, fun r h hp => ?_, fun r h _ => ?_⟩
  · obtain ⟨st, hloop, hexp⟩ := dijkstra_explored_from_loop fuel g s t nc r h
    rw [hexp]
    exact dijkstraLoop_explored_pos g t fuel _ st
      (by rw [singleton_push_size]; exact Nat.one_pos) hloop
  · obtain ⟨st, hloop, hexp⟩ := astar_explored_from_loop hdist fuel g s t nc r h hp
    rw [hexp]
    exact astarLoop_explored_pos g _ t fuel _ st
      (by rw [singleton_push_size]; exact Nat.one_pos) hloop
  · obtain ⟨st, hloop, hexp⟩ := bidi_explored_from_loop fuel g s t nc r h
    rw [hexp]
    exact bidiLoop_explored_pos g _ fuel _ st
      (by rw [singleton_push_size]; exact Nat.one_pos) hloop

theorem C5_witness :
    ∃ r, dijkstra 10 exampleGraph "A" "C" emptyCoords = some r ∧
      r.path ≠ none ∧ 1 ≤ r.nodesExplored := by
  rcases hres : dijkstra 10 exampleGraph "A" "C" emptyCoords with _ | r
  · have hs : (dijkstra 10 exampleGraph "A" "C" emptyCoords).isSome = true := by
      with_unfolding_all rfl
    rw [hres] at hs
    cases hs
  · have hp : (dijkstra 10 exampleGraph "A" "C" emptyCoords).map
        (fun r => r.path) = some (some ["A", "B", "C"]) := by
      with_unfolding_all rfl
    rw [hres] at hp
    replace hp : r.path = some ["A", "B", "C"] := by simpa using hp
    exact ⟨r, rfl, by simp [hp],
      (C5_nodesExplored_positive cexHdist 10 exampleGraph "A" "C"
        emptyCoords).1 r hres (by simp [hp])⟩

/-! ### Utilities for singleton maps, heap pops and the relaxation fold -/

theorem JsMap.get_singleton {β : Type} (k : String) (v : β) :
    (⟨[(k, v)]⟩ : JsMap β).get k = some v := by
  simp [JsMap.get, List.find?]

theorem JsMap.mem_entries_set {β : Type} (m : JsMap β) (k : String) (v : β) :
    ∀ e ∈ (m.set k v).entries, e ∈ m.entries ∨ e = (k, v) := by
  unfold JsMap.set
  split
  · intro e he
    simp only [List.mem_map] at he
    obtain ⟨a, ha, hae⟩ := he
    by_cases h : a.1 = k
    · right
      rw [if_pos h] at hae
      exact hae.symm
    · left
      rw [if_neg h] at hae
      exact hae ▸ ha
  · intro e he
    rw [List.mem_append] at he
    rcases he with he | he
    · exact Or.inl he
    · right
      simpa using he

theorem JsMap.size_le_size_set {β : Type} (m : JsMap β) (k : String) (v : β) :
    m.size ≤ (m.set k v).size := by
  unfold JsMap.set JsMap.size
  split
  · simp
  · simp

theorem singleton_push_pop {α : Type} (e : HeapEntry α) :
    (MinHeap.mkEmpty.push e).pop = some (e, MinHeap.mkEmpty) := rfl

theorem pop_pos_size {α : Type} (h : MinHeap α) (e : HeapEntry α)
    (h' : MinHeap α) (hpop : h.pop = some (e, h')) : 0 < h.size := by
  rcases hh : h.heap with _ | ⟨a, t⟩
  · rw [(MinHeap.pop_eq_none_iff h).mpr hh] at hpop
    cases hpop
  · simp [MinHeap.size, hh]

theorem getInf_eq_coe {m : JsMap ℚ} {k : String} {d : ℚ}
    (h : m.get k = some d) : getInf m k = (d : WithTop ℚ) := by
  unfold getInf
  rw [h]

theorem getInf_eq_top {m : JsMap ℚ} {k : String}
    (h : m.get k = none) : getInf m k = ⊤ := by
  unfold getInf
  rw [h]

theorem reconstructPath_self (p : JsMap (Option String)) (s : String)
    (hp : p.get s = some none) (hs : 1 ≤ p.size) :
    reconstructPath p s = [s] := by
  unfold reconstructPath
  obtain ⟨n, hn⟩ : ∃ n, p.size = n + 1 := ⟨p.size - 1, by omega⟩
  rw [hn]
  show reconstructPathGo p (n + 1 + 1) (some s) [] = [s]
  rw [reconstructPathGo, hp]
  show reconstructPathGo p (n + 1) none [s] = [s]
  rw [reconstructPathGo]

theorem buildReverseGraph_nonneg (g : Graph) (hnn : NonnegWeights g) :
    NonnegWeights (buildReverseGraph g).1 := by
  have hset : ∀ (m : Graph) (k : String) (L : List (String × ℚ)),
      (∀ e ∈ m.entries, ∀ vw ∈ e.2, 0 ≤ vw.2) →
      (∀ vw ∈ L, 0 ≤ vw.2) →
      ∀ e ∈ (m.set k L).entries, ∀ vw ∈ e.2, 0 ≤ vw.2 := by
    intro m k L hm hL e he
    rcases JsMap.mem_entries_set m k L e he with h | h
    · exact hm e h
    · rw [h]
      exact hL
  have hinner : ∀ (l : List (String × ℚ)) (u : String) (acc : Graph × ℕ),
      (∀ vw ∈ l, 0 ≤ vw.2) →
      (∀ e ∈ acc.1.entries, ∀ vw ∈ e.2, 0 ≤ vw.2) →
      ∀ e ∈ (l.foldl
          (fun (acc : Graph × ℕ) vw =>
            (acc.1.set vw.1 (((acc.1.get vw.1).getD []) ++ [(u, vw.2)]),
              acc.2 + 1))
          acc).1.entries, ∀ vw ∈ e.2, 0 ≤ vw.2 := by
    intro l
    induction l with
    | nil => intro u acc _ hacc; exact hacc
    | cons a t ih =>
      intro u acc hl hacc
      rw [List.foldl_cons]
      refine ih u _ (fun vw hvw => hl vw (List.mem_cons_of_mem a hvw)) ?_
      refine hset acc.1 a.1 _ hacc ?_
      intro vw hvw
      rw [List.mem_append] at hvw
      rcases hvw with hvw | hvw
      · rcases hg : acc.1.get a.1 with _ | adj
        · rw [hg] at hvw
          simp at hvw
        · rw [hg] at hvw
          simp only [Option.getD_some] at hvw
          exact hacc (a.1, adj) (JsMap.get_eq_some_mem acc.1 a.1 adj hg) vw hvw
      · have : vw = (u, a.2) := by simpa using hvw
        rw [this]
        exact hl a (List.mem_cons_self a t)
  have houter : ∀ (ents : List (String × List (String × ℚ))) (acc : Graph × ℕ),
      (∀ e ∈ ents, ∀ vw ∈ e.2, 0 ≤ vw.2) →
      (∀ e ∈ acc.1.entries, ∀ vw ∈ e.2, 0 ≤ vw.2) →
      ∀ e ∈ (ents.foldl
          (fun acc uv =>
            uv.2.foldl
              (fun (acc : Graph × ℕ) vw =>
                (acc.1.set vw.1 (((acc.1.get vw.1).getD []) ++ [(uv.1, vw.2)]),
                  acc.2 + 1))
              acc)
          acc).1.entries, ∀ vw ∈ e.2, 0 ≤ vw.2 := by
    intro ents
    induction ents with
    | nil => intro acc _ hacc; exact hacc
    | cons a t ih =>
      intro acc hents hacc
      rw [List.foldl_cons]
      refine ih _ (fun e he => hents e (List.mem_cons_of_mem a he)) ?_
      exact hinner a.2 a.1 acc (hents a (List.mem_cons_self a t)) hacc
  intro e he
  exact houter g.entries (JsMap.empty, 0) hnn (by simp [JsMap.empty]) e he

theorem relaxCore_of_lt (u : String) (curT : ℚ) (acc : RelaxAcc)
    (vw : String × ℚ)
    (h : ((curT + vw.2 : ℚ) : WithTop ℚ) < getInf acc.dist vw.1) :
    relaxCore u curT acc vw =
      ⟨acc.dist.set vw.1 (curT + vw.2), acc.parent.set vw.1 (some u),
        acc.pq.push (curT + vw.2, vw.1),
        max acc.maxPqSize (acc.pq.push (curT + vw.2, vw.1)).size⟩ := by
  unfold relaxCore
  rw [if_pos h]

theorem relaxCore_of_ge (u : String) (curT : ℚ) (acc : RelaxAcc)
    (vw : String × ℚ)
    (h : ¬ ((curT + vw.2 : ℚ) : WithTop ℚ) < getInf acc.dist vw.1) :
    relaxCore u curT acc vw = acc := by
  unfold relaxCore
  rw [if_neg h]

theorem relaxCore_foldl_get_preserved (u : String) (curT : ℚ)
    (l : List (String × ℚ)) (acc : RelaxAcc) (z : String) (d : ℚ)
    (hd : acc.dist.get z = some d)
    (hle : ∀ vw ∈ l, vw.1 = z → d ≤ curT + vw.2) :
    (l.foldl (relaxCore u curT) acc).dist.get z = some d ∧
      (l.foldl (relaxCore u curT) acc).parent.get z = acc.parent.get z := by
  induction l generalizing acc with
  | nil => exact ⟨hd, rfl⟩
  | cons a t ih =>
    rw [List.foldl_cons]
    by_cases hlt : ((curT + a.2 : ℚ) : WithTop ℚ) < getInf acc.dist a.1
    · have hne : z ≠ a.1 := by
        intro hz
        rw [← hz] at hlt
        rw [getInf_eq_coe hd] at hlt
        have h1 := WithTop.coe_lt_coe.mp hlt
        have h2 := hle a (List.mem_cons_self a t) hz.symm
        linarith
      rw [relaxCore_of_lt u curT acc a hlt]
      obtain ⟨h1, h2⟩ := ih
        ⟨acc.dist.set a.1 (curT + a.2), acc.parent.set a.1 (some u),
          acc.pq.push (curT + a.2, a.1),
          max acc.maxPqSize (acc.pq.push (curT + a.2, a.1)).size⟩
        (by simpa [JsMap.get_set_ne acc.dist a.1 z _ hne] using hd)
        (fun vw hvw => hle vw (List.mem_cons_of_mem a hvw))
      refine ⟨h1, ?_⟩
      rw [h2]
      exact JsMap.get_set_ne acc.parent a.1 z _ hne
    · rw [relaxCore_of_ge u curT acc a hlt]
      exact ih acc hd (fun vw hvw => hle vw (List.mem_cons_of_mem a hvw))

theorem relaxCore_foldl_pq_mem (u : String) (curT : ℚ)
    (l : List (String × ℚ)) (acc : RelaxAcc) :
    ∀ e ∈ (l.foldl (relaxCore u curT) acc).pq.heap,
      e ∈ acc.pq.heap ∨ ∃ vw ∈ l, e = (curT + vw.2, vw.1) := by
  induction l generalizing acc with
  | nil => exact fun e he => Or.inl he
  | cons a t ih =>
    intro e he
    rw [List.foldl_cons] at he
    rcases ih (relaxCore u curT acc a) e he with h | ⟨vw, hvw, hevw⟩
    · by_cases hlt : ((curT + a.2 : ℚ) : WithTop ℚ) < getInf acc.dist a.1
      · rw [relaxCore_of_lt u curT acc a hlt] at h
        simp only [] at h
        rcases List.mem_cons.mp
            ((MinHeap.push_perm acc.pq (curT + a.2, a.1)).mem_iff.mp h) with
          h1 | h1
        · exact Or.inr ⟨a, List.mem_cons_self a t, h1⟩
        · exact Or.inl h1
      · rw [relaxCore_of_ge u curT acc a hlt] at h
        exact Or.inl h
    · exact Or.inr ⟨vw, List.mem_cons_of_mem a hvw, hevw⟩

theorem relaxCore_foldl_parent_size (u : String) (curT : ℚ)
    (l : List (String × ℚ)) (acc : RelaxAcc) :
    acc.parent.size ≤ (l.foldl (relaxCore u curT) acc).parent.size := by
  induction l generalizing acc with
  | nil => exact le_refl _
  | cons a t ih =>
    rw [List.foldl_cons]
    refine le_trans ?_ (ih (relaxCore u curT acc a))
    by_cases hlt : ((curT + a.2 : ℚ) : WithTop ℚ) < getInf acc.dist a.1
    · rw [relaxCore_of_lt u curT acc a hlt]
      exact JsMap.size_le_size_set acc.parent a.1 (some u)
    · rw [relaxCore_of_ge u curT acc a hlt]

theorem peekMin_nonneg (pq : MinHeap String)
    (h : ∀ e ∈ pq.heap, 0 ≤ e.1) : (0 : WithTop ℚ) ≤ peekMin pq := by
  unfold peekMin
  rcases hh : pq.heap[0]? with _ | e
  · exact le_top
  · have he := h e (List.getElem?_mem hh)
    show (0 : WithTop ℚ) ≤ (e.1 : WithTop ℚ)
    exact_mod_cast he

/-! ### First-iteration behavior when the popped node is the target -/

theorem dijkstraLoop_break_target (g : Graph) (t : String) (fuel : ℕ)
    (st : DState) (c : ℚ) (pq' : MinHeap String)
    (hpop : st.pq.pop = some ((c, t), pq')) :
    dijkstraLoop g t (fuel + 1) st = some
      { st with
        pq := pq'
        nodesExplored := st.nodesExplored + 1
        visitedOrder := st.visitedOrder ++ [⟨t, (st.parent.get t).join, none⟩] } := by
  have hsz : st.pq.size > 0 := pop_pos_size st.pq _ _ hpop
  rw [dijkstraLoop, if_pos hsz, hpop]
  simp only []
  rw [if_true]

theorem astarLoop_break_target (g : Graph) (h0 : String → ℚ) (t : String)
    (fuel : ℕ) (st : AState) (f c : ℚ) (pq' : MinHeap (ℚ × String))
    (hpop : st.pq.pop = some ((f, (c, t)), pq')) :
    astarLoop g h0 t (fuel + 1) st = some
      { st with
        pq := pq'
        nodesExplored := st.nodesExplored + 1
        visitedOrder := st.visitedOrder ++ [⟨t, (st.parent.get t).join, none⟩] } := by
  have hsz : st.pq.size > 0 := pop_pos_size st.pq _ _ hpop
  rw [astarLoop, if_pos hsz, hpop]
  simp only []
  rw [if_true]

/-- One expansion of a side whose whole state is the start-equals-target
initial state `{s: 0}`: the node `s` is popped and found valid, the meeting
check sees `s` in both distance maps with combined cost `0`, and the
relaxation leaves `s`'s own entries untouched (non-negative weights). -/
theorem expandSide_self_start (g : Graph) (hnn : NonnegWeights g)
    (tag s : String) (od : JsMap ℚ) (best : WithTop ℚ)
    (meeting : Option String) (explored : ℕ) (visited : List Visit)
    (settled0 : List String) (max0 : ℕ)
    (hod : od.get s = some 0) :
    ∃ my', expandSide g tag
        ⟨⟨[(s, 0)]⟩, ⟨[(s, none)]⟩, MinHeap.mkEmpty.push (0, s), settled0, max0⟩
        od best meeting explored visited =
        (my',
          (if ((0 : ℚ) : WithTop ℚ) < best
            then (((0 : ℚ) : WithTop ℚ), some s) else (best, meeting)).1,
          (if ((0 : ℚ) : WithTop ℚ) < best
            then (((0 : ℚ) : WithTop ℚ), some s) else (best, meeting)).2,
          explored + 1, visited ++ [⟨s, none, some tag⟩]) ∧
      my'.dist.get s = some 0 ∧ my'.parent.get s = some none ∧
      1 ≤ my'.parent.size ∧ ∀ e ∈ my'.pq.heap, 0 ≤ e.1 := by
  rw [expandSide]
  have hsz : (MinHeap.mkEmpty.push ((0 : ℚ), s)).size > 0 := by
    rw [singleton_push_size]
    exact Nat.one_pos
  rw [if_pos hsz, singleton_push_pop]
  simp only []
  have hget : (⟨[(s, (0 : ℚ))]⟩ : JsMap ℚ).get s = some 0 :=
    JsMap.get_singleton s 0
  have hgi : getInf (⟨[(s, (0 : ℚ))]⟩ : JsMap ℚ) s = ((0 : ℚ) : WithTop ℚ) :=
    getInf_eq_coe hget
  rw [if_pos (le_of_eq hgi.symm), hod, hget]
  simp only []
  set adj := (g.get s).getD [] with hadj
  set acc0 : RelaxAcc :=
    ⟨⟨[(s, 0)]⟩, ⟨[(s, none)]⟩, MinHeap.mkEmpty, max0⟩ with hacc0
  obtain ⟨hd, hpar⟩ := relaxCore_foldl_get_preserved s 0 adj acc0 s 0
    (JsMap.get_singleton s 0)
    (fun vw hvw _ => by
      have := hnn.get s vw (hadj ▸ hvw)
      linarith)
  refine ⟨⟨(adj.foldl (relaxCore s 0) acc0).dist,
      (adj.foldl (relaxCore s 0) acc0).parent,
      (adj.foldl (relaxCore s 0) acc0).pq,
      (if s ∈ settled0 then settled0 else settled0 ++ [s]),
      (adj.foldl (relaxCore s 0) acc0).maxPqSize⟩, ?_, hd, ?_, ?_, ?_⟩
  · simp only [add_zero]
    rw [JsMap.get_singleton s (none : Option String)]
    rfl
  · rw [hpar]
    exact JsMap.get_singleton s (none : Option String)
  · have := relaxCore_foldl_parent_size s 0 adj acc0
    simpa [acc0, JsMap.size] using this
  · intro e he
    rcases relaxCore_foldl_pq_mem s 0 adj acc0 e he with h | ⟨vw, hvw, hevw⟩
    · simp [acc0, MinHeap.mkEmpty] at h
    · rw [hevw]
      have := hnn.get s vw (hadj ▸ hvw)
      simp only []
      linarith

theorem dijkstraLoop_zero (g : Graph) (t : String) (st : DState) :
    dijkstraLoop g t 0 st = none := rfl

theorem astarLoop_zero (g : Graph) (h0 : String → ℚ) (t : String)
    (st : AState) : astarLoop g h0 t 0 st = none := rfl

theorem bidiLoop_zero (g rg : Graph) (st : BState) :
    bidiLoop g rg 0 st = none := rfl

theorem withTopToOption_coe (c : ℚ) :
    withTopToOption (c : WithTop ℚ) = some c := rfl

/-- With `start = target = s` and non-negative weights, the interleaved
loop of `bidirectionalDijkstra` stops after its first iteration: both sides
pop `s` as a valid extraction, the meeting check fixes `bestPathCost = 0`
and `meetingNode = s`, and the final frontier-minima test passes because
every remaining priority is non-negative. -/
theorem bidiLoop_start_eq_target (g rg : Graph) (hnn : NonnegWeights g)
    (hnnr : NonnegWeights rg) (s : String) (fuel : ℕ) :
    ∃ st, bidiLoop g rg (fuel + 1)
        ⟨⟨⟨[(s, 0)]⟩, ⟨[(s, none)]⟩, MinHeap.mkEmpty.push (0, s), [], 1⟩,
          ⟨⟨[(s, 0)]⟩, ⟨[(s, none)]⟩, MinHeap.mkEmpty.push (0, s), [], 1⟩,
          ⊤, none, 0, []⟩ = some st ∧
      st.meetingNode = some s ∧
      st.bestPathCost = ((0 : ℚ) : WithTop ℚ) ∧
      st.fwd.parent.get s = some none ∧ 1 ≤ st.fwd.parent.size ∧
      st.bwd.parent.get s = some none ∧ 1 ≤ st.bwd.parent.size ∧
      st.nodesExplored = 2 := by
  rw [bidiLoop]
  rw [if_pos (by simp [singleton_push_size])]
  simp only []
  obtain ⟨fwd1, hfeq, hfd, hfp, hfpsz, hfpq⟩ :=
    expandSide_self_start g hnn "start" s (⟨[(s, 0)]⟩ : JsMap ℚ) ⊤ none 0 []
      [] 1 (JsMap.get_singleton s 0)
  rw [hfeq]
  have htop : ((0 : ℚ) : WithTop ℚ) < ⊤ := WithTop.coe_lt_top 0
  rw [if_pos htop]
  simp only []
  obtain ⟨bwd2, hbeq, hbd, hbp, hbpsz, hbpq⟩ :=
    expandSide_self_start rg hnnr "end" s fwd1.dist ((0 : ℚ) : WithTop ℚ)
      (some s) 1 ([] ++ [⟨s, none, some "start"⟩]) [] 1 hfd
  rw [hbeq]
  have hnlt : ¬ ((0 : ℚ) : WithTop ℚ) < ((0 : ℚ) : WithTop ℚ) := lt_irrefl _
  rw [if_neg hnlt]
  simp only []
  have hge : peekMin fwd1.pq + peekMin bwd2.pq ≥ ((0 : ℚ) : WithTop ℚ) := by
    rw [show ((0 : ℚ) : WithTop ℚ) = (0 : WithTop ℚ) from WithTop.coe_zero]
    exact add_nonneg (peekMin_nonneg fwd1.pq hfpq) (peekMin_nonneg bwd2.pq hbpq)
  rw [if_pos hge]
  exact ⟨_, rfl, rfl, rfl, hfp, hfpsz, hbp, hbpsz, rfl⟩

/-- C6: for every graph with the data model's non-negative weights and
every node id `s`, a search with `start = target = s` immediately
succeeds whenever it returns: the path is the single-node list `[s]`, the
total cost is `0`, and `nodesExplored ≥ 1` — the first extracted node
equals the target before any stale check can block it (for `astar` under
the precondition that the coordinate lookup has an entry for `s`). -/
theorem C6_start_eq_target (g : Graph) (hnn : NonnegWeights g) (s : String)
    (hdist : HaversineFun) (nc : Coords) (fuel : ℕ) :
    (∀ r, dijkstra fuel g s s nc = some r →
      r.path = some [s] ∧ r.travelTime = some 0 ∧ 1 ≤ r.nodesExplored) ∧
    (∀ r, nc.has s = true → astar hdist fuel g s s nc = some r →
      r.path = some [s] ∧ r.travelTime = some 0 ∧ 1 ≤ r.nodesExplored) ∧
    (∀ r, bidirectionalDijkstra fuel g s s nc = some r →
      r.path = some [s] ∧ r.travelTime = some 0 ∧ 1 ≤ r.nodesExplored) := by
  have hhasd : (⟨[(s, (0 : ℚ))]⟩ : JsMap ℚ).has s = true := by
    rw [JsMap.has_eq_isSome_get, JsMap.get_singleton]
    rfl
  have hpath : reconstructPath (⟨[(s, none)]⟩ : JsMap (Option String)) s = [s] :=
    reconstructPath_self _ s (JsMap.get_singleton s none) (by simp [JsMap.size])
  refine ⟨fun r h => ?_, fun r hnc h => ?_, fun r h => ?_⟩
  · cases fuel with
    | zero =>
      unfold dijkstra at h
      simp only [] at h
      rw [dijkstraLoop_zero] at h
      cases h
    | succ n =>
      unfold dijkstra at h
      simp only [] at h
      rw [dijkstraLoop_break_target g s n _ 0 MinHeap.mkEmpty
        (singleton_push_pop ((0 : ℚ), s))] at h
      simp only [] at h
      rw [if_pos hhasd] at h
      cases h
      exact ⟨by rw [hpath], JsMap.get_singleton s 0, le_refl 1⟩
  · unfold astar at h
    rw [if_neg (by simp [hnc])] at h
    simp only [] at h
    cases fuel with
    | zero =>
      rw [astarLoop_zero] at h
      cases h
    | succ n =>
      rw [astarLoop_break_target g _ s n _
        (astarHeuristic hdist nc ((nc.get s).getD (0, 0)) s) 0 MinHeap.mkEmpty
        (singleton_push_pop _)] at h
      simp only [] at h
      rw [if_pos hhasd] at h
      cases h
      exact ⟨by rw [hpath], JsMap.get_singleton s 0, le_refl 1⟩
  · cases fuel with
    | zero =>
      unfold bidirectionalDijkstra at h
      simp only [] at h
      rw [bidiLoop_zero] at h
      cases h
    | succ n =>
      unfold bidirectionalDijkstra at h
      simp only [] at h
      obtain ⟨st, hloop, hmeet, hbest, hfp, hfpsz, hbp, hbpsz, hexp⟩ :=
        bidiLoop_start_eq_target g (buildReverseGraph g).1 hnn
          (buildReverseGraph_nonneg g hnn) s n
      rw [hloop] at h
      simp only [] at h
      rw [hmeet] at h
      simp only [] at h
      cases h
      refine ⟨?_, ?_, ?_⟩
      · show some (reconstructPath st.fwd.parent s
          ++ (reconstructPath st.bwd.parent s).reverse.drop 1) = some [s]
        rw [reconstructPath_self st.fwd.parent s hfp hfpsz,
          reconstructPath_self st.bwd.parent s hbp hbpsz]
        rfl
      · show withTopToOption st.bestPathCost = some 0
        rw [hbest, withTopToOption_coe]
      · show 1 ≤ st.nodesExplored
        rw [hexp]
        exact Nat.le_succ 1

theorem C6_witness :
    NonnegWeights exampleGraph ∧ JsMap.has cexCoords "A" = true ∧
    (∃ r1, dijkstra 5 exampleGraph "A" "A" cexCoords = some r1 ∧
      r1.path = some ["A"] ∧ r1.travelTime = some 0 ∧ 1 ≤ r1.nodesExplored) ∧
    (∃ r2, astar cexHdist 5 exampleGraph "A" "A" cexCoords = some r2 ∧
      r2.path = some ["A"] ∧ r2.travelTime = some 0 ∧ 1 ≤ r2.nodesExplored) ∧
    (∃ r3, bidirectionalDijkstra 5 exampleGraph "A" "A" cexCoords = some r3 ∧
      r3.path = some ["A"] ∧ r3.travelTime = some 0 ∧ 1 ≤ r3.nodesExplored) := by
  have hnn : NonnegWeights exampleGraph := by
    intro e he vw hvw
    fin_cases he <;> simp_all <;> rcases hvw with h | h <;> simp_all
  have hnc : JsMap.has cexCoords "A" = true := by with_unfolding_all rfl
  have hC6 := C6_start_eq_target exampleGraph hnn "A" cexHdist cexCoords 5
  refine ⟨hnn, hnc, ?_, ?_, ?_⟩
  · rcases hres : dijkstra 5 exampleGraph "A" "A" cexCoords with _ | r
    · have hs : (dijkstra 5 exampleGraph "A" "A" cexCoords).isSome = true := by
        with_unfolding_all rfl
      rw [hres] at hs
      cases hs
    · exact ⟨r, rfl, hC6.1 r hres⟩
  · rcases hres : astar cexHdist 5 exampleGraph "A" "A" cexCoords with _ | r
    · have hs : (astar cexHdist 5 exampleGraph "A" "A" cexCoords).isSome = true := by
        with_unfolding_all rfl
      rw [hres] at hs
      cases hs
    · exact ⟨r, rfl, hC6.2.1 r hnc hres⟩
  · rcases hres : bidirectionalDijkstra 5 exampleGraph "A" "A" cexCoords with _ | r
    · have hs : (bidirectionalDijkstra 5 exampleGraph "A" "A"
          cexCoords).isSome = true := by
        with_unfolding_all rfl
      rw [hres] at hs
      cases hs
    · exact ⟨r, rfl, hC6.2.2 r hres⟩

/-! ### Optimality of the uniform-cost relaxation: the settled-set
invariant.  `DCore` collects the loop facts over the distance map and the
frontier; `FrontierAt` is the relaxed-edges fact recorded separately so the
mid-fold states can be described. -/

/-- All edges of `l` out of `u` have been relaxed against `dist`. -/
def FrontierAt (g : Graph) (dist : JsMap ℚ) (u : String)
    (l : List (String × ℚ)) : Prop :=
  ∀ cu, dist.get u = some cu →
    ∀ vw ∈ l, ∃ cv, dist.get vw.1 = some cv ∧ cv ≤ cu + vw.2

/-- Invariant of the uniform-cost loop with settled set `S`, minus the
settled-frontier fact. -/
structure DCore (g : Graph) (s : String) (S : Set String)
    (dist : JsMap ℚ) (pq : MinHeap String) : Prop where
  dist_sound : ∀ v c, dist.get v = some c → PathTo g s v c
  dist_start : dist.get s = some 0
  pq_sound : ∀ e ∈ pq.heap, PathTo g s e.2 e.1 ∧
    ∃ c, dist.get e.2 = some c ∧ c ≤ e.1
  settled_has : ∀ v ∈ S, dist.has v = true
  settled_min : ∀ v ∈ S, ∀ c, dist.get v = some c →
    ∀ c', PathTo g s v c' → c ≤ c'
  active : ∀ v c, dist.get v = some c → v ∉ S →
    ∃ e ∈ pq.heap, e.2 = v ∧ e.1 = c
  heapinv : IsMinHeap pq.heap

/-- Full invariant: the core plus completed frontiers of settled nodes. -/
def DInvFull (g : Graph) (s : String) (S : Set String)
    (dist : JsMap ℚ) (pq : MinHeap String) : Prop :=
  DCore g s S dist pq ∧ ∀ u ∈ S, FrontierAt g dist u ((g.get u).getD [])

/-- Cover lemma: every path cost to an unsettled node is overestimated by
some frontier entry. -/
theorem DCore.cover {g : Graph} {s : String} {S : Set String}
    {dist : JsMap ℚ} {pq : MinHeap String} (hnn : NonnegWeights g)
    (inv : DCore g s S dist pq)
    (hfr : ∀ u ∈ S, FrontierAt g dist u ((g.get u).getD []))
    {z : String} {c : ℚ} (hp : PathTo g s z c) (hz : z ∉ S) :
    ∃ e ∈ pq.heap, e.1 ≤ c := by
  induction hp with
  | refl =>
    obtain ⟨e, he, _, he1⟩ := inv.active s 0 inv.dist_start hz
    exact ⟨e, he, le_of_eq he1⟩
  | @step u v c0 w hp he ih =>
    by_cases hu : u ∈ S
    · obtain ⟨cu, hcu⟩ := Option.isSome_iff_exists.mp
        ((JsMap.has_iff_get_isSome dist u).mp (inv.settled_has u hu))
      have hcu_le : cu ≤ c0 := inv.settled_min u hu cu hcu c0 hp
      obtain ⟨cv, hcv, hcv_le⟩ := hfr u hu cu hcu (v, w) he
      obtain ⟨e, hemem, he2, he1⟩ := inv.active v cv hcv hz
      refine ⟨e, hemem, ?_⟩
      rw [he1]
      calc cv ≤ cu + w := hcv_le
        _ ≤ c0 + w := by linarith
    · obtain ⟨e, hemem, hle⟩ := ih hu
      have hw : 0 ≤ w := hnn.get u (v, w) he
      exact ⟨e, hemem, by linarith⟩

/-- One relaxation step out of a settled node `u` whose distance `curT` is
minimal preserves the core invariant, never touches settled entries, only
improves distances, and leaves the processed edge relaxed. -/
theorem relax_step (g : Graph) (s : String) (hnn : NonnegWeights g)
    (S : Set String) (u : String) (curT : ℚ) (hu : u ∈ S)
    (hpu : PathTo g s u curT)
    (vw : String × ℚ) (hvw : vw ∈ (g.get u).getD [])
    (acc : RelaxAcc) (hc : DCore g s S acc.dist acc.pq)
    (hcu : acc.dist.get u = some curT) :
    DCore g s S (relaxCore u curT acc vw).dist (relaxCore u curT acc vw).pq ∧
    (∀ z, z ∈ S → (relaxCore u curT acc vw).dist.get z = acc.dist.get z) ∧
    (∀ z cz, acc.dist.get z = some cz →
      ∃ cz', (relaxCore u curT acc vw).dist.get z = some cz' ∧ cz' ≤ cz) ∧
    (∃ cv, (relaxCore u curT acc vw).dist.get vw.1 = some cv ∧
      cv ≤ curT + vw.2) := by
  have hnt : PathTo g s vw.1 (curT + vw.2) := PathTo.step hpu hvw
  by_cases hlt : ((curT + vw.2 : ℚ) : WithTop ℚ) < getInf acc.dist vw.1
  · rw [relaxCore_of_lt u curT acc vw hlt]
    simp only []
    have hv_not_settled : vw.1 ∉ S := by
      intro hvS
      obtain ⟨cv, hcv⟩ := Option.isSome_iff_exists.mp
        ((JsMap.has_iff_get_isSome acc.dist vw.1).mp (hc.settled_has vw.1 hvS))
      rw [getInf_eq_coe hcv] at hlt
      have h1 := WithTop.coe_lt_coe.mp hlt
      have h2 := hc.settled_min vw.1 hvS cv hcv (curT + vw.2) hnt
      linarith
    have hvs : vw.1 ≠ s := by
      intro hvseq
      rw [hvseq, getInf_eq_coe hc.dist_start] at hlt
      have h1 := WithTop.coe_lt_coe.mp hlt
      have h2 := PathTo.nonneg hnn hnt
      linarith
    have hget_set : ∀ z, z ≠ vw.1 →
        (acc.dist.set vw.1 (curT + vw.2)).get z = acc.dist.get z :=
      fun z hz => JsMap.get_set_ne acc.dist vw.1 z _ hz
    have hget_self : (acc.dist.set vw.1 (curT + vw.2)).get vw.1 =
        some (curT + vw.2) := JsMap.get_set_self acc.dist vw.1 _
    have hpush_mem : ∀ e, e ∈ (acc.pq.push (curT + vw.2, vw.1)).heap ↔
        e = (curT + vw.2, vw.1) ∨ e ∈ acc.pq.heap := by
      intro e
      rw [(MinHeap.push_perm acc.pq (curT + vw.2, vw.1)).mem_iff]
      exact List.mem_cons
    refine ⟨?_, ?_, ?_, ?_⟩
    · refine ⟨?_, ?_, ?_, ?_, ?_, ?_, ?_⟩
      · intro v c hvc
        by_cases hzv : v = vw.1
        · rw [hzv, hget_self] at hvc
          cases hvc
          exact hzv ▸ hnt
        · exact hc.dist_sound v c ((hget_set v hzv) ▸ hvc)
      · rw [hget_set s (fun h => hvs h.symm)]
        exact hc.dist_start
      · intro e he
        rcases (hpush_mem e).mp he with rfl | he'
        · exact ⟨hnt, curT + vw.2, hget_self, le_refl _⟩
        · obtain ⟨hpe, ce, hce, hcele⟩ := hc.pq_sound e he'
          refine ⟨hpe, ?_⟩
          by_cases hev : e.2 = vw.1
          · rw [hev, hget_self]
            rw [hev] at hce
            rw [getInf_eq_coe hce] at hlt
            have := WithTop.coe_lt_coe.mp hlt
            exact ⟨curT + vw.2, rfl, by linarith⟩
          · rw [hget_set e.2 hev]
            exact ⟨ce, hce, hcele⟩
      · intro v hvS
        rw [JsMap.has_set]
        simp [hc.settled_has v hvS]
      · intro v hvS c hvc
        have hzv : v ≠ vw.1 := fun h => hv_not_settled (h ▸ hvS)
        exact hc.settled_min v hvS c ((hget_set v hzv) ▸ hvc)
      · intro v c hvc hvnS
        by_cases hzv : v = vw.1
        · rw [hzv, hget_self] at hvc
          cases hvc
          exact ⟨(curT + vw.2, vw.1), (hpush_mem _).mpr (Or.inl rfl),
            hzv.symm, rfl⟩
        · obtain ⟨e, hemem, he2, he1⟩ :=
            hc.active v c ((hget_set v hzv) ▸ hvc) hvnS
          exact ⟨e, (hpush_mem e).mpr (Or.inr hemem), he2, he1⟩
      · exact MinHeap.push_isHeap acc.pq (curT + vw.2, vw.1) hc.heapinv
    · intro z hzS
      exact hget_set z (fun h => hv_not_settled (h ▸ hzS))
    · intro z cz hcz
      by_cases hzv : z = vw.1
      · rw [hzv] at hcz
        rw [getInf_eq_coe hcz] at hlt
        exact ⟨curT + vw.2, hzv ▸ hget_self,
          le_of_lt (WithTop.coe_lt_coe.mp hlt)⟩
      · exact ⟨cz, (hget_set z hzv) ▸ hcz, le_refl cz⟩
    · exact ⟨curT + vw.2, hget_self, le_refl _⟩
  · rw [relaxCore_of_ge u curT acc vw hlt]
    refine ⟨hc, fun z _ => rfl, fun z cz hcz => ⟨cz, hcz, le_refl cz⟩, ?_⟩
    rcases hv : acc.dist.get vw.1 with _ | cv
    · exfalso
      rw [getInf_eq_top hv] at hlt
      exact hlt (WithTop.coe_lt_top _)
    · rw [getInf_eq_coe hv] at hlt
      exact ⟨cv, rfl, WithTop.coe_le_coe.mp (not_lt.mp hlt)⟩

theorem JsMap.get_singleton_inv {β : Type} {k v : String} {x c : β}
    (h : (⟨[(k, x)]⟩ : JsMap β).get v = some c) : v = k ∧ c = x := by
  unfold JsMap.get at h
  rcases hf : [(k, x)].find? (fun e => e.1 = v) with _ | e
  · rw [hf] at h
    cases h
  · rw [hf] at h
    have hemem : e = (k, x) := by simpa using List.mem_of_find?_eq_some hf
    subst hemem
    have hk : k = v := by simpa using List.find?_some hf
    have hc : x = c := by simpa using h
    exact ⟨hk.symm, hc.symm⟩

theorem isMinHeap_singleton {α : Type} (e : HeapEntry α) : IsMinHeap [e] := by
  intro j a b hj hja hjb
  have hlen : ([e] : List (HeapEntry α)).length ≤ j := by
    simp
    omega
  rw [List.getElem?_eq_none hlen] at hjb
  cases hjb

/-- Folding the relaxation over any sublist of `u`'s adjacency, out of a
settled node `u` at its minimal distance `curT`, preserves the core
invariant, fixes `u`'s entry, never touches settled entries, only improves
distances, and relaxes every processed edge. -/
theorem relax_fold (g : Graph) (s : String) (hnn : NonnegWeights g)
    (S : Set String) (u : String) (curT : ℚ) (hu : u ∈ S)
    (hpu : PathTo g s u curT) :
    ∀ (l : List (String × ℚ)), (∀ vw ∈ l, vw ∈ (g.get u).getD []) →
    ∀ acc : RelaxAcc, DCore g s S acc.dist acc.pq →
      acc.dist.get u = some curT →
      DCore g s S (l.foldl (relaxCore u curT) acc).dist
        (l.foldl (relaxCore u curT) acc).pq ∧
      (l.foldl (relaxCore u curT) acc).dist.get u = some curT ∧
      (∀ z, z ∈ S →
        (l.foldl (relaxCore u curT) acc).dist.get z = acc.dist.get z) ∧
      (∀ z cz, acc.dist.get z = some cz →
        ∃ cz', (l.foldl (relaxCore u curT) acc).dist.get z = some cz' ∧
          cz' ≤ cz) ∧
      (∀ vw ∈ l, ∃ cv,
        (l.foldl (relaxCore u curT) acc).dist.get vw.1 = some cv ∧
          cv ≤ curT + vw.2) := by
  intro l
  induction l with
  | nil =>
    intro _ acc hc hcu
    exact ⟨hc, hcu, fun z _ => rfl, fun z cz hcz => ⟨cz, hcz, le_refl cz⟩,
      fun vw hvw => absurd hvw (List.not_mem_nil vw)⟩
  | cons a tl ih =>
    intro hl acc hc hcu
    obtain ⟨hc', hunch', hdec', hrel'⟩ :=
      relax_step g s hnn S u curT hu hpu a (hl a (List.mem_cons_self a tl))
        acc hc hcu
    rw [List.foldl_cons]
    obtain ⟨hcF, hcuF, hunchF, hdecF, hrelF⟩ :=
      ih (fun vw hvw => hl vw (List.mem_cons_of_mem a hvw))
        (relaxCore u curT acc a) hc' (by rw [hunch' u hu]; exact hcu)
    refine ⟨hcF, hcuF, ?_, ?_, ?_⟩
    · intro z hz
      rw [hunchF z hz, hunch' z hz]
    · intro z cz hcz
      obtain ⟨cz1, hcz1, hle1⟩ := hdec' z cz hcz
      obtain ⟨cz2, hcz2, hle2⟩ := hdecF z cz1 hcz1
      exact ⟨cz2, hcz2, le_trans hle2 hle1⟩
    · intro vw hvw
      rcases List.mem_cons.mp hvw with rfl | hvw'
      · obtain ⟨cv, hcv, hcvle⟩ := hrel'
        obtain ⟨cv', hcv', hcvle'⟩ := hdecF vw.1 cv hcv
        exact ⟨cv', hcv', le_trans hcvle' hcvle⟩
      · exact hrelF vw hvw'

/-- Master theorem of the uniform-cost loop: from any state satisfying the
invariant, if the loop returns, the final distance entry of the target
(when present) is the cost of a path from the start and is minimal among
all path costs. -/
theorem dijkstraLoop_minimal (g : Graph) (s t : String)
    (hnn : NonnegWeights g) :
    ∀ fuel (S : Set String) (st stf : DState),
      DInvFull g s S st.dist st.pq →
      dijkstraLoop g t fuel st = some stf →
      ∀ c, stf.dist.get t = some c →
        PathTo g s t c ∧ ∀ c', PathTo g s t c' → c ≤ c' := by
  intro fuel
  induction fuel with
  | zero =>
    intro S st stf _ h
    cases h
  | succ n ih =>
    intro S st stf hinv hloop
    obtain ⟨hcore, hfr⟩ := hinv
    rw [dijkstraLoop] at hloop
    split at hloop
    · split at hloop
      · cases hloop
      · next curT u pq' hpop =>
        have hmem := (MinHeap.mem_of_pop hpop).1
        obtain ⟨hpu, du, hdu, hdule⟩ := hcore.pq_sound (curT, u) hmem
        have hsurv : ∀ v, v ≠ u → ∀ e ∈ st.pq.heap, e.2 = v →
            e ∈ pq'.heap := by
          intro v hvu e hemem he2
          have hperm := (MinHeap.pop_spec st.pq _ _ hpop).1
          rcases List.mem_cons.mp (hperm.mem_iff.mp hemem) with rfl | h'
          · exact absurd he2.symm hvu
          · exact h'
        simp only [] at hloop
        split at hloop
        · next hut =>
          cases hloop
          intro c hc
          subst hut
          refine ⟨hcore.dist_sound u c hc, ?_⟩
          by_cases huS : u ∈ S
          · exact hcore.settled_min u huS c hc
          · intro c' hp'
            obtain ⟨e, hemem, hle⟩ := hcore.cover hnn hfr hp' huS
            have hminpop := MinHeap.pop_le hcore.heapinv hpop e hemem
            have hcdu : c = du := by
              rw [hdu] at hc
              exact (Option.some_inj.mp hc).symm
            calc c = du := hcdu
              _ ≤ curT := hdule
              _ ≤ e.1 := hminpop
              _ ≤ c' := hle
        · next hut =>
          split at hloop
          · next hstale =>
            have huS : u ∈ S := by
              by_contra huS
              obtain ⟨e, hemem, hle⟩ :=
                hcore.cover hnn hfr (hcore.dist_sound u du hdu) huS
              have hminpop := MinHeap.pop_le hcore.heapinv hpop e hemem
              rw [getInf_eq_coe hdu] at hstale
              have hducur := WithTop.coe_lt_coe.mp hstale
              have : curT ≤ du := le_trans hminpop hle
              linarith
            refine ih S (DState.mk st.dist st.parent pq'
              (st.nodesExplored + 1)
              (st.visitedOrder ++ [⟨u, (st.parent.get u).join, none⟩])
              st.maxPqSize) stf ⟨?_, hfr⟩ hloop
            refine ⟨hcore.dist_sound, hcore.dist_start, ?_, hcore.settled_has,
              hcore.settled_min, ?_, ?_⟩
            · intro e he
              exact hcore.pq_sound e ((MinHeap.mem_of_pop hpop).2 e he)
            · intro v c hvc hvS
              obtain ⟨e, hemem, he2, he1⟩ := hcore.active v c hvc hvS
              have hvu : v ≠ u := fun h => hvS (h ▸ huS)
              exact ⟨e, hsurv v hvu e hemem he2, he2, he1⟩
            · exact (MinHeap.pop_spec st.pq _ _ hpop).2.2 hcore.heapinv
          · next hstale =>
            have hcurdu : curT = du := by
              rw [getInf_eq_coe hdu] at hstale
              have := WithTop.coe_le_coe.mp (not_lt.mp hstale)
              linarith
            have humin : ∀ c', PathTo g s u c' → curT ≤ c' := by
              by_cases huS : u ∈ S
              · intro c' hp'
                rw [hcurdu]
                exact hcore.settled_min u huS du hdu c' hp'
              · intro c' hp'
                obtain ⟨e, hemem, hle⟩ := hcore.cover hnn hfr hp' huS
                exact le_trans
                  (MinHeap.pop_le hcore.heapinv hpop e hemem) hle
            have hcoreS' : DCore g s (insert u S) st.dist pq' := by
              refine ⟨hcore.dist_sound, hcore.dist_start, ?_, ?_, ?_, ?_, ?_⟩
              · intro e he
                exact hcore.pq_sound e ((MinHeap.mem_of_pop hpop).2 e he)
              · intro v hvS
                rcases Set.mem_insert_iff.mp hvS with rfl | hvS'
                · rw [JsMap.has_iff_get_isSome, hdu]
                  rfl
                · exact hcore.settled_has v hvS'
              · intro v hvS c hvc c' hp'
                rcases Set.mem_insert_iff.mp hvS with rfl | hvS'
                · have : c = du := by
                    rw [hdu] at hvc
                    exact (Option.some_inj.mp hvc).symm
                  rw [this, ← hcurdu]
                  exact humin c' hp'
                · exact hcore.settled_min v hvS' c hvc c' hp'
              · intro v c hvc hvS
                have hvu : v ≠ u := fun h => hvS (h ▸ Set.mem_insert u S)
                have hvS' : v ∉ S := fun h => hvS (Set.mem_insert_of_mem u h)
                obtain ⟨e, hemem, he2, he1⟩ := hcore.active v c hvc hvS'
                exact ⟨e, hsurv v hvu e hemem he2, he2, he1⟩
              · exact (MinHeap.pop_spec st.pq _ _ hpop).2.2 hcore.heapinv
            obtain ⟨hcF, hcuF, hunchF, hdecF, hrelF⟩ :=
              relax_fold g s hnn (insert u S) u curT (Set.mem_insert u S) hpu
                ((g.get u).getD []) (fun vw h => h)
                ⟨st.dist, st.parent, pq', st.maxPqSize⟩ hcoreS'
                (by rw [hcurdu]; exact hdu)
            refine ih (insert u S) (DState.mk
              (((g.get u).getD []).foldl (relaxCore u curT)
                ⟨st.dist, st.parent, pq', st.maxPqSize⟩).dist
              (((g.get u).getD []).foldl (relaxCore u curT)
                ⟨st.dist, st.parent, pq', st.maxPqSize⟩).parent
              (((g.get u).getD []).foldl (relaxCore u curT)
                ⟨st.dist, st.parent, pq', st.maxPqSize⟩).pq
              (st.nodesExplored + 1)
              (st.visitedOrder ++ [⟨u, (st.parent.get u).join, none⟩])
              (((g.get u).getD []).foldl (relaxCore u curT)
                ⟨st.dist, st.parent, pq', st.maxPqSize⟩).maxPqSize)
              stf ⟨hcF, ?_⟩ hloop
            intro z hzS
            rcases Set.mem_insert_iff.mp hzS with rfl | hzS'
            · intro cu hcu vw hvw
              have hcueq : cu = curT := by
                rw [hcuF] at hcu
                exact (Option.some_inj.mp hcu).symm
              obtain ⟨cv, hcv, hcvle⟩ := hrelF vw hvw
              exact ⟨cv, hcv, by rw [hcueq]; exact hcvle⟩
            · intro cu hcu vw hvw
              rw [hunchF z (Set.mem_insert_of_mem u hzS')] at hcu
              obtain ⟨cv, hcv, hcvle⟩ := hfr z hzS' cu hcu vw hvw
              obtain ⟨cv', hcv', hcvle'⟩ := hdecF vw.1 cv hcv
              exact ⟨cv', hcv', le_trans hcvle' hcvle⟩
    · next hsz =>
      cases hloop
      intro c hc
      have hheap : st.pq.heap = [] := by
        simp only [MinHeap.size, gt_iff_lt, not_lt, Nat.le_zero] at hsz
        exact List.length_eq_zero.mp hsz
      by_cases htS : t ∈ S
      · exact ⟨hcore.dist_sound t c hc, hcore.settled_min t htS c hc⟩
      · obtain ⟨e, hemem, _, _⟩ := hcore.active t c hc htS
        rw [hheap] at hemem
        cases hemem

theorem singleton_push_heap {α : Type} (e : HeapEntry α) :
    (MinHeap.mkEmpty.push e).heap = [e] := rfl

theorem dijkstra_initial_inv (g : Graph) (s : String) :
    DInvFull g s ∅ (⟨[(s, 0)]⟩ : JsMap ℚ) (MinHeap.mkEmpty.push (0, s)) := by
  constructor
  · refine ⟨?_, ?_, ?_, ?_, ?_, ?_, ?_⟩
    · intro v c h
      obtain ⟨rfl, rfl⟩ := JsMap.get_singleton_inv h
      exact PathTo.refl
    · exact JsMap.get_singleton s 0
    · intro e he
      rw [singleton_push_heap] at he
      have he' : e = ((0 : ℚ), s) := by simpa using he
      subst he'
      exact ⟨PathTo.refl, 0, JsMap.get_singleton s 0, le_refl 0⟩
    · intro v hv
      exact absurd hv (Set.not_mem_empty v)
    · intro v hv
      exact absurd hv (Set.not_mem_empty v)
    · intro v c h _
      obtain ⟨hv, hc0⟩ := JsMap.get_singleton_inv h
      subst hv
      subst hc0
      refine ⟨((0 : ℚ), v), ?_, rfl, rfl⟩
      rw [singleton_push_heap]
      exact List.mem_singleton.mpr rfl
    · rw [singleton_push_heap]
      exact isMinHeap_singleton _
  · intro u hu
    exact absurd hu (Set.not_mem_empty u)

/-- `dijkstra`-level optimality: a returned finite `travelTime` is the cost
of an actual path from start to target and is minimal among all path
costs. -/
theorem dijkstra_travelTime_minimal (fuel : ℕ) (g : Graph) (s t : String)
    (nc : Coords) (hnn : NonnegWeights g) (r : SearchResult)
    (h : dijkstra fuel g s t nc = some r) (c : ℚ)
    (hc : r.travelTime = some c) :
    PathTo g s t c ∧ ∀ c', PathTo g s t c' → c ≤ c' := by
  unfold dijkstra at h
  simp only [] at h
  split at h
  · cases h
  · next st heq =>
    split at h
    · cases h
      simp only [] at hc
      exact dijkstraLoop_minimal g s t hnn fuel ∅ _ st
        (dijkstra_initial_inv g s) heq c hc
    · cases h
      cases hc

/-! ### Optimality of the heuristic-guided search under admissibility.

Heap entries of `astar` are `(f, (g, node))` with `f = g + h node`.  The
invariants: `ACore` ties entries to path costs, `AReach` says every reached
node has an exact active entry or has been fully relaxed, and `AWitness`
tracks — for one fixed start-to-target path of cost `cp` — either that the
target's score is already below `cp` or that some entry sits on the path
with a prefix-cost bound. -/

structure ACore (g : Graph) (s : String) (h : String → ℚ)
    (gScore : JsMap ℚ) (pq : MinHeap (ℚ × String)) : Prop where
  gs_sound : ∀ v c, gScore.get v = some c → PathTo g s v c
  pq_sound : ∀ e ∈ pq.heap, PathTo g s e.2.2 e.2.1 ∧ e.1 = e.2.1 + h e.2.2 ∧
    ∃ c, gScore.get e.2.2 = some c ∧ c ≤ e.2.1
  heapinv : IsMinHeap pq.heap

/-- All edges out of `v` have been relaxed against `gScore`. -/
def Expanded (g : Graph) (gScore : JsMap ℚ) (v : String) : Prop :=
  ∀ cv, gScore.get v = some cv → ∀ vw ∈ (g.get v).getD [],
    ∃ cy, gScore.get vw.1 = some cy ∧ cy ≤ cv + vw.2

/-- Every reached node other than `u` has an exact frontier entry or is
fully relaxed. -/
def AReachExcept (g : Graph) (u : String) (gScore : JsMap ℚ)
    (pq : MinHeap (ℚ × String)) : Prop :=
  ∀ v c, gScore.get v = some c → v ≠ u →
    (∃ e ∈ pq.heap, e.2.2 = v ∧ e.2.1 = c) ∨ Expanded g gScore v

/-- Every reached node has an exact frontier entry or is fully relaxed. -/
def AReach (g : Graph) (gScore : JsMap ℚ)
    (pq : MinHeap (ℚ × String)) : Prop :=
  ∀ v c, gScore.get v = some c →
    (∃ e ∈ pq.heap, e.2.2 = v ∧ e.2.1 = c) ∨ Expanded g gScore v

/-- Witness invariant for one fixed path of cost `cp` from `s` to `t`. -/
def AWitness (g : Graph) (t : String) (cp : ℚ) (gScore : JsMap ℚ)
    (pq : MinHeap (ℚ × String)) : Prop :=
  (∃ ct, gScore.get t = some ct ∧ ct ≤ cp) ∨
  (∃ e ∈ pq.heap, ∃ cpre csuf, e.2.1 ≤ cpre ∧ cpre + csuf = cp ∧
    PathFrom g t e.2.2 csuf)

theorem expanded_mono {g : Graph} {gScore gScore' : JsMap ℚ} {v : String}
    (hsame : gScore'.get v = gScore.get v)
    (hdec : ∀ y cy, gScore.get y = some cy →
      ∃ cy', gScore'.get y = some cy' ∧ cy' ≤ cy)
    (hexp : Expanded g gScore v) : Expanded g gScore' v := by
  intro cv hcv vw hvw
  rw [hsame] at hcv
  obtain ⟨cy, hcy, hcyle⟩ := hexp cv hcv vw hvw
  obtain ⟨cy', hcy', hcyle'⟩ := hdec vw.1 cy hcy
  exact ⟨cy', hcy', le_trans hcyle' hcyle⟩

theorem awitness_mono {g : Graph} {t : String} {cp : ℚ}
    {gScore gScore' : JsMap ℚ} {pq pq' : MinHeap (ℚ × String)}
    (hmem : ∀ e ∈ pq.heap, e ∈ pq'.heap)
    (hdec : ∀ z cz, gScore.get z = some cz →
      ∃ cz', gScore'.get z = some cz' ∧ cz' ≤ cz)
    (hw : AWitness g t cp gScore pq) : AWitness g t cp gScore' pq' := by
  rcases hw with ⟨ct, hct, hle⟩ | ⟨e, hemem, cpre, csuf, hle, hsum, hsuf⟩
  · obtain ⟨ct', hct', hle'⟩ := hdec t ct hct
    exact Or.inl ⟨ct', hct', le_trans hle' hle⟩
  · exact Or.inr ⟨e, hmem e hemem, cpre, csuf, hle, hsum, hsuf⟩

/-- Chain lemma: a reached node on the fixed path whose score is below the
prefix cost yields the witness invariant. -/
theorem awitness_of_gscore_le (g : Graph) (t : String) (cp : ℚ)
    (gScore : JsMap ℚ) (pq : MinHeap (ℚ × String))
    (har : AReach g gScore pq) :
    ∀ {v : String} {csuf : ℚ}, PathFrom g t v csuf →
    ∀ cpre, cpre + csuf = cp →
    ∀ cv, gScore.get v = some cv → cv ≤ cpre →
    AWitness g t cp gScore pq := by
  intro v csuf hsuf
  induction hsuf with
  | refl =>
    intro cpre hsum cv hcv hle
    exact Or.inl ⟨cv, hcv, by linarith⟩
  | @cons u y w c' he hp ih =>
    intro cpre hsum cv hcv hle
    rcases har u cv hcv with ⟨e, hemem, he22, he21⟩ | hexp
    · refine Or.inr ⟨e, hemem, cpre, w + c', ?_, hsum, ?_⟩
      · rw [he21]
        exact hle
      · rw [he22]
        exact PathFrom.cons he hp
    · obtain ⟨cy, hcy, hcyle⟩ := hexp cv hcv (y, w) he
      exact ih (cpre + w) (by linarith) cy hcy (by linarith)

theorem astarRelax_of_lt (h0 : String → ℚ) (u : String) (st : AState)
    (vw : String × ℚ) (gu : ℚ) (hgu : st.gScore.get u = some gu)
    (hlt : ((gu + vw.2 : ℚ) : WithTop ℚ) < getInf st.gScore vw.1) :
    astarRelax h0 u st vw =
      { st with
        gScore := st.gScore.set vw.1 (gu + vw.2)
        fScore := st.fScore.set vw.1 (gu + vw.2 + h0 vw.1)
        parent := st.parent.set vw.1 (some u)
        pq := st.pq.push (gu + vw.2 + h0 vw.1, (gu + vw.2, vw.1))
        maxPqSize := max st.maxPqSize
          (st.pq.push (gu + vw.2 + h0 vw.1, (gu + vw.2, vw.1))).size } := by
  unfold astarRelax
  rw [hgu]
  simp only [Option.getD_some]
  rw [if_pos hlt]

theorem astarRelax_of_ge (h0 : String → ℚ) (u : String) (st : AState)
    (vw : String × ℚ) (gu : ℚ) (hgu : st.gScore.get u = some gu)
    (hge : ¬ ((gu + vw.2 : ℚ) : WithTop ℚ) < getInf st.gScore vw.1) :
    astarRelax h0 u st vw = st := by
  unfold astarRelax
  rw [hgu]
  simp only [Option.getD_some]
  rw [if_neg hge]

theorem astar_step (g : Graph) (s : String) (h0 : String → ℚ)
    (hnn : NonnegWeights g) (u : String) (gu : ℚ) (hpu : PathTo g s u gu)
    (vw : String × ℚ) (hvw : vw ∈ (g.get u).getD [])
    (st : AState) (hc : ACore g s h0 st.gScore st.pq)
    (hgu : st.gScore.get u = some gu)
    (hre : AReachExcept g u st.gScore st.pq) :
    ACore g s h0 (astarRelax h0 u st vw).gScore (astarRelax h0 u st vw).pq ∧
    (astarRelax h0 u st vw).gScore.get u = some gu ∧
    AReachExcept g u (astarRelax h0 u st vw).gScore
      (astarRelax h0 u st vw).pq ∧
    (∀ z cz, st.gScore.get z = some cz →
      ∃ cz', (astarRelax h0 u st vw).gScore.get z = some cz' ∧ cz' ≤ cz) ∧
    (∀ e ∈ st.pq.heap, e ∈ (astarRelax h0 u st vw).pq.heap) ∧
    (∃ cy, (astarRelax h0 u st vw).gScore.get vw.1 = some cy ∧
      cy ≤ gu + vw.2) := by
  have hnt : PathTo g s vw.1 (gu + vw.2) := PathTo.step hpu hvw
  by_cases hlt : ((gu + vw.2 : ℚ) : WithTop ℚ) < getInf st.gScore vw.1
  · have hvu : vw.1 ≠ u := by
      intro hvueq
      rw [hvueq, getInf_eq_coe hgu] at hlt
      have h1 := WithTop.coe_lt_coe.mp hlt
      have h2 := hnn.get u vw hvw
      linarith
    rw [astarRelax_of_lt h0 u st vw gu hgu hlt]
    simp only []
    have hget_set : ∀ z, z ≠ vw.1 →
        (st.gScore.set vw.1 (gu + vw.2)).get z = st.gScore.get z :=
      fun z hz => JsMap.get_set_ne st.gScore vw.1 z _ hz
    have hget_self : (st.gScore.set vw.1 (gu + vw.2)).get vw.1 =
        some (gu + vw.2) := JsMap.get_set_self st.gScore vw.1 _
    have hpush_mem : ∀ e,
        e ∈ (st.pq.push (gu + vw.2 + h0 vw.1, (gu + vw.2, vw.1))).heap ↔
        e = (gu + vw.2 + h0 vw.1, (gu + vw.2, vw.1)) ∨ e ∈ st.pq.heap := by
      intro e
      rw [(MinHeap.push_perm st.pq _).mem_iff]
      exact List.mem_cons
    have hdec : ∀ z cz, st.gScore.get z = some cz →
        ∃ cz', (st.gScore.set vw.1 (gu + vw.2)).get z = some cz' ∧
          cz' ≤ cz := by
      intro z cz hcz
      by_cases hzv : z = vw.1
      · subst hzv
        rw [getInf_eq_coe hcz] at hlt
        exact ⟨gu + vw.2, hget_self, le_of_lt (WithTop.coe_lt_coe.mp hlt)⟩
      · exact ⟨cz, (hget_set z hzv) ▸ hcz, le_refl cz⟩
    refine ⟨⟨?_, ?_, ?_⟩, ?_, ?_, hdec, ?_, ?_⟩
    · intro v c hvc
      by_cases hzv : v = vw.1
      · subst hzv
        rw [hget_self] at hvc
        cases hvc
        exact hnt
      · exact hc.gs_sound v c ((hget_set v hzv) ▸ hvc)
    · intro e he
      rcases (hpush_mem e).mp he with rfl | he'
      · exact ⟨hnt, rfl, gu + vw.2, hget_self, le_refl _⟩
      · obtain ⟨hpe, hfe, ce, hce, hcele⟩ := hc.pq_sound e he'
        refine ⟨hpe, hfe, ?_⟩
        by_cases hev : e.2.2 = vw.1
        · rw [hev, hget_self]
          rw [hev] at hce
          rw [getInf_eq_coe hce] at hlt
          have := WithTop.coe_lt_coe.mp hlt
          exact ⟨gu + vw.2, rfl, by linarith⟩
        · rw [hget_set e.2.2 hev]
          exact ⟨ce, hce, hcele⟩
    · exact MinHeap.push_isHeap st.pq _ hc.heapinv
    · rw [hget_set u (fun hh => hvu hh.symm)]
      exact hgu
    · intro v c hvc hvne
      by_cases hzv : v = vw.1
      · subst hzv
        rw [hget_self] at hvc
        cases hvc
        exact Or.inl ⟨(gu + vw.2 + h0 vw.1, (gu + vw.2, vw.1)),
          (hpush_mem _).mpr (Or.inl rfl), rfl, rfl⟩
      · rcases hre v c ((hget_set v hzv) ▸ hvc) hvne with
          ⟨e, hemem, he22, he21⟩ | hexp
        · exact Or.inl ⟨e, (hpush_mem e).mpr (Or.inr hemem), he22, he21⟩
        · exact Or.inr (expanded_mono (hget_set v hzv) hdec hexp)
    · intro e he
      exact (hpush_mem e).mpr (Or.inr he)
    · exact ⟨gu + vw.2, hget_self, le_refl _⟩
  · rw [astarRelax_of_ge h0 u st vw gu hgu hlt]
    refine ⟨hc, hgu, hre, fun z cz hcz => ⟨cz, hcz, le_refl cz⟩,
      fun e he => he, ?_⟩
    rcases hv : st.gScore.get vw.1 with _ | cv
    · exfalso
      rw [getInf_eq_top hv] at hlt
      exact hlt (WithTop.coe_lt_top _)
    · rw [getInf_eq_coe hv] at hlt
      exact ⟨cv, rfl, WithTop.coe_le_coe.mp (not_lt.mp hlt)⟩

theorem astar_fold (g : Graph) (s : String) (h0 : String → ℚ)
    (hnn : NonnegWeights g) (u : String) (gu : ℚ) (hpu : PathTo g s u gu) :
    ∀ (l : List (String × ℚ)), (∀ vw ∈ l, vw ∈ (g.get u).getD []) →
    ∀ st : AState, ACore g s h0 st.gScore st.pq →
      st.gScore.get u = some gu →
      AReachExcept g u st.gScore st.pq →
      ACore g s h0 (l.foldl (astarRelax h0 u) st).gScore
        (l.foldl (astarRelax h0 u) st).pq ∧
      (l.foldl (astarRelax h0 u) st).gScore.get u = some gu ∧
      AReachExcept g u (l.foldl (astarRelax h0 u) st).gScore
        (l.foldl (astarRelax h0 u) st).pq ∧
      (∀ z cz, st.gScore.get z = some cz →
        ∃ cz', (l.foldl (astarRelax h0 u) st).gScore.get z = some cz' ∧
          cz' ≤ cz) ∧
      (∀ e ∈ st.pq.heap, e ∈ (l.foldl (astarRelax h0 u) st).pq.heap) ∧
      (∀ vw ∈ l, ∃ cy,
        (l.foldl (astarRelax h0 u) st).gScore.get vw.1 = some cy ∧
          cy ≤ gu + vw.2) := by
  intro l
  induction l with
  | nil =>
    intro _ st hc hgu hre
    exact ⟨hc, hgu, hre, fun z cz hcz => ⟨cz, hcz, le_refl cz⟩,
      fun e he => he, fun vw hvw => absurd hvw (List.not_mem_nil vw)⟩
  | cons a tl ih =>
    intro hl st hc hgu hre
    obtain ⟨hc', hgu', hre', hdec', hmem', hrel'⟩ :=
      astar_step g s h0 hnn u gu hpu a (hl a (List.mem_cons_self a tl))
        st hc hgu hre
    rw [List.foldl_cons]
    obtain ⟨hcF, hguF, hreF, hdecF, hmemF, hrelF⟩ :=
      ih (fun vw hvw => hl vw (List.mem_cons_of_mem a hvw))
        (astarRelax h0 u st a) hc' hgu' hre'
    refine ⟨hcF, hguF, hreF, ?_, ?_, ?_⟩
    · intro z cz hcz
      obtain ⟨cz1, hcz1, hle1⟩ := hdec' z cz hcz
      obtain ⟨cz2, hcz2, hle2⟩ := hdecF z cz1 hcz1
      exact ⟨cz2, hcz2, le_trans hle2 hle1⟩
    · intro e he
      exact hmemF e (hmem' e he)
    · intro vw hvw
      rcases List.mem_cons.mp hvw with rfl | hvw'
      · obtain ⟨cy, hcy, hcyle⟩ := hrel'
        obtain ⟨cy', hcy', hcyle'⟩ := hdecF vw.1 cy hcy
        exact ⟨cy', hcy', le_trans hcyle' hcyle⟩
      · exact hrelF vw hvw'

/-- Master theorem of the heuristic-guided loop: under non-negative
weights, a non-negative heuristic, and admissibility along the fixed path
of cost `cp`, the loop's final target score (when present) is a path cost
bounded by `cp`. -/
theorem astarLoop_le (g : Graph) (s t : String) (h0 : String → ℚ)
    (hnn : NonnegWeights g) (hh0 : ∀ v, 0 ≤ h0 v)
    (hadm : ∀ v c, PathFrom g t v c → h0 v ≤ c) (cp : ℚ) :
    ∀ fuel (st stf : AState),
      ACore g s h0 st.gScore st.pq →
      AReach g st.gScore st.pq →
      AWitness g t cp st.gScore st.pq →
      astarLoop g h0 t fuel st = some stf →
      ∀ ct, stf.gScore.get t = some ct → PathTo g s t ct ∧ ct ≤ cp := by
  intro fuel
  induction fuel with
  | zero =>
    intro st stf _ _ _ h
    cases h
  | succ n ih =>
    intro st stf hc har hw hloop
    rw [astarLoop] at hloop
    split at hloop
    · split at hloop
      · cases hloop
      · next f0 curG u pq' hpop =>
        have hmem := (MinHeap.mem_of_pop hpop).1
        obtain ⟨hpu, hfeq, gu, hgu, hgule⟩ := hc.pq_sound (f0, (curG, u)) hmem
        simp only [] at hpu hfeq hgu hgule
        have hpople := MinHeap.pop_le hc.heapinv hpop
        simp only [] at hpople
        have hperm := (MinHeap.pop_spec st.pq _ _ hpop).1
        have hsub := (MinHeap.mem_of_pop hpop).2
        have hheapinv' := (MinHeap.pop_spec st.pq _ _ hpop).2.2 hc.heapinv
        have hsurv : ∀ e ∈ st.pq.heap, e ≠ (f0, (curG, u)) → e ∈ pq'.heap := by
          intro e hemem hne
          rcases List.mem_cons.mp (hperm.mem_iff.mp hemem) with rfl | h'
          · exact absurd rfl hne
          · exact h'
        simp only [] at hloop
        split at hloop
        · next hut =>
          cases hloop
          intro ct hct
          subst hut
          refine ⟨hc.gs_sound u ct hct, ?_⟩
          have hctgu : ct = gu := by
            rw [hgu] at hct
            exact (Option.some_inj.mp hct).symm
          rcases hw with ⟨ct', hct', hle⟩ | ⟨e, hemem, cpre, csuf, hle, hsum, hsuf⟩
          · have : ct = ct' := by
              rw [hct'] at hct
              exact (Option.some_inj.mp hct).symm
            linarith
          · have hfe : e.1 = e.2.1 + h0 e.2.2 := (hc.pq_sound e hemem).2.1
            have hhe : h0 e.2.2 ≤ csuf := hadm e.2.2 csuf hsuf
            have hfle : f0 ≤ e.1 := hpople e hemem
            have hh0u := hh0 u
            rw [hfeq] at hfle
            rw [hfe] at hfle
            linarith
        · next hut =>
          split at hloop
          · next hstale =>
            rw [getInf_eq_coe hgu] at hstale
            have hgult := WithTop.coe_lt_coe.mp hstale
            have harP : AReach g st.gScore pq' := by
              intro v c hvc
              rcases har v c hvc with ⟨e, hemem, he22, he21⟩ | hexp
              · refine Or.inl ⟨e, hsurv e hemem ?_, he22, he21⟩
                intro heq
                rw [heq] at he22 he21
                simp only [] at he22 he21
                rw [← he22] at hvc
                rw [hgu] at hvc
                have hcgu : gu = c := Option.some_inj.mp hvc
                rw [← he21] at hcgu
                linarith
              · exact Or.inr hexp
            have hwP : AWitness g t cp st.gScore pq' := by
              rcases hw with ⟨ct', hct', hle⟩ |
                ⟨e, hemem, cpre, csuf, hle, hsum, hsuf⟩
              · exact Or.inl ⟨ct', hct', hle⟩
              · by_cases heq : e = (f0, (curG, u))
                · subst heq
                  simp only [] at hle hsuf
                  exact awitness_of_gscore_le g t cp st.gScore pq' harP
                    hsuf cpre hsum gu hgu (by linarith)
                · exact Or.inr ⟨e, hsurv e hemem heq, cpre, csuf, hle,
                    hsum, hsuf⟩
            refine ih (AState.mk st.gScore st.fScore st.parent pq'
              (st.nodesExplored + 1)
              (st.visitedOrder ++ [⟨u, (st.parent.get u).join, none⟩])
              st.maxPqSize) stf ⟨hc.gs_sound, ?_, hheapinv'⟩ harP hwP hloop
            intro e he
            exact hc.pq_sound e (hsub e he)
          · next hstale =>
            rw [getInf_eq_coe hgu] at hstale
            have hcurgu : curG = gu :=
              le_antisymm (WithTop.coe_le_coe.mp (not_lt.mp hstale)) hgule
            have hreP : AReachExcept g u st.gScore pq' := by
              intro v c hvc hvne
              rcases har v c hvc with ⟨e, hemem, he22, he21⟩ | hexp
              · refine Or.inl ⟨e, hsurv e hemem ?_, he22, he21⟩
                intro heq
                rw [heq] at he22
                exact hvne he22.symm
              · exact Or.inr hexp
            have hcP : ACore g s h0 st.gScore pq' :=
              ⟨hc.gs_sound, fun e he => hc.pq_sound e (hsub e he), hheapinv'⟩
            have hpugu : PathTo g s u gu := hcurgu ▸ hpu
            obtain ⟨hcF, hguF, hreF, hdecF, hmemF, hrelF⟩ :=
              astar_fold g s h0 hnn u gu hpugu ((g.get u).getD [])
                (fun vw h => h)
                (AState.mk st.gScore st.fScore st.parent pq'
                  (st.nodesExplored + 1)
                  (st.visitedOrder ++ [⟨u, (st.parent.get u).join, none⟩])
                  st.maxPqSize) hcP hgu hreP
            have harF : AReach g
                (((g.get u).getD []).foldl (astarRelax h0 u)
                  (AState.mk st.gScore st.fScore st.parent pq'
                    (st.nodesExplored + 1)
                    (st.visitedOrder ++ [⟨u, (st.parent.get u).join, none⟩])
                    st.maxPqSize)).gScore
                (((g.get u).getD []).foldl (astarRelax h0 u)
                  (AState.mk st.gScore st.fScore st.parent pq'
                    (st.nodesExplored + 1)
                    (st.visitedOrder ++ [⟨u, (st.parent.get u).join, none⟩])
                    st.maxPqSize)).pq := by
              intro v c hvc
              by_cases hvu : v = u
              · subst hvu
                refine Or.inr ?_
                intro cv hcv vw hvw
                have : cv = gu := by
                  rw [hguF] at hcv
                  exact (Option.some_inj.mp hcv).symm
                subst this
                exact hrelF vw hvw
              · exact hreF v c hvc hvu
            have hwF : AWitness g t cp
                (((g.get u).getD []).foldl (astarRelax h0 u)
                  (AState.mk st.gScore st.fScore st.parent pq'
                    (st.nodesExplored + 1)
                    (st.visitedOrder ++ [⟨u, (st.parent.get u).join, none⟩])
                    st.maxPqSize)).gScore
                (((g.get u).getD []).foldl (astarRelax h0 u)
                  (AState.mk st.gScore st.fScore st.parent pq'
                    (st.nodesExplored + 1)
                    (st.visitedOrder ++ [⟨u, (st.parent.get u).join, none⟩])
                    st.maxPqSize)).pq := by
              rcases hw with ⟨ct', hct', hle⟩ |
                ⟨e, hemem, cpre, csuf, hle, hsum, hsuf⟩
              · obtain ⟨ct'', hct'', hle''⟩ := hdecF t ct' hct'
                exact Or.inl ⟨ct'', hct'', le_trans hle'' hle⟩
              · by_cases heq : e = (f0, (curG, u))
                · subst heq
                  simp only [] at hle hsuf
                  exact awitness_of_gscore_le g t cp _ _ harF hsuf cpre hsum
                    gu hguF (by linarith)
                · exact Or.inr ⟨e, hmemF e (hsurv e hemem heq), cpre, csuf,
                    hle, hsum, hsuf⟩
            exact ih _ stf hcF harF hwF hloop
    · next hsz =>
      cases hloop
      intro ct hct
      refine ⟨hc.gs_sound t ct hct, ?_⟩
      have hheap : st.pq.heap = [] := by
        simp only [MinHeap.size, gt_iff_lt, not_lt, Nat.le_zero] at hsz
        exact List.length_eq_zero.mp hsz
      rcases hw with ⟨ct', hct', hle⟩ | ⟨e, hemem, _⟩
      · have : ct = ct' := by
          rw [hct'] at hct
          exact (Option.some_inj.mp hct).symm
        linarith
      · rw [hheap] at hemem
        cases hemem

theorem astar_initial_core (g : Graph) (s : String) (h0 : String → ℚ) :
    ACore g s h0 (⟨[(s, 0)]⟩ : JsMap ℚ)
      (MinHeap.mkEmpty.push (h0 s, (0, s))) := by
  refine ⟨?_, ?_, ?_⟩
  · intro v c h
    obtain ⟨hv, hc0⟩ := JsMap.get_singleton_inv h
    subst hv
    subst hc0
    exact PathTo.refl
  · intro e he
    rw [singleton_push_heap] at he
    have he' : e = (h0 s, ((0 : ℚ), s)) := by simpa using he
    subst he'
    exact ⟨PathTo.refl, by simp, 0, JsMap.get_singleton s 0, le_refl 0⟩
  · rw [singleton_push_heap]
    exact isMinHeap_singleton _

theorem astar_initial_reach (g : Graph) (s : String) (h0 : String → ℚ) :
    AReach g (⟨[(s, 0)]⟩ : JsMap ℚ)
      (MinHeap.mkEmpty.push (h0 s, (0, s))) := by
  intro v c h
  obtain ⟨hv, hc0⟩ := JsMap.get_singleton_inv h
  subst hv
  subst hc0
  refine Or.inl ⟨(h0 v, ((0 : ℚ), v)), ?_, rfl, rfl⟩
  rw [singleton_push_heap]
  exact List.mem_singleton.mpr rfl

theorem astar_initial_witness (g : Graph) (s t : String) (h0 : String → ℚ)
    (cp : ℚ) (hp : PathFrom g t s cp) :
    AWitness g t cp (⟨[(s, 0)]⟩ : JsMap ℚ)
      (MinHeap.mkEmpty.push (h0 s, (0, s))) := by
  refine Or.inr ⟨(h0 s, ((0 : ℚ), s)), ?_, 0, cp, le_refl 0, zero_add cp, hp⟩
  rw [singleton_push_heap]
  exact List.mem_singleton.mpr rfl

/-- `astar`-level optimality under admissibility: a returned finite
`travelTime` is a path cost and is bounded by every start-to-target path
cost. -/
theorem astar_travelTime_optimal (hd : HaversineFun) (fuel : ℕ) (g : Graph)
    (s t : String) (nc : Coords) (hnn : NonnegWeights g)
    (hh0 : ∀ v, 0 ≤ astarHeuristic hd nc ((nc.get t).getD (0, 0)) v)
    (hadm : ∀ v c, PathFrom g t v c →
      astarHeuristic hd nc ((nc.get t).getD (0, 0)) v ≤ c)
    (r : SearchResult) (h : astar hd fuel g s t nc = some r)
    (c : ℚ) (hc : r.travelTime = some c) :
    ∀ cp, PathFrom g t s cp → PathTo g s t c ∧ c ≤ cp := by
  intro cp hp
  unfold astar at h
  simp only [] at h
  split at h
  · cases h
    cases hc
  · split at h
    · cases h
    · next st heq =>
      split at h
      · cases h
        simp only [] at hc
        exact astarLoop_le g s t
          (astarHeuristic hd nc ((nc.get t).getD (0, 0))) hnn hh0 hadm cp
          fuel _ st (astar_initial_core g s _) (astar_initial_reach g s _)
          (astar_initial_witness g s t _ cp hp) heq c hc
      · cases h
        cases hc

theorem dijkstra_path_travelTime (fuel : ℕ) (g : Graph) (s t : String)
    (nc : Coords) (r : SearchResult) (h : dijkstra fuel g s t nc = some r)
    (hp : r.path ≠ none) : ∃ c, r.travelTime = some c := by
  unfold dijkstra at h
  simp only [] at h
  split at h
  · cases h
  · next st heq =>
    split at h
    · next hhas =>
      cases h
      exact Option.isSome_iff_exists.mp
        ((JsMap.has_iff_get_isSome st.dist t).mp hhas)
    · cases h
      simp at hp

theorem astar_path_travelTime (hd : HaversineFun) (fuel : ℕ) (g : Graph)
    (s t : String) (nc : Coords) (r : SearchResult)
    (h : astar hd fuel g s t nc = some r) (hp : r.path ≠ none) :
    ∃ c, r.travelTime = some c := by
  unfold astar at h
  simp only [] at h
  split at h
  · cases h
    simp at hp
  · split at h
    · cases h
    · next st heq =>
      split at h
      · next hhas =>
        cases h
        exact Option.isSome_iff_exists.mp
          ((JsMap.has_iff_get_isSome st.gScore t).mp hhas)
      · cases h
        simp at hp

/-- C1: (amended with the admissibility precondition the spec itself
states) for every graph with non-negative weights, whenever the heuristic
used by `astar` is non-negative and never overestimates the remaining cost
to the target, and `dijkstra` and `astar` both return a non-null path, the
two returned total costs are equal. -/
theorem C1_astar_equals_dijkstra_admissible (hd : HaversineFun)
    (fd fa : ℕ) (g : Graph) (s t : String) (nc : Coords)
    (hnn : NonnegWeights g)
    (hh0 : ∀ v, 0 ≤ astarHeuristic hd nc ((nc.get t).getD (0, 0)) v)
    (hadm : ∀ v c, PathFrom g t v c →
      astarHeuristic hd nc ((nc.get t).getD (0, 0)) v ≤ c)
    (rd ra : SearchResult)
    (hrd : dijkstra fd g s t nc = some rd)
    (hra : astar hd fa g s t nc = some ra)
    (hpd : rd.path ≠ none) (hpa : ra.path ≠ none) :
    ra.travelTime = rd.travelTime := by
  obtain ⟨cd, hcd⟩ := dijkstra_path_travelTime fd g s t nc rd hrd hpd
  obtain ⟨ca, hca⟩ := astar_path_travelTime hd fa g s t nc ra hra hpa
  obtain ⟨hsd, hmind⟩ :=
    dijkstra_travelTime_minimal fd g s t nc hnn rd hrd cd hcd
  obtain ⟨hsa, hlea⟩ :=
    astar_travelTime_optimal hd fa g s t nc hnn hh0 hadm ra hra ca hca cd
      (pathFrom_iff_pathTo.mpr hsd)
  have hled := hmind ca hsa
  rw [hca, hcd, le_antisymm hlea hled]

/-- The everywhere-zero instance of the spec-modelled great-circle
distance (an admissible heuristic on any graph with non-negative
weights). -/
def zeroHdist : HaversineFun := fun _ _ => 0

/-- Coordinates for the scenario graph (used by the heuristic search). -/
def exampleCoords : Coords :=
  ⟨[("A", (0, 0)), ("B", (0, 0)), ("C", (0, 0))]⟩

theorem zeroHdist_heuristic_eq_zero (nc : Coords) (tc : ℚ × ℚ)
    (v : String) : astarHeuristic zeroHdist nc tc v = 0 := by
  unfold astarHeuristic zeroHdist
  rcases nc.get v with _ | c
  · rfl
  · norm_num

theorem C1_witness :
    ∃ rd ra, dijkstra 10 exampleGraph "A" "C" exampleCoords = some rd ∧
      astar zeroHdist 10 exampleGraph "A" "C" exampleCoords = some ra ∧
      rd.path ≠ none ∧ ra.path ≠ none ∧ ra.travelTime = rd.travelTime := by
  have hnn : NonnegWeights exampleGraph := by
    intro e he vw hvw
    fin_cases he <;> simp_all <;> rcases hvw with h | h <;> simp_all
  have hh0 : ∀ v, 0 ≤ astarHeuristic zeroHdist exampleCoords
      ((exampleCoords.get "C").getD (0, 0)) v := by
    intro v
    rw [zeroHdist_heuristic_eq_zero]
  have hadm : ∀ v c, PathFrom exampleGraph "C" v c →
      astarHeuristic zeroHdist exampleCoords
        ((exampleCoords.get "C").getD (0, 0)) v ≤ c := by
    intro v c hp
    rw [zeroHdist_heuristic_eq_zero]
    exact PathTo.nonneg hnn (pathFrom_iff_pathTo.mp hp)
  rcases hrd : dijkstra 10 exampleGraph "A" "C" exampleCoords with _ | rd
  · have hs : (dijkstra 10 exampleGraph "A" "C" exampleCoords).isSome
        = true := by with_unfolding_all rfl
    rw [hrd] at hs
    cases hs
  · rcases hra : astar zeroHdist 10 exampleGraph "A" "C" exampleCoords
        with _ | ra
    · have hs : (astar zeroHdist 10 exampleGraph "A" "C"
          exampleCoords).isSome = true := by with_unfolding_all rfl
      rw [hra] at hs
      cases hs
    · have hpd : rd.path ≠ none := by
        have hm : (dijkstra 10 exampleGraph "A" "C" exampleCoords).map
            (fun r => r.path) = some (some ["A", "B", "C"]) := by
          with_unfolding_all rfl
        rw [hrd] at hm
        replace hm : rd.path = some ["A", "B", "C"] := by simpa using hm
        simp [hm]
      have hpa : ra.path ≠ none := by
        have hm : (astar zeroHdist 10 exampleGraph "A" "C"
            exampleCoords).map (fun r => r.path) =
            some (some ["A", "B", "C"]) := by
          with_unfolding_all rfl
        rw [hra] at hm
        replace hm : ra.path = some ["A", "B", "C"] := by simpa using hm
        simp [hm]
      exact ⟨rd, ra, rfl, rfl, hpd, hpa,
        C1_astar_equals_dijkstra_admissible zeroHdist 10 10 exampleGraph
          "A" "C" exampleCoords hnn hh0 hadm rd ra hrd hra hpd hpa⟩

/-! ### The reverse graph: edge correspondence and path conversion.

`bidirectionalDijkstra` derives its backward search from the reverse graph
built by one pass over the graph's entries.  A JS `Map` never holds a
duplicate key, captured by `MapLike`; under it the reverse graph has
exactly the reversed edges. -/

/-- The entry list is a genuine map: keys are pairwise distinct. -/
def MapLike {β : Type} (m : JsMap β) : Prop :=
  (m.entries.map (fun e => e.1)).Nodup

theorem find?_key_of_mem_nodup {β : Type} :
    ∀ (l : List (String × β)), (l.map (fun x => x.1)).Nodup →
    ∀ e ∈ l, l.find? (fun x => x.1 = e.1) = some e := by
  intro l
  induction l with
  | nil =>
    intro _ e he
    cases he
  | cons a tl ih =>
    intro hml e he
    rw [List.map_cons, List.nodup_cons] at hml
    rcases List.mem_cons.mp he with rfl | he'
    · rw [List.find?_cons_of_pos _ (by simp)]
    · have hne : ¬ a.1 = e.1 := by
        intro heq
        exact hml.1 (heq ▸ List.mem_map_of_mem (fun x => x.1) he')
      rw [List.find?_cons_of_neg _ (by simp [hne])]
      exact ih hml.2 e he'

theorem JsMap.get_of_mem_nodup {β : Type} {m : JsMap β} (hml : MapLike m)
    {e : String × β} (he : e ∈ m.entries) : m.get e.1 = some e.2 := by
  unfold JsMap.get
  rw [find?_key_of_mem_nodup m.entries hml e he]
  rfl

/-- Adjacency of the reverse-graph accumulator after the double fold: the
reversed edges of the processed entries, in order. -/
theorem buildReverseGraph_get (g : Graph) :
    ∀ v, (((buildReverseGraph g).1.get v).getD []) =
      g.entries.flatMap (fun uv => uv.2.filterMap
        (fun vw => if vw.1 = v then some (uv.1, vw.2) else none)) := by
  have hinner : ∀ (l : List (String × ℚ)) (u : String) (acc : Graph × ℕ) (v : String),
      (((l.foldl
          (fun (acc : Graph × ℕ) vw =>
            (acc.1.set vw.1 (((acc.1.get vw.1).getD []) ++ [(u, vw.2)]),
              acc.2 + 1))
          acc).1.get v).getD []) =
        ((acc.1.get v).getD []) ++ l.filterMap
          (fun vw => if vw.1 = v then some (u, vw.2) else none) := by
    intro l
    induction l with
    | nil => intro u acc v; simp
    | cons a tl ih =>
      intro u acc v
      rw [List.foldl_cons, ih]
      by_cases hv : a.1 = v
      · subst hv
        rw [List.filterMap_cons]
        simp only [if_pos rfl]
        rw [JsMap.get_set_self]
        simp
      · rw [List.filterMap_cons]
        simp only [if_neg hv]
        rw [JsMap.get_set_ne _ _ _ _ (fun h => hv h.symm)]
  have houter : ∀ (ents : List (String × List (String × ℚ))) (acc : Graph × ℕ) (v : String),
      (((ents.foldl
          (fun acc uv =>
            uv.2.foldl
              (fun (acc : Graph × ℕ) vw =>
                (acc.1.set vw.1 (((acc.1.get vw.1).getD []) ++ [(uv.1, vw.2)]),
                  acc.2 + 1))
              acc)
          acc).1.get v).getD []) =
        ((acc.1.get v).getD []) ++ ents.flatMap (fun uv => uv.2.filterMap
          (fun vw => if vw.1 = v then some (uv.1, vw.2) else none)) := by
    intro ents
    induction ents with
    | nil => intro acc v; simp
    | cons a tl ih =>
      intro acc v
      rw [List.foldl_cons, ih, List.flatMap_cons, hinner]
      rw [List.append_assoc]
  intro v
  unfold buildReverseGraph
  rw [houter]
  simp [JsMap.empty, JsMap.get]

/-- Membership correspondence: the reverse graph has edge `v → u` of
weight `w` exactly when the graph has edge `u → v` of weight `w`. -/
theorem buildReverseGraph_mem (g : Graph) (hml : MapLike g)
    (v u : String) (w : ℚ) :
    (u, w) ∈ (((buildReverseGraph g).1.get v).getD []) ↔
      (v, w) ∈ ((g.get u).getD []) := by
  rw [buildReverseGraph_get g v]
  rw [List.mem_flatMap]
  constructor
  · rintro ⟨uv, huv, hmem⟩
    rw [List.mem_filterMap] at hmem
    obtain ⟨vw, hvw, heq⟩ := hmem
    by_cases hv : vw.1 = v
    · rw [if_pos hv] at heq
      have h1 : uv.1 = u := congrArg Prod.fst (Option.some_inj.mp heq)
      have h2 : vw.2 = w := congrArg Prod.snd (Option.some_inj.mp heq)
      have hget : g.get uv.1 = some uv.2 := JsMap.get_of_mem_nodup hml huv
      rw [h1] at hget
      rw [hget]
      simp only [Option.getD_some]
      have : vw = (v, w) := by
        cases vw
        simp only [] at hv h2
        rw [hv, h2]
      exact this ▸ hvw
    · rw [if_neg hv] at heq
      cases heq
  · intro hmem
    rcases hget : g.get u with _ | adj
    · rw [hget] at hmem
      simp at hmem
    · rw [hget] at hmem
      simp only [Option.getD_some] at hmem
      refine ⟨(u, adj), JsMap.get_eq_some_mem g u adj hget, ?_⟩
      rw [List.mem_filterMap]
      exact ⟨(v, w), hmem, by simp⟩

/-- Paths in the reverse graph from `t` are exactly paths to `t` in the
graph, with the same cost. -/
theorem pathTo_reverse_iff (g : Graph) (hml : MapLike g) (t v : String)
    (c : ℚ) :
    PathTo (buildReverseGraph g).1 t v c ↔ PathFrom g t v c := by
  constructor
  · intro h
    induction h with
    | refl => exact PathFrom.refl
    | @step u y c0 w hp he ih =>
      rw [buildReverseGraph_mem g hml u y w] at he
      exact pathFrom_cast (PathFrom.cons he ih) (by ring)
  · intro h
    induction h with
    | refl => exact PathTo.refl
    | @cons u y w c0 he hp ih =>
      rw [← buildReverseGraph_mem g hml y u w] at he
      exact pathTo_cast (PathTo.step ih he) (by ring)

/-- Concatenating a path to `m` and a path from `m` to `t`. -/
theorem pathTo_append {g : Graph} {s t m : String} {c1 c2 : ℚ}
    (h1 : PathTo g s m c1) (h2 : PathFrom g t m c2) :
    PathTo g s t (c1 + c2) := by
  induction h2 generalizing c1 with
  | refl => exact pathTo_cast h1 (by ring)
  | @cons u y w c' he hp ih =>
    exact pathTo_cast (ih (PathTo.step h1 he)) (by ring)

theorem peekMin_le {pq : MinHeap String} (hh : IsMinHeap pq.heap)
    {e : HeapEntry String} (he : e ∈ pq.heap) :
    peekMin pq ≤ (e.1 : WithTop ℚ) := by
  unfold peekMin
  rcases hh0 : pq.heap[0]? with _ | r
  · rw [List.getElem?_eq_none_iff] at hh0
    rcases List.mem_iff_getElem.mp he with ⟨n, hn, _⟩
    omega
  · obtain ⟨n, hn⟩ := List.mem_iff_getElem?.mp he
    have hle := isMinHeap_root_le hh hh0 n e hn
    show ((r.1 : ℚ) : WithTop ℚ) ≤ (e.1 : WithTop ℚ)
    exact_mod_cast hle

/-- One expansion of a bidirectional side: the side's settled-set invariant
is preserved, settled nodes and their distances are kept, distances only
improve, `bestPathCost` only improves and any new value is a sum
`dist u + otherDist u` of the popped node, every newly settled node has had
its meeting check performed, and a valid pop settles its node. -/
theorem expandSide_general (G : Graph) (r0 : String) (hnn : NonnegWeights G)
    (tag : String) (my : SideState) (od : JsMap ℚ) (best : WithTop ℚ)
    (meeting : Option String) (explored : ℕ) (visited : List Visit)
    (hinv : DInvFull G r0 {v | v ∈ my.settled} my.dist my.pq) :
    ∃ my' best' meeting' explored' visited',
      expandSide G tag my od best meeting explored visited =
        (my', best', meeting', explored', visited') ∧
      DInvFull G r0 {v | v ∈ my'.settled} my'.dist my'.pq ∧
      (∀ v ∈ my.settled, v ∈ my'.settled) ∧
      (∀ v ∈ my'.settled, my'.dist.get v = my.dist.get v) ∧
      (∀ z cz, my.dist.get z = some cz →
        ∃ cz', my'.dist.get z = some cz' ∧ cz' ≤ cz) ∧
      best' ≤ best ∧
      ((best' = best ∧ meeting' = meeting) ∨
        (∃ u du db, my.dist.get u = some du ∧ od.get u = some db ∧
          best' = ((du + db : ℚ) : WithTop ℚ) ∧ meeting' = some u)) ∧
      (∀ u, u ∈ my'.settled → u ∈ my.settled ∨
        ∀ db, od.get u = some db → ∃ du, my.dist.get u = some du ∧
          best' ≤ ((du + db : ℚ) : WithTop ℚ)) ∧
      (∀ c u2 pqr, my.pq.pop = some ((c, u2), pqr) →
        (c : WithTop ℚ) ≤ getInf my.dist u2 → u2 ∈ my'.settled) := by
  obtain ⟨hcore, hfr⟩ := hinv
  rw [expandSide]
  split
  · split
    · next hpopn =>
      refine ⟨my, best, meeting, explored, visited, rfl, ⟨hcore, hfr⟩,
        fun v hv => hv, fun v _ => rfl,
        fun z cz hcz => ⟨cz, hcz, le_refl cz⟩, le_refl best,
        Or.inl ⟨rfl, rfl⟩, fun u hu => Or.inl hu, ?_⟩
      intro c u2 pqr hp _
      rw [hp] at hpopn
      cases hpopn
    · next curT u pq' hpop =>
      have hmem := (MinHeap.mem_of_pop hpop).1
      obtain ⟨hpu, du, hdu, hdule⟩ := hcore.pq_sound (curT, u) hmem
      simp only [] at hpu hdu hdule
      have hsub := (MinHeap.mem_of_pop hpop).2
      have hperm := (MinHeap.pop_spec my.pq _ _ hpop).1
      have hheapinv' := (MinHeap.pop_spec my.pq _ _ hpop).2.2 hcore.heapinv
      have hsurv : ∀ v, v ≠ u → ∀ e ∈ my.pq.heap, e.2 = v →
          e ∈ pq'.heap := by
        intro v hvu e hemem he2
        rcases List.mem_cons.mp (hperm.mem_iff.mp hemem) with rfl | h'
        · exact absurd he2.symm hvu
        · exact h'
      simp only []
      split
      · next hvalid =>
        have hcurdu : curT = du := by
          rw [getInf_eq_coe hdu] at hvalid
          exact le_antisymm (WithTop.coe_le_coe.mp hvalid) hdule
        have humin : ∀ c', PathTo G r0 u c' → curT ≤ c' := by
          by_cases huS : u ∈ my.settled
          · intro c' hp'
            rw [hcurdu]
            exact hcore.settled_min u huS du hdu c' hp'
          · intro c' hp'
            obtain ⟨e, hemem, hle⟩ := hcore.cover hnn hfr hp' huS
            have := MinHeap.pop_le hcore.heapinv hpop e hemem
            simp only [] at this
            exact le_trans this hle
        have hSmem : ∀ v,
            (v ∈ (if u ∈ my.settled then my.settled
              else my.settled ++ [u])) ↔ v = u ∨ v ∈ my.settled := by
          intro v
          by_cases hu : u ∈ my.settled
          · rw [if_pos hu]
            constructor
            · exact fun h => Or.inr h
            · rintro (rfl | h)
              · exact hu
              · exact h
          · rw [if_neg hu]
            rw [List.mem_append, List.mem_singleton]
            constructor
            · rintro (h | h)
              · exact Or.inr h
              · exact Or.inl h
            · rintro (h | h)
              · exact Or.inr h
              · exact Or.inl h
        have hSeq : {v | v ∈ (if u ∈ my.settled then my.settled
            else my.settled ++ [u])} =
            insert u {v | v ∈ my.settled} := by
          ext v
          rw [Set.mem_insert_iff]
          exact hSmem v
        have hcoreS' : DCore G r0 (insert u {v | v ∈ my.settled})
            my.dist pq' := by
          refine ⟨hcore.dist_sound, hcore.dist_start, ?_, ?_, ?_, ?_, ?_⟩
          · intro e he
            exact hcore.pq_sound e (hsub e he)
          · intro v hvS
            rcases Set.mem_insert_iff.mp hvS with rfl | hvS'
            · rw [JsMap.has_iff_get_isSome, hdu]
              rfl
            · exact hcore.settled_has v hvS'
          · intro v hvS c hvc c' hp'
            rcases Set.mem_insert_iff.mp hvS with rfl | hvS'
            · have hcdu : c = du := by
                rw [hdu] at hvc
                exact (Option.some_inj.mp hvc).symm
              rw [hcdu, ← hcurdu]
              exact humin c' hp'
            · exact hcore.settled_min v hvS' c hvc c' hp'
          · intro v c hvc hvS
            have hvu : v ≠ u := fun h => hvS (by
              rw [h]
              exact Set.mem_insert u _)
            have hvS' : v ∉ {v | v ∈ my.settled} :=
              fun h => hvS (Set.mem_insert_of_mem u h)
            obtain ⟨e, hemem, he2, he1⟩ := hcore.active v c hvc hvS'
            exact ⟨e, hsurv v hvu e hemem he2, he2, he1⟩
          · exact hheapinv'
        obtain ⟨hcF, hcuF, hunchF, hdecF, hrelF⟩ :=
          relax_fold G r0 hnn (insert u {v | v ∈ my.settled}) u curT
            (Set.mem_insert u _) hpu ((G.get u).getD []) (fun vw h => h)
            ⟨my.dist, my.parent, pq', my.maxPqSize⟩ hcoreS'
            (by rw [hcurdu]; exact hdu)
        refine ⟨_, _, _, _, _, rfl, ?_, ?_, ?_, ?_, ?_, ?_, ?_, ?_⟩
        · refine ⟨?_, ?_⟩
          · show DCore G r0 {v | v ∈ (if u ∈ my.settled then my.settled
              else my.settled ++ [u])} _ _
            rw [hSeq]
            exact hcF
          · show ∀ z ∈ {v | v ∈ (if u ∈ my.settled then my.settled
              else my.settled ++ [u])}, _
            rw [hSeq]
            intro z hzS
            rcases Set.mem_insert_iff.mp hzS with rfl | hzS'
            · intro cu hcu vw hvw
              have hcueq : cu = curT := by
                rw [hcuF] at hcu
                exact (Option.some_inj.mp hcu).symm
              obtain ⟨cv, hcv, hcvle⟩ := hrelF vw hvw
              exact ⟨cv, hcv, by rw [hcueq]; exact hcvle⟩
            · intro cu hcu vw hvw
              rw [hunchF z (Set.mem_insert_of_mem u hzS')] at hcu
              obtain ⟨cv, hcv, hcvle⟩ := hfr z hzS' cu hcu vw hvw
              obtain ⟨cv', hcv', hcvle'⟩ := hdecF vw.1 cv hcv
              exact ⟨cv', hcv', le_trans hcvle' hcvle⟩
        · intro v hv
          exact (hSmem v).mpr (Or.inr hv)
        · intro v hv
          exact hunchF v (by rw [← hSeq]; exact hv)
        · intro z cz hcz
          exact hdecF z cz hcz
        · rw [hdu]
          rcases hod : od.get u with _ | db
          · exact le_refl best
          · show (if ((du + db : ℚ) : WithTop ℚ) < best
              then (((du + db : ℚ) : WithTop ℚ), some u)
              else (best, meeting)).1 ≤ best
            by_cases hlt : ((du + db : ℚ) : WithTop ℚ) < best
            · rw [if_pos hlt]
              exact le_of_lt hlt
            · rw [if_neg hlt]
        · rw [hdu]
          rcases hod : od.get u with _ | db
          · exact Or.inl ⟨rfl, rfl⟩
          · by_cases hlt : ((du + db : ℚ) : WithTop ℚ) < best
            · refine Or.inr ⟨u, du, db, hdu, hod, ?_, ?_⟩
              · show (if ((du + db : ℚ) : WithTop ℚ) < best
                  then (((du + db : ℚ) : WithTop ℚ), some u)
                  else (best, meeting)).1 = ((du + db : ℚ) : WithTop ℚ)
                rw [if_pos hlt]
              · show (if ((du + db : ℚ) : WithTop ℚ) < best
                  then (((du + db : ℚ) : WithTop ℚ), some u)
                  else (best, meeting)).2 = some u
                rw [if_pos hlt]
            · refine Or.inl ⟨?_, ?_⟩
              · show (if ((du + db : ℚ) : WithTop ℚ) < best
                  then (((du + db : ℚ) : WithTop ℚ), some u)
                  else (best, meeting)).1 = best
                rw [if_neg hlt]
              · show (if ((du + db : ℚ) : WithTop ℚ) < best
                  then (((du + db : ℚ) : WithTop ℚ), some u)
                  else (best, meeting)).2 = meeting
                rw [if_neg hlt]
        · intro u2 hu2
          rcases (hSmem u2).mp hu2 with heq | hold
          · subst heq
            refine Or.inr ?_
            intro db hdb
            refine ⟨du, hdu, ?_⟩
            rw [hdu, hdb]
            show (if ((du + db : ℚ) : WithTop ℚ) < best
              then (((du + db : ℚ) : WithTop ℚ), some u2)
              else (best, meeting)).1 ≤ ((du + db : ℚ) : WithTop ℚ)
            by_cases hlt : ((du + db : ℚ) : WithTop ℚ) < best
            · rw [if_pos hlt]
            · rw [if_neg hlt]
              exact not_lt.mp hlt
          · exact Or.inl hold
        · intro c u2 pqr hp _
          rw [hpop] at hp
          have hinj := Option.some_inj.mp hp
          have h1 : u = u2 := congrArg (fun x => x.1.2) hinj
          subst h1
          exact (hSmem u).mpr (Or.inl rfl)
      · next hvalid =>
        have hdult : du < curT := by
          by_contra hcon
          apply hvalid
          rw [getInf_eq_coe hdu]
          exact WithTop.coe_le_coe.mpr (not_lt.mp hcon)
        have huS : u ∈ my.settled := by
          by_contra huS
          obtain ⟨e, hemem, hle⟩ :=
            hcore.cover hnn hfr (hcore.dist_sound u du hdu) huS
          have hm := MinHeap.pop_le hcore.heapinv hpop e hemem
          simp only [] at hm
          have : curT ≤ du := le_trans hm hle
          linarith
        refine ⟨_, best, meeting, _, _, rfl, ?_, fun v hv => hv,
          fun v _ => rfl, fun z cz hcz => ⟨cz, hcz, le_refl cz⟩,
          le_refl best, Or.inl ⟨rfl, rfl⟩, fun u2 hu2 => Or.inl hu2, ?_⟩
        · refine ⟨⟨hcore.dist_sound, hcore.dist_start, ?_,
            hcore.settled_has, hcore.settled_min, ?_, hheapinv'⟩, hfr⟩
          · intro e he
            exact hcore.pq_sound e (hsub e he)
          · intro v c hvc hvS
            obtain ⟨e, hemem, he2, he1⟩ := hcore.active v c hvc hvS
            have hvu : v ≠ u := fun h => hvS (h ▸ huS)
            exact ⟨e, hsurv v hvu e hemem he2, he2, he1⟩
        · intro c u2 pqr hp hvc
          rw [hpop] at hp
          have hinj := Option.some_inj.mp hp
          have h1 : u = u2 := congrArg (fun x => x.1.2) hinj
          have h2 : curT = c := congrArg (fun x => x.1.1) hinj
          subst h1
          subst h2
          exact absurd hvc hvalid
  · next hsz =>
    refine ⟨my, best, meeting, explored, visited, rfl, ⟨hcore, hfr⟩,
      fun v hv => hv, fun v _ => rfl,
      fun z cz hcz => ⟨cz, hcz, le_refl cz⟩, le_refl best,
      Or.inl ⟨rfl, rfl⟩, fun u hu => Or.inl hu, ?_⟩
    intro c u2 pqr hp _
    have hne : my.pq.heap ≠ [] := by
      intro hnil
      rw [(MinHeap.pop_eq_none_iff my.pq).mpr hnil] at hp
      cases hp
    exact absurd (by
      simp only [MinHeap.size, gt_iff_lt]
      exact List.length_pos.mpr hne) hsz

/-! ### The interleaved-loop invariant of `bidirectionalDijkstra` -/

/-- Cross invariant: for every settled forward node `u`, edge `u → y`, and
backward-settled `y`, the recorded best cost already beats the path through
that edge. -/
def CrossInv (g : Graph) (fw bw : SideState) (best : WithTop ℚ) : Prop :=
  ∀ u ∈ fw.settled, ∀ vw ∈ (g.get u).getD [], vw.1 ∈ bw.settled →
    ∀ cu cb, fw.dist.get u = some cu → bw.dist.get vw.1 = some cb →
      best ≤ ((cu + vw.2 + cb : ℚ) : WithTop ℚ)

/-- If a side has settled the opposite root, the best cost already beats
that root's distance (the opposite root's own distance is `0`). -/
def RootInv (sd : SideState) (r : String) (best : WithTop ℚ) : Prop :=
  r ∈ sd.settled → ∀ c, sd.dist.get r = some c → best ≤ (c : WithTop ℚ)

structure BidiInv (g rg : Graph) (s t : String) (st : BState) : Prop where
  finv : DInvFull g s {v | v ∈ st.fwd.settled} st.fwd.dist st.fwd.pq
  binv : DInvFull rg t {v | v ∈ st.bwd.settled} st.bwd.dist st.bwd.pq
  sF : s ∈ st.fwd.settled
  tB : t ∈ st.bwd.settled
  bsound : ∀ q : ℚ, st.bestPathCost = (q : WithTop ℚ) → PathTo g s t q
  bfin : st.meetingNode.isSome = true →
    ∃ q : ℚ, st.bestPathCost = (q : WithTop ℚ)
  cross : CrossInv g st.fwd st.bwd st.bestPathCost
  mtI : RootInv st.fwd t st.bestPathCost
  msI : RootInv st.bwd s st.bestPathCost

/-- One interleaved iteration (forward expansion, then backward expansion
seeing the updated forward distances) preserves every invariant field and
settles the popped nodes of valid extractions. -/
theorem bidi_iterate (g rg : Graph) (s t : String)
    (hnn : NonnegWeights g) (hnnr : NonnegWeights rg) (hml : MapLike g)
    (hrg : rg = (buildReverseGraph g).1) (st : BState)
    (hfinv : DInvFull g s {v | v ∈ st.fwd.settled} st.fwd.dist st.fwd.pq)
    (hbinv : DInvFull rg t {v | v ∈ st.bwd.settled} st.bwd.dist st.bwd.pq)
    (hbsound : ∀ q : ℚ, st.bestPathCost = (q : WithTop ℚ) → PathTo g s t q)
    (hbfin : st.meetingNode.isSome = true →
      ∃ q : ℚ, st.bestPathCost = (q : WithTop ℚ))
    (hcross : CrossInv g st.fwd st.bwd st.bestPathCost)
    (hmt : RootInv st.fwd t st.bestPathCost)
    (hms : RootInv st.bwd s st.bestPathCost) :
    ∃ fwd1 best1 meeting1 explored1 visited1,
      expandSide g "start" st.fwd st.bwd.dist st.bestPathCost st.meetingNode
        st.nodesExplored st.visitedOrder =
        (fwd1, best1, meeting1, explored1, visited1) ∧
    ∃ bwd2 best2 meeting2 explored2 visited2,
      expandSide rg "end" st.bwd fwd1.dist best1 meeting1 explored1
        visited1 = (bwd2, best2, meeting2, explored2, visited2) ∧
      DInvFull g s {v | v ∈ fwd1.settled} fwd1.dist fwd1.pq ∧
      DInvFull rg t {v | v ∈ bwd2.settled} bwd2.dist bwd2.pq ∧
      (∀ v ∈ st.fwd.settled, v ∈ fwd1.settled) ∧
      (∀ v ∈ st.bwd.settled, v ∈ bwd2.settled) ∧
      (∀ q : ℚ, best2 = (q : WithTop ℚ) → PathTo g s t q) ∧
      (meeting2.isSome = true → ∃ q : ℚ, best2 = (q : WithTop ℚ)) ∧
      CrossInv g fwd1 bwd2 best2 ∧
      RootInv fwd1 t best2 ∧
      RootInv bwd2 s best2 ∧
      (∀ c u pqr, st.fwd.pq.pop = some ((c, u), pqr) →
        (c : WithTop ℚ) ≤ getInf st.fwd.dist u → u ∈ fwd1.settled) ∧
      (∀ c u pqr, st.bwd.pq.pop = some ((c, u), pqr) →
        (c : WithTop ℚ) ≤ getInf st.bwd.dist u → u ∈ bwd2.settled) := by
  obtain ⟨fwd1, best1, meeting1, e1, v1, heq1, hfinv1, hgrow1, hsd1, hdec1,
    hble1, hchar1, hnew1, hpset1⟩ :=
    expandSide_general g s hnn "start" st.fwd st.bwd.dist st.bestPathCost
      st.meetingNode st.nodesExplored st.visitedOrder hfinv
  obtain ⟨bwd2, best2, meeting2, e2, v2, heq2, hbinv2, hgrow2, hsd2, hdec2,
    hble2, hchar2, hnew2, hpset2⟩ :=
    expandSide_general rg t hnnr "end" st.bwd fwd1.dist best1 meeting1
      e1 v1 hbinv
  have hb21 : best2 ≤ st.bestPathCost := le_trans hble2 hble1
  have hbsound1 : ∀ q : ℚ, best1 = (q : WithTop ℚ) → PathTo g s t q := by
    intro q hq
    rcases hchar1 with ⟨hb, _⟩ | ⟨u, du, db, hdu, hdb, hbeq, _⟩
    · exact hbsound q (hb ▸ hq)
    · rw [hbeq] at hq
      have hqe : du + db = q := WithTop.coe_inj.mp hq
      have h1 : PathTo g s u du := hfinv.1.dist_sound u du hdu
      have h2 : PathTo rg t u db := hbinv.1.dist_sound u db hdb
      rw [hrg] at h2
      have h3 : PathFrom g t u db := (pathTo_reverse_iff g hml t u db).mp h2
      exact pathTo_cast (pathTo_append h1 h3) hqe
  refine ⟨fwd1, best1, meeting1, e1, v1, heq1,
    bwd2, best2, meeting2, e2, v2, heq2, hfinv1, hbinv2, hgrow1, hgrow2,
    ?_, ?_, ?_, ?_, ?_, hpset1, hpset2⟩
  · intro q hq
    rcases hchar2 with ⟨hb, _⟩ | ⟨u, du, db, hdu, hdb, hbeq, _⟩
    · exact hbsound1 q (hb ▸ hq)
    · rw [hbeq] at hq
      have hqe : du + db = q := WithTop.coe_inj.mp hq
      have h1 : PathTo rg t u du := hbinv.1.dist_sound u du hdu
      rw [hrg] at h1
      have h2 : PathFrom g t u du := (pathTo_reverse_iff g hml t u du).mp h1
      have h3 : PathTo g s u db := hfinv1.1.dist_sound u db hdb
      exact pathTo_cast (pathTo_append h3 h2) (by linarith)
  · intro hm2
    rcases hchar2 with ⟨hb2, hm2eq⟩ | ⟨u, du, db, _, _, hbeq, _⟩
    · rw [hm2eq] at hm2
      rcases hchar1 with ⟨hb1, hm1eq⟩ | ⟨u, du, db, _, _, hbeq, _⟩
      · rw [hm1eq] at hm2
        obtain ⟨q, hq⟩ := hbfin hm2
        exact ⟨q, by rw [hb2, hb1]; exact hq⟩
      · exact ⟨du + db, by rw [hb2]; exact hbeq⟩
    · exact ⟨du + db, hbeq⟩
  · intro u huF vw hvw hyB cu cb hcu hcb
    have hcuS : st.fwd.dist.get u = some cu := by
      rw [← hsd1 u huF]
      exact hcu
    rcases hnew2 vw.1 hyB with holdB | hmeetB
    · have hcbS : st.bwd.dist.get vw.1 = some cb := by
        rw [← hsd2 vw.1 hyB]
        exact hcb
      rcases hnew1 u huF with holdF | hmeetF
      · exact le_trans hb21 (hcross u holdF vw hvw holdB cu cb hcuS hcbS)
      · have hedge : (u, vw.2) ∈ ((rg.get vw.1).getD []) := by
          rw [hrg]
          rw [buildReverseGraph_mem g hml vw.1 u vw.2]
          exact hvw
        obtain ⟨db0, hdb0, hdb0le⟩ :=
          hbinv.2 vw.1 holdB cb hcbS (u, vw.2) hedge
        obtain ⟨du0, hdu0, hb1le⟩ := hmeetF db0 hdb0
        have hdueq : du0 = cu := by
          rw [hcuS] at hdu0
          exact (Option.some_inj.mp hdu0).symm
        refine le_trans hble2 (le_trans hb1le ?_)
        rw [hdueq]
        exact_mod_cast (by linarith : cu + db0 ≤ cu + vw.2 + cb)
    · obtain ⟨dfy, hdfy, hdfyle⟩ := hfinv1.2 u huF cu hcu vw hvw
      obtain ⟨duB, hduB, hb2le⟩ := hmeetB dfy hdfy
      have hcbeq : duB = cb := by
        have := hsd2 vw.1 hyB
        rw [this] at hcb
        rw [hcb] at hduB
        exact (Option.some_inj.mp hduB).symm
      refine le_trans hb2le ?_
      rw [hcbeq]
      exact_mod_cast (by linarith : cb + dfy ≤ cu + vw.2 + cb)
  · intro htF c hct
    have hctS : st.fwd.dist.get t = some c := by
      rw [← hsd1 t htF]
      exact hct
    rcases hnew1 t htF with holdF | hmeetF
    · exact le_trans hb21 (hmt holdF c hctS)
    · obtain ⟨du0, hdu0, hb1le⟩ := hmeetF 0 hbinv.1.dist_start
      have : du0 = c := by
        rw [hctS] at hdu0
        exact (Option.some_inj.mp hdu0).symm
      refine le_trans hble2 (le_trans hb1le ?_)
      rw [this]
      exact_mod_cast (by linarith : c + 0 ≤ c)
  · intro hsB c hcs
    have hcsS : st.bwd.dist.get s = some c := by
      rw [← hsd2 s hsB]
      exact hcs
    rcases hnew2 s hsB with holdB | hmeetB
    · exact le_trans hb21 (hms holdB c hcsS)
    · obtain ⟨du0, hdu0, hb2le⟩ := hmeetB 0 hfinv1.1.dist_start
      have : du0 = c := by
        rw [hcsS] at hdu0
        exact (Option.some_inj.mp hdu0).symm
      refine le_trans hb2le ?_
      rw [this]
      exact_mod_cast (by linarith : c + 0 ≤ c)

theorem peekMin_empty (pq : MinHeap String) (h : pq.heap = []) :
    peekMin pq = ⊤ := by
  unfold peekMin
  rw [h]
  rfl

/-- At the break condition (the sum of the two frontier minima is at least
the best recorded cost), the recorded cost beats every start-to-target
path. -/
theorem bidi_exit_bound (g rg : Graph) (s t : String)
    (hnn : NonnegWeights g) (hnnr : NonnegWeights rg) (hml : MapLike g)
    (hrg : rg = (buildReverseGraph g).1) (st : BState)
    (hinv : BidiInv g rg s t st)
    (hexit : peekMin st.fwd.pq + peekMin st.bwd.pq ≥ st.bestPathCost) :
    ∀ cp, PathTo g s t cp → st.bestPathCost ≤ (cp : WithTop ℚ) := by
  intro cp hcp
  have hcp' : PathFrom g t s cp := pathFrom_iff_pathTo.mpr hcp
  suffices H : ∀ v csuf, PathFrom g t v csuf → ∀ cpre dv,
      v ∈ st.fwd.settled → st.fwd.dist.get v = some dv → dv ≤ cpre →
      st.bestPathCost ≤ ((cpre + csuf : ℚ) : WithTop ℚ) by
    have h0 := H s cp hcp' 0 0 hinv.sF hinv.finv.1.dist_start (le_refl 0)
    calc st.bestPathCost ≤ ((0 + cp : ℚ) : WithTop ℚ) := h0
      _ = (cp : WithTop ℚ) := by rw [zero_add]
  intro v csuf hsuf
  induction hsuf with
  | refl =>
    intro cpre dv hvF hdv hle
    refine le_trans (hinv.mtI hvF dv hdv) ?_
    exact_mod_cast (by linarith : dv ≤ cpre + 0)
  | @cons v y w csuf' he hp ih =>
    intro cpre dv hvF hdv hle
    obtain ⟨dy, hdy, hdyle⟩ := hinv.finv.2 v hvF dv hdv (y, w) he
    by_cases hyF : y ∈ st.fwd.settled
    · refine le_trans (ih (cpre + w) dy hyF hdy (by linarith)) ?_
      exact_mod_cast (by linarith : cpre + w + csuf' ≤ cpre + (w + csuf'))
    · have hpb : PathTo rg t y csuf' := by
        rw [hrg]
        exact (pathTo_reverse_iff g hml t y csuf').mpr hp
      by_cases hyB : y ∈ st.bwd.settled
      · obtain ⟨cb, hcb⟩ := Option.isSome_iff_exists.mp
          ((JsMap.has_iff_get_isSome st.bwd.dist y).mp
            (hinv.binv.1.settled_has y hyB))
        have hcble : cb ≤ csuf' :=
          hinv.binv.1.settled_min y hyB cb hcb csuf' hpb
        refine le_trans (hinv.cross v hvF (y, w) he hyB dv cb hdv hcb) ?_
        exact_mod_cast (by linarith : dv + w + cb ≤ cpre + (w + csuf'))
      · obtain ⟨e, hemem, he2, he1⟩ := hinv.finv.1.active y dy hdy hyF
        have hminF : peekMin st.fwd.pq ≤ (dy : WithTop ℚ) := by
          have h1 := peekMin_le hinv.finv.1.heapinv hemem
          rw [he1] at h1
          exact h1
        obtain ⟨eb, hebmem, heble⟩ :=
          hinv.binv.1.cover hnnr hinv.binv.2 hpb hyB
        have hminB : peekMin st.bwd.pq ≤ (csuf' : WithTop ℚ) :=
          le_trans (peekMin_le hinv.binv.1.heapinv hebmem)
            (by exact_mod_cast heble)
        refine le_trans hexit (le_trans (add_le_add hminF hminB) ?_)
        rw [← WithTop.coe_add]
        exact_mod_cast (by linarith : dy + csuf' ≤ cpre + (w + csuf'))

/-- Master theorem of the interleaved loop: the invariant is preserved to
the final state, which satisfies the break condition. -/
theorem bidiLoop_correct (g rg : Graph) (s t : String)
    (hnn : NonnegWeights g) (hnnr : NonnegWeights rg) (hml : MapLike g)
    (hrg : rg = (buildReverseGraph g).1) :
    ∀ fuel (st stf : BState), BidiInv g rg s t st →
      bidiLoop g rg fuel st = some stf →
      BidiInv g rg s t stf ∧
        peekMin stf.fwd.pq + peekMin stf.bwd.pq ≥ stf.bestPathCost := by
  intro fuel
  induction fuel with
  | zero =>
    intro st stf _ h
    cases h
  | succ n ih =>
    intro st stf hinv hloop
    rw [bidiLoop] at hloop
    split at hloop
    · obtain ⟨fwd1, best1, meeting1, e1, v1, heq1, bwd2, best2, meeting2,
        e2, v2, heq2, hfinv1, hbinv2, hgrow1, hgrow2, hbsound2, hbfin2,
        hcross2, hmt2, hms2, _, _⟩ :=
        bidi_iterate g rg s t hnn hnnr hml hrg st hinv.finv hinv.binv
          hinv.bsound hinv.bfin hinv.cross hinv.mtI hinv.msI
      rw [heq1] at hloop
      simp only [] at hloop
      rw [heq2] at hloop
      simp only [] at hloop
      have hinv2 : BidiInv g rg s t ⟨fwd1, bwd2, best2, meeting2, e2, v2⟩ :=
        ⟨hfinv1, hbinv2, hgrow1 s hinv.sF, hgrow2 t hinv.tB, hbsound2,
          hbfin2, hcross2, hmt2, hms2⟩
      split at hloop
      · next hbrk =>
        cases hloop
        exact ⟨hinv2, hbrk⟩
      · exact ih ⟨fwd1, bwd2, best2, meeting2, e2, v2⟩ stf hinv2 hloop
    · next hsz =>
      cases hloop
      refine ⟨hinv, ?_⟩
      rw [Bool.or_eq_true, not_or] at hsz
      obtain ⟨h1, h2⟩ := hsz
      have hh1 : st.fwd.pq.heap = [] := by
        simp only [decide_eq_true_eq, gt_iff_lt, not_lt, Nat.le_zero,
          MinHeap.size] at h1
        exact List.length_eq_zero.mp h1
      have hh2 : st.bwd.pq.heap = [] := by
        simp only [decide_eq_true_eq, gt_iff_lt, not_lt, Nat.le_zero,
          MinHeap.size] at h2
        exact List.length_eq_zero.mp h2
      rw [peekMin_empty _ hh1, peekMin_empty _ hh2]
      exact le_top

theorem side_initial_inv (G : Graph) (r : String) :
    DInvFull G r {v | v ∈ ([] : List String)} (⟨[(r, 0)]⟩ : JsMap ℚ)
      (MinHeap.mkEmpty.push (0, r)) := by
  have hempty : {v : String | v ∈ ([] : List String)} = (∅ : Set String) := by
    ext v
    simp
  rw [hempty]
  exact dijkstra_initial_inv G r

/-- Every state the interleaved loop returns from the initial
configuration satisfies the invariant and the break condition. -/
theorem bidi_final_state (g : Graph) (s t : String)
    (hnn : NonnegWeights g) (hml : MapLike g) :
    ∀ fuel (stf : BState),
      bidiLoop g (buildReverseGraph g).1 fuel
        ⟨⟨⟨[(s, 0)]⟩, ⟨[(s, none)]⟩, MinHeap.mkEmpty.push (0, s), [], 1⟩,
          ⟨⟨[(t, 0)]⟩, ⟨[(t, none)]⟩, MinHeap.mkEmpty.push (0, t), [], 1⟩,
          ⊤, none, 0, []⟩ = some stf →
      BidiInv g (buildReverseGraph g).1 s t stf ∧
        peekMin stf.fwd.pq + peekMin stf.bwd.pq ≥ stf.bestPathCost := by
  intro fuel stf hloop
  have hnnr := buildReverseGraph_nonneg g hnn
  cases fuel with
  | zero => cases hloop
  | succ n =>
    rw [bidiLoop] at hloop
    rw [if_pos (by simp [singleton_push_size])] at hloop
    obtain ⟨fwd1, best1, meeting1, e1, v1, heq1, bwd2, best2, meeting2,
      e2, v2, heq2, hfinv1, hbinv2, _, _, hbsound2, hbfin2,
      hcross2, hmt2, hms2, hpset1, hpset2⟩ :=
      bidi_iterate g (buildReverseGraph g).1 s t hnn hnnr hml rfl
        ⟨⟨⟨[(s, 0)]⟩, ⟨[(s, none)]⟩, MinHeap.mkEmpty.push (0, s), [], 1⟩,
          ⟨⟨[(t, 0)]⟩, ⟨[(t, none)]⟩, MinHeap.mkEmpty.push (0, t), [], 1⟩,
          ⊤, none, 0, []⟩
        (side_initial_inv g s) (side_initial_inv (buildReverseGraph g).1 t)
        (fun q hq => absurd hq (by simp))
        (fun h => by cases h)
        (fun u hu => absurd hu (List.not_mem_nil u))
        (fun h => absurd h (List.not_mem_nil t))
        (fun h => absurd h (List.not_mem_nil s))
    simp only [] at heq1 heq2
    rw [heq1] at hloop
    simp only [] at hloop
    rw [heq2] at hloop
    simp only [] at hloop
    have hsF : s ∈ fwd1.settled := by
      refine hpset1 0 s MinHeap.mkEmpty (singleton_push_pop _) ?_
      rw [getInf_eq_coe (JsMap.get_singleton s 0)]
    have htB : t ∈ bwd2.settled := by
      refine hpset2 0 t MinHeap.mkEmpty (singleton_push_pop _) ?_
      rw [getInf_eq_coe (JsMap.get_singleton t 0)]
    have hinv2 : BidiInv g (buildReverseGraph g).1 s t
        ⟨fwd1, bwd2, best2, meeting2, e2, v2⟩ :=
      ⟨hfinv1, hbinv2, hsF, htB, hbsound2, hbfin2, hcross2, hmt2, hms2⟩
    split at hloop
    · next hbrk =>
      cases hloop
      exact ⟨hinv2, hbrk⟩
    · exact bidiLoop_correct g (buildReverseGraph g).1 s t hnn hnnr hml rfl
        n ⟨fwd1, bwd2, best2, meeting2, e2, v2⟩ stf hinv2 hloop

/-- C2: for every map-shaped graph with non-negative edge weights and
every start/target pair, whenever `bidirectionalDijkstra` and `dijkstra`
both return a non-null path, the bidirectional total cost equals the
uniform-cost total cost. -/
theorem C2_bidi_equals_dijkstra (fd fb : ℕ) (g : Graph) (s t : String)
    (nc : Coords) (hnn : NonnegWeights g) (hml : MapLike g)
    (rd rb : SearchResult)
    (hrd : dijkstra fd g s t nc = some rd)
    (hrb : bidirectionalDijkstra fb g s t nc = some rb)
    (hpd : rd.path ≠ none) (hpb : rb.path ≠ none) :
    rb.travelTime = rd.travelTime := by
  obtain ⟨cd, hcd⟩ := dijkstra_path_travelTime fd g s t nc rd hrd hpd
  obtain ⟨hsd, hmind⟩ :=
    dijkstra_travelTime_minimal fd g s t nc hnn rd hrd cd hcd
  unfold bidirectionalDijkstra at hrb
  simp only [] at hrb
  split at hrb
  · cases hrb
  · next stf heq =>
    obtain ⟨hinvF, hexit⟩ := bidi_final_state g s t hnn hml fb stf heq
    split at hrb
    · cases hrb
      simp at hpb
    · next mt hmt_eq =>
      cases hrb
      have hqex := hinvF.bfin (by rw [hmt_eq]; rfl)
      obtain ⟨q, hq⟩ := hqex
      have h1 : stf.bestPathCost ≤ (cd : WithTop ℚ) :=
        bidi_exit_bound g (buildReverseGraph g).1 s t hnn
          (buildReverseGraph_nonneg g hnn) hml rfl stf hinvF hexit cd hsd
      have h2 : PathTo g s t q := hinvF.bsound q hq
      have h3 : cd ≤ q := hmind q h2
      have h4 : q ≤ cd := by
        rw [hq] at h1
        exact_mod_cast h1
      show withTopToOption stf.bestPathCost = rd.travelTime
      rw [hq, withTopToOption_coe, hcd, le_antisymm h4 h3]

theorem C2_witness :
    ∃ rd rb, dijkstra 10 exampleGraph "A" "C" emptyCoords = some rd ∧
      bidirectionalDijkstra 10 exampleGraph "A" "C" emptyCoords = some rb ∧
      rd.path ≠ none ∧ rb.path ≠ none ∧ rb.travelTime = rd.travelTime := by
  have hnn : NonnegWeights exampleGraph := by
    intro e he vw hvw
    fin_cases he <;> simp_all <;> rcases hvw with h | h <;> simp_all
  have hml : MapLike exampleGraph := by
    unfold MapLike exampleGraph
    simp
  rcases hrd : dijkstra 10 exampleGraph "A" "C" emptyCoords with _ | rd
  · have hs : (dijkstra 10 exampleGraph "A" "C" emptyCoords).isSome
        = true := by with_unfolding_all rfl
    rw [hrd] at hs
    cases hs
  · rcases hrb : bidirectionalDijkstra 10 exampleGraph "A" "C" emptyCoords
        with _ | rb
    · have hs : (bidirectionalDijkstra 10 exampleGraph "A" "C"
          emptyCoords).isSome = true := by with_unfolding_all rfl
      rw [hrb] at hs
      cases hs
    · have hpd : rd.path ≠ none := by
        have hm : (dijkstra 10 exampleGraph "A" "C" emptyCoords).map
            (fun r => r.path) = some (some ["A", "B", "C"]) := by
          with_unfolding_all rfl
        rw [hrd] at hm
        replace hm : rd.path = some ["A", "B", "C"] := by simpa using hm
        simp [hm]
      have hpb : rb.path ≠ none := by
        have hm : (bidirectionalDijkstra 10 exampleGraph "A" "C"
            emptyCoords).map (fun r => r.path) =
            some (some ["A", "B", "C"]) := by
          with_unfolding_all rfl
        rw [hrb] at hm
        replace hm : rb.path = some ["A", "B", "C"] := by simpa using hm
        simp [hm]
      exact ⟨rd, rb, rfl, rfl, hpd, hpb,
        C2_bidi_equals_dijkstra 10 10 exampleGraph "A" "C" emptyCoords
          hnn hml rd rb hrd hrb hpd hpb⟩

/-! ### Termination of the three searches.

The fuelled loops always admit sufficient fuel: every iteration pops one
frontier entry, and entries are pushed only when a node's best-known cost
strictly decreases.  With non-negative rational weights every stored cost
is a non-negative multiple of `1 / weightsDen g`, so the decrease is
well-founded; the measure is the lexicographic triple (unreached nodes,
total scaled distance, frontier size). -/

/-- `q` is a non-negative integer multiple of `1 / D`. -/
def gridQ (D : ℕ) (q : ℚ) : Prop := 0 ≤ q ∧ ∃ k : ℕ, q * D = k

/-- All edge weights stored in the graph object, in order. -/
def allWeights (g : Graph) : List ℚ :=
  g.entries.flatMap (fun e => e.2.map (fun vw => vw.2))

/-- Common denominator of all edge weights. -/
def weightsDen (g : Graph) : ℕ :=
  (allWeights g).foldl (fun a q => a * q.den) 1

theorem dvd_foldl_mul_den : ∀ (l : List ℚ) (a : ℕ),
    a ∣ l.foldl (fun a q => a * q.den) a := by
  intro l
  induction l with
  | nil => exact fun a => dvd_refl a
  | cons q tl ih =>
    intro a
    rw [List.foldl_cons]
    exact dvd_trans (Dvd.intro q.den rfl) (ih (a * q.den))

theorem den_dvd_foldl : ∀ (l : List ℚ) (a : ℕ) (q : ℚ), q ∈ l →
    q.den ∣ l.foldl (fun a q => a * q.den) a := by
  intro l
  induction l with
  | nil =>
    intro _ q hq
    cases hq
  | cons p tl ih =>
    intro a q hq
    rw [List.foldl_cons]
    rcases List.mem_cons.mp hq with rfl | hq'
    · exact dvd_trans (Dvd.intro_left a rfl) (dvd_foldl_mul_den tl (a * q.den))
    · exact ih (a * p.den) q hq'

theorem weightsDen_pos (g : Graph) : 0 < weightsDen g := by
  unfold weightsDen
  have h : ∀ (l : List ℚ) (a : ℕ), 0 < a →
      0 < l.foldl (fun a q => a * q.den) a := by
    intro l
    induction l with
    | nil => exact fun a ha => ha
    | cons q tl ih =>
      intro a ha
      rw [List.foldl_cons]
      exact ih (a * q.den) (Nat.mul_pos ha q.pos)
  exact h (allWeights g) 1 Nat.one_pos

theorem weight_mem_allWeights {g : Graph} {u : String} {vw : String × ℚ}
    (h : vw ∈ (g.get u).getD []) : vw.2 ∈ allWeights g := by
  rcases hg : g.get u with _ | adj
  · rw [hg] at h
    simp at h
  · rw [hg] at h
    simp only [Option.getD_some] at h
    unfold allWeights
    rw [List.mem_flatMap]
    exact ⟨(u, adj), JsMap.get_eq_some_mem g u adj hg,
      List.mem_map_of_mem (fun vw => vw.2) h⟩

theorem gridQ_weight {g : Graph} (hnn : NonnegWeights g) {u : String}
    {vw : String × ℚ} (h : vw ∈ (g.get u).getD []) :
    gridQ (weightsDen g) vw.2 := by
  refine ⟨hnn.get u vw h, ?_⟩
  obtain ⟨m, hm⟩ := den_dvd_foldl (allWeights g) 1 vw.2
    (weight_mem_allWeights h)
  refine ⟨vw.2.num.toNat * m, ?_⟩
  have hnum : 0 ≤ vw.2.num := Rat.num_nonneg.mpr (hnn.get u vw h)
  have h1 : ((vw.2.num.toNat : ℤ) : ℚ) = (vw.2.num : ℚ) := by
    exact_mod_cast congrArg (fun z : ℤ => (z : ℚ)) (Int.toNat_of_nonneg hnum)
  push_cast
  rw [show weightsDen g = vw.2.den * m from hm]
  push_cast
  rw [← mul_assoc]
  rw [show (vw.2 : ℚ) * vw.2.den = (vw.2.num : ℚ) from by
    exact_mod_cast Rat.mul_den_eq_num vw.2]
  have h2 : ((vw.2.num.toNat : ℚ)) = (vw.2.num : ℚ) := by
    exact_mod_cast Int.toNat_of_nonneg hnum
  rw [h2]

theorem gridQ_zero (D : ℕ) : gridQ D 0 := ⟨le_refl 0, 0, by push_cast; ring⟩

theorem gridQ_add {D : ℕ} {a b : ℚ} (ha : gridQ D a) (hb : gridQ D b) :
    gridQ D (a + b) := by
  obtain ⟨ha0, ka, hka⟩ := ha
  obtain ⟨hb0, kb, hkb⟩ := hb
  exact ⟨add_nonneg ha0 hb0, ka + kb, by push_cast; rw [add_mul, hka, hkb]⟩

/-- Strict decrease on the grid drops the scaled value by at least one. -/
theorem gridQ_lt_step {D : ℕ} (hD : 0 < D) {a b : ℚ} (ha : gridQ D a)
    (hb : gridQ D b) (hlt : b < a) :
    (b * D).num.toNat + 1 ≤ (a * D).num.toNat := by
  obtain ⟨_, ka, hka⟩ := ha
  obtain ⟨_, kb, hkb⟩ := hb
  have h1 : (a * D).num.toNat = ka := by
    rw [hka]
    simp
  have h2 : (b * D).num.toNat = kb := by
    rw [hkb]
    simp
  rw [h1, h2]
  have hDq : (0 : ℚ) < D := by exact_mod_cast hD
  have : (kb : ℚ) < ka := by
    rw [← hka, ← hkb]
    exact mul_lt_mul_of_pos_right hlt hDq
  have : kb < ka := by exact_mod_cast this
  omega

/-- Total scaled distance stored in a map. -/
def distPot (D : ℕ) (m : JsMap ℚ) : ℕ :=
  (m.entries.map (fun e => (e.2 * (D : ℚ)).num.toNat)).sum

/-- Number of universe nodes not yet reached by the map. -/
def unreached (univ : List String) (m : JsMap ℚ) : ℕ :=
  (univ.filter (fun v => m.has v = false)).length

/-- Edge targets belong to the node list of the graph. -/
theorem target_mem_graphNodes {g : Graph} {u : String} {vw : String × ℚ}
    (h : vw ∈ (g.get u).getD []) : vw.1 ∈ graphNodes g := by
  rcases hg : g.get u with _ | adj
  · rw [hg] at h
    simp at h
  · rw [hg] at h
    simp only [Option.getD_some] at h
    unfold graphNodes
    rw [List.mem_dedup, List.mem_append]
    refine Or.inr ?_
    rw [List.mem_flatMap]
    exact ⟨(u, adj), JsMap.get_eq_some_mem g u adj hg,
      List.mem_map_of_mem (fun vw => vw.1) h⟩

/-- Strict lexicographic decrease of (unreached count, total scaled
distance). -/
def measLT (D : ℕ) (univ : List String) (d' d : JsMap ℚ) : Prop :=
  unreached univ d' < unreached univ d ∨
    (unreached univ d' = unreached univ d ∧ distPot D d' < distPot D d)

/-- Facts needed for the termination measure: stored costs on the grid,
unique keys, keys inside the finite universe. -/
structure TermInvD (D : ℕ) (univ : List String) (dist : JsMap ℚ)
    (pq : MinHeap String) : Prop where
  dist_grid : ∀ e ∈ dist.entries, gridQ D e.2
  dist_nodup : (dist.entries.map (fun e => e.1)).Nodup
  dist_keys : ∀ e ∈ dist.entries, e.1 ∈ univ
  pq_grid : ∀ e ∈ pq.heap, gridQ D e.1

theorem filter_length_mono {p q : String → Bool} (hpq : ∀ x, p x = true → q x = true) :
    ∀ l : List String, (l.filter p).length ≤ (l.filter q).length := by
  intro l
  induction l with
  | nil => exact le_refl 0
  | cons a tl ih =>
    rcases hq : q a with _ | _
    · have hp : p a = false := by
        rcases hp : p a with _ | _
        · rfl
        · rw [hpq a hp] at hq
          cases hq
      rw [List.filter_cons, List.filter_cons, hp, hq]
      simpa using ih
    · rw [List.filter_cons, List.filter_cons, hq]
      rcases hp : p a with _ | _
      · simp only [cond_false, cond_true, List.length_cons]
        exact le_trans ih (Nat.le_succ _)
      · simp only [cond_true, List.length_cons]
        exact Nat.succ_le_succ ih

theorem unreached_set_le (univ : List String) (m : JsMap ℚ) (k : String)
    (v : ℚ) : unreached univ (m.set k v) ≤ unreached univ m := by
  unfold unreached
  refine filter_length_mono ?_ univ
  intro x hx
  simp only [decide_eq_true_eq] at hx ⊢
  rw [JsMap.has_set] at hx
  rcases h : m.has x with _ | _
  · rfl
  · rw [h] at hx
    simp at hx

theorem unreached_set_eq_of_has (univ : List String) (m : JsMap ℚ)
    (k : String) (v : ℚ) (hhas : m.has k = true) :
    unreached univ (m.set k v) = unreached univ m := by
  unfold unreached
  congr 1
  apply List.filter_congr
  intro x _
  rw [JsMap.has_set]
  by_cases hxk : x = k
  · subst hxk
    simp [hhas]
  · simp [hxk]

theorem unreached_set_lt (univ : List String) (m : JsMap ℚ) (k : String)
    (v : ℚ) (hhas : m.has k = false) (hk : k ∈ univ) :
    unreached univ (m.set k v) < unreached univ m := by
  unfold unreached
  have himp : ∀ x, decide ((m.set k v).has x = false) = true →
      decide (m.has x = false) = true := by
    intro x hx
    simp only [decide_eq_true_eq] at hx ⊢
    rw [JsMap.has_set] at hx
    rcases h : m.has x with _ | _
    · rfl
    · rw [h] at hx
      simp at hx
  have hstep : ∀ l : List String, k ∈ l →
      (l.filter (fun x => (m.set k v).has x = false)).length <
        (l.filter (fun x => m.has x = false)).length := by
    intro l
    induction l with
    | nil =>
      intro h
      cases h
    | cons a tl ih =>
      intro hmem
      by_cases hak : a = k
      · subst hak
        rw [List.filter_cons_of_neg (by simp [JsMap.has_set_self]),
          List.filter_cons_of_pos (by simp [hhas])]
        exact Nat.lt_succ_of_le (filter_length_mono himp tl)
      · have hmem' : k ∈ tl := by
          rcases List.mem_cons.mp hmem with h | h
          · exact absurd h.symm hak
          · exact h
        have heq : (m.set k v).has a = m.has a :=
          JsMap.has_set_ne m k a v hak
        by_cases hpa : m.has a = false
        · rw [List.filter_cons_of_pos (by simp [heq, hpa]),
            List.filter_cons_of_pos (by simp [hpa])]
          exact Nat.succ_lt_succ (ih hmem')
        · rw [List.filter_cons_of_neg (by simp [heq, hpa]),
            List.filter_cons_of_neg (by simp [hpa])]
          exact ih hmem'
  exact hstep univ hk

theorem distPot_set_lt (D : ℕ) (hD : 0 < D) (m : JsMap ℚ) (k : String)
    (v old : ℚ) (hget : m.get k = some old)
    (hnodup : (m.entries.map (fun e => e.1)).Nodup)
    (hgold : gridQ D old) (hgv : gridQ D v) (hlt : v < old) :
    distPot D (m.set k v) < distPot D m := by
  have hhas : m.has k = true := by
    rw [JsMap.has_eq_isSome_get, hget]
    rfl
  unfold JsMap.set
  rw [if_pos hhas]
  unfold distPot
  simp only []
  have hfind : m.entries.find? (fun e => e.1 = k) = some (k, old) := by
    unfold JsMap.get at hget
    rcases hf : m.entries.find? (fun e => e.1 = k) with _ | e
    · rw [hf] at hget
      cases hget
    · rw [hf] at hget
      have h1 : e.1 = k := by simpa using List.find?_some hf
      have h2 : e.2 = old := by simpa using hget
      rw [hf]
      cases e
      simp only [] at h1 h2
      rw [h1, h2]
  have hmain : ∀ l : List (String × ℚ),
      (l.map (fun e => e.1)).Nodup →
      l.find? (fun e => e.1 = k) = some (k, old) →
      ((l.map (fun e => if e.1 = k then (k, v) else e)).map
        (fun e => (e.2 * (D : ℚ)).num.toNat)).sum <
        (l.map (fun e => (e.2 * (D : ℚ)).num.toNat)).sum := by
    intro l
    induction l with
    | nil =>
      intro _ hf
      cases hf
    | cons a tl ih =>
      intro hnd hf
      rw [List.map_cons, List.nodup_cons] at hnd
      by_cases hak : a.1 = k
      · rw [List.find?_cons_of_pos _ (by simpa using hak)] at hf
        have ha : a = (k, old) := Option.some_inj.mp hf
        subst ha
        have hrepl : tl.map (fun e => if e.1 = k then (k, v) else e) = tl := by
          refine (List.map_congr_left ?_).trans (List.map_id tl)
          intro e he
          have hne : e.1 ≠ k := by
            intro heq
            exact hnd.1 (heq ▸ List.mem_map_of_mem (fun e => e.1) he)
          rw [if_neg hne]
          rfl
        have hmap : ((k, old) :: tl).map (fun e => if e.1 = k then (k, v) else e)
            = (k, v) :: tl := by
          rw [List.map_cons, hrepl]
          congr 1
          exact if_pos rfl
        rw [hmap, List.map_cons, List.map_cons, List.sum_cons, List.sum_cons]
        have hterm := gridQ_lt_step hD hgold hgv hlt
        have hlt2 : ((((k, v) : String × ℚ)).2 * (D : ℚ)).num.toNat <
            ((((k, old) : String × ℚ)).2 * (D : ℚ)).num.toNat := by
          simp only []
          omega
        exact Nat.add_lt_add_right hlt2 _
      · rw [List.find?_cons_of_neg _ (by simpa using hak)] at hf
        rw [List.map_cons, List.map_cons, List.map_cons, List.sum_cons,
          List.sum_cons]
        rw [if_neg hak]
        exact Nat.add_lt_add_left (ih hnd.2 hf) _
  exact hmain m.entries hnodup hfind

/-- `set` keeps the stored keys duplicate-free: an existing key is
overwritten in place, a new key is appended. -/
theorem JsMap.nodup_keys_set {β : Type} (m : JsMap β) (k : String) (v : β)
    (h : (m.entries.map (fun e => e.1)).Nodup) :
    ((m.set k v).entries.map (fun e => e.1)).Nodup := by
  unfold JsMap.set
  split
  · simp only [List.map_map]
    have heq : m.entries.map ((fun e : String × β => e.1) ∘
        (fun e => if e.1 = k then (k, v) else e)) =
        m.entries.map (fun e => e.1) := by
      apply List.map_congr_left
      intro e _
      simp only [Function.comp]
      by_cases he : e.1 = k
      · rw [if_pos he]
        exact he.symm
      · rw [if_neg he]
    rw [heq]
    exact h
  · next hhas =>
    rw [List.map_append]
    refine ((List.perm_append_singleton k _).nodup_iff).mpr ?_
    rw [List.nodup_cons]
    refine ⟨?_, h⟩
    intro hk
    rw [Bool.not_eq_true] at hhas
    exact absurd ((JsMap.mem_keys_iff_has m k).mp hk) (by simp [hhas])

theorem JsMap.exists_get_of_has {β : Type} (m : JsMap β) (k : String)
    (h : m.has k = true) : ∃ v, m.get k = some v := by
  rw [JsMap.has_eq_isSome_get] at h
  exact Option.isSome_iff_exists.mp h

theorem measLT_trans {D : ℕ} {univ : List String} {d2 d1 d0 : JsMap ℚ}
    (h21 : measLT D univ d2 d1) (h10 : measLT D univ d1 d0) :
    measLT D univ d2 d0 := by
  unfold measLT at h21 h10 ⊢
  rcases h21 with h | ⟨he, hp⟩ <;> rcases h10 with h' | ⟨he', hp'⟩
  · exact Or.inl (lt_trans h h')
  · exact Or.inl (he' ▸ h)
  · exact Or.inl (he ▸ h')
  · exact Or.inr ⟨he.trans he', lt_trans hp hp'⟩

theorem measLT_unreached_le {D : ℕ} {univ : List String} {d' d : JsMap ℚ}
    (h : measLT D univ d' d) : unreached univ d' ≤ unreached univ d := by
  unfold measLT at h
  rcases h with h | ⟨he, _⟩
  · exact le_of_lt h
  · exact le_of_eq he

/-- Builder for the three-component lexicographic termination order. -/
theorem lex3_of {U P S U0 P0 S0 : ℕ}
    (h : U < U0 ∨ (U = U0 ∧ P < P0) ∨ (U = U0 ∧ P = P0 ∧ S < S0)) :
    Prod.Lex (· < · : ℕ → ℕ → Prop)
      (Prod.Lex (· < · : ℕ → ℕ → Prop) (· < · : ℕ → ℕ → Prop))
      (U, (P, S)) (U0, (P0, S0)) := by
  rcases h with h | ⟨h1, h2⟩ | ⟨h1, h2, h3⟩
  · exact Prod.Lex.left _ _ h
  · subst h1
    exact Prod.Lex.right _ (Prod.Lex.left _ _ h2)
  · subst h1
    subst h2
    exact Prod.Lex.right _ (Prod.Lex.right _ h3)

/-- One relaxation step either leaves the accumulator untouched or strictly
decreases the (unreached, scaled-distance) measure, and it preserves the
grid/key invariant. -/
theorem relaxCore_measure {D : ℕ} (hD : 0 < D) {univ : List String}
    {u : String} {curT : ℚ} (acc : RelaxAcc) (vw : String × ℚ)
    (hinv : TermInvD D univ acc.dist acc.pq)
    (hgc : gridQ D curT) (hgw : gridQ D vw.2) (hvu : vw.1 ∈ univ) :
    TermInvD D univ (relaxCore u curT acc vw).dist
        (relaxCore u curT acc vw).pq ∧
      (relaxCore u curT acc vw = acc ∨
        measLT D univ (relaxCore u curT acc vw).dist acc.dist) := by
  by_cases hlt : ((curT + vw.2 : ℚ) : WithTop ℚ) < getInf acc.dist vw.1
  · rw [relaxCore_of_lt u curT acc vw hlt]
    refine ⟨⟨?_, ?_, ?_, ?_⟩, Or.inr ?_⟩
    · intro e he
      rcases JsMap.mem_entries_set acc.dist vw.1 (curT + vw.2) e he with
        h | h
      · exact hinv.dist_grid e h
      · rw [h]
        exact gridQ_add hgc hgw
    · exact JsMap.nodup_keys_set acc.dist vw.1 _ hinv.dist_nodup
    · intro e he
      rcases JsMap.mem_entries_set acc.dist vw.1 (curT + vw.2) e he with
        h | h
      · exact hinv.dist_keys e h
      · rw [h]
        exact hvu
    · intro e he
      have hmem := (MinHeap.push_perm acc.pq (curT + vw.2, vw.1)).mem_iff.mp he
      rcases List.mem_cons.mp hmem with h | h
      · rw [h]
        exact gridQ_add hgc hgw
      · exact hinv.pq_grid e h
    · unfold measLT
      by_cases hhas : acc.dist.has vw.1 = true
      · obtain ⟨old, hold⟩ := JsMap.exists_get_of_has acc.dist vw.1 hhas
        have hltq : curT + vw.2 < old := by
          rw [getInf_eq_coe hold] at hlt
          exact_mod_cast hlt
        have hgold : gridQ D old :=
          hinv.dist_grid (vw.1, old)
            (JsMap.get_eq_some_mem acc.dist vw.1 old hold)
        exact Or.inr ⟨unreached_set_eq_of_has univ acc.dist vw.1 _ hhas,
          distPot_set_lt D hD acc.dist vw.1 _ old hold hinv.dist_nodup
            hgold (gridQ_add hgc hgw) hltq⟩
      · rw [Bool.not_eq_true] at hhas
        exact Or.inl (unreached_set_lt univ acc.dist vw.1 _ hhas hvu)
  · rw [relaxCore_of_ge u curT acc vw hlt]
    exact ⟨hinv, Or.inl rfl⟩

/-- Folding the relaxation over an adjacency list either leaves the
accumulator untouched or strictly decreases the measure. -/
theorem relaxCore_foldl_measure {D : ℕ} (hD : 0 < D) {univ : List String}
    {u : String} {curT : ℚ} (hgc : gridQ D curT) :
    ∀ (l : List (String × ℚ)) (acc : RelaxAcc),
      (∀ vw ∈ l, gridQ D vw.2 ∧ vw.1 ∈ univ) →
      TermInvD D univ acc.dist acc.pq →
      TermInvD D univ (l.foldl (relaxCore u curT) acc).dist
          (l.foldl (relaxCore u curT) acc).pq ∧
        (l.foldl (relaxCore u curT) acc = acc ∨
          measLT D univ (l.foldl (relaxCore u curT) acc).dist acc.dist) := by
  intro l
  induction l with
  | nil =>
    intro acc _ hinv
    exact ⟨hinv, Or.inl rfl⟩
  | cons vw tl ih =>
    intro acc hl hinv
    rw [List.foldl_cons]
    obtain ⟨hw, hu⟩ := hl vw (List.mem_cons_self vw tl)
    obtain ⟨hstep_inv, hstep⟩ := relaxCore_measure hD acc vw hinv hgc hw hu
    obtain ⟨hrec_inv, hrec⟩ := ih (relaxCore u curT acc vw)
      (fun x hx => hl x (List.mem_cons_of_mem vw hx)) hstep_inv
    refine ⟨hrec_inv, ?_⟩
    rcases hstep with heq | hm
    · rw [heq] at hrec ⊢
      exact hrec
    · rcases hrec with heq2 | hm2
      · rw [heq2]
        exact Or.inr hm
      · exact Or.inr (measLT_trans hm2 hm)

theorem dijkstraLoop_step_empty (g : Graph) (t : String) (fuel : ℕ)
    (st : DState) (h : ¬ st.pq.size > 0) :
    dijkstraLoop g t (fuel + 1) st = some st := by
  rw [dijkstraLoop, if_neg h]

theorem dijkstraLoop_step_stale (g : Graph) (t : String) (fuel : ℕ)
    (st : DState) (curT : ℚ) (u : String) (pq' : MinHeap String)
    (hpop : st.pq.pop = some ((curT, u), pq')) (hut : ¬ u = t)
    (hstale : (curT : WithTop ℚ) > getInf st.dist u) :
    dijkstraLoop g t (fuel + 1) st =
      dijkstraLoop g t fuel
        { st with
          pq := pq'
          nodesExplored := st.nodesExplored + 1
          visitedOrder :=
            st.visitedOrder ++ [⟨u, (st.parent.get u).join, none⟩] } := by
  have hsz : st.pq.size > 0 := pop_pos_size st.pq _ _ hpop
  rw [dijkstraLoop, if_pos hsz, hpop]
  simp only []
  rw [if_neg hut, if_pos hstale]

theorem dijkstraLoop_step_relax (g : Graph) (t : String) (fuel : ℕ)
    (st : DState) (curT : ℚ) (u : String) (pq' : MinHeap String)
    (hpop : st.pq.pop = some ((curT, u), pq')) (hut : ¬ u = t)
    (hvalid : ¬ (curT : WithTop ℚ) > getInf st.dist u) :
    dijkstraLoop g t (fuel + 1) st =
      dijkstraLoop g t fuel
        { dist := (((g.get u).getD []).foldl (relaxCore u curT)
            ⟨st.dist, st.parent, pq', st.maxPqSize⟩).dist
          parent := (((g.get u).getD []).foldl (relaxCore u curT)
            ⟨st.dist, st.parent, pq', st.maxPqSize⟩).parent
          pq := (((g.get u).getD []).foldl (relaxCore u curT)
            ⟨st.dist, st.parent, pq', st.maxPqSize⟩).pq
          nodesExplored := st.nodesExplored + 1
          visitedOrder :=
            st.visitedOrder ++ [⟨u, (st.parent.get u).join, none⟩]
          maxPqSize := (((g.get u).getD []).foldl (relaxCore u curT)
            ⟨st.dist, st.parent, pq', st.maxPqSize⟩).maxPqSize } := by
  have hsz : st.pq.size > 0 := pop_pos_size st.pq _ _ hpop
  rw [dijkstraLoop, if_pos hsz, hpop]
  simp only []
  rw [if_neg hut, if_neg hvalid]

/-- `dijkstraLoop` terminates from every state whose stored costs lie on the
common weight grid: along the lexicographic measure (unreached nodes, total
scaled distance, frontier size), every iteration strictly decreases. -/
theorem dijkstraLoop_terminates (g : Graph) (t : String) (D : ℕ)
    (hD : 0 < D) (univ : List String)
    (hedges : ∀ u, ∀ vw ∈ (g.get u).getD [], gridQ D vw.2 ∧ vw.1 ∈ univ) :
    ∀ st : DState, TermInvD D univ st.dist st.pq →
      ∃ fuel st', dijkstraLoop g t fuel st = some st' := by
  have hwf : WellFounded (Prod.Lex (· < · : ℕ → ℕ → Prop)
      (Prod.Lex (· < · : ℕ → ℕ → Prop) (· < · : ℕ → ℕ → Prop))) :=
    IsWellFounded.wf
  have main : ∀ n : ℕ × ℕ × ℕ, ∀ st : DState,
      TermInvD D univ st.dist st.pq →
      (unreached univ st.dist, distPot D st.dist, st.pq.size) = n →
      ∃ fuel st', dijkstraLoop g t fuel st = some st' := by
    intro n
    refine @WellFounded.induction _ _ hwf
      (fun x => ∀ st : DState,
        TermInvD D univ st.dist st.pq →
        (unreached univ st.dist, distPot D st.dist, st.pq.size) = x →
        ∃ fuel st', dijkstraLoop g t fuel st = some st') n ?_
    intro x ih st hinv hmeas
    subst hmeas
    by_cases hpos : st.pq.size > 0
    · have hne : st.pq.heap ≠ [] := by
        intro hnil
        rw [MinHeap.size, hnil] at hpos
        exact absurd hpos (by simp)
      obtain ⟨e, pq', hpop⟩ := MinHeap.pop_isSome_of_ne_nil st.pq hne
      obtain ⟨curT, u⟩ := e
      have hszeq : st.pq.size = pq'.size + 1 :=
        MinHeap.pop_size st.pq _ _ hpop
      by_cases hut : u = t
      · subst hut
        exact ⟨1, _, dijkstraLoop_break_target g u 0 st curT pq' hpop⟩
      · have hinv1 : TermInvD D univ st.dist pq' :=
          ⟨hinv.dist_grid, hinv.dist_nodup, hinv.dist_keys,
            fun e he => hinv.pq_grid e ((MinHeap.mem_of_pop hpop).2 e he)⟩
        by_cases hstale : (curT : WithTop ℚ) > getInf st.dist u
        · obtain ⟨fuel0, stf, hloop⟩ := ih
            (unreached univ st.dist, distPot D st.dist, pq'.size)
            (lex3_of (Or.inr (Or.inr ⟨rfl, rfl, by omega⟩)))
            { st with
              pq := pq'
              nodesExplored := st.nodesExplored + 1
              visitedOrder :=
                st.visitedOrder ++ [⟨u, (st.parent.get u).join, none⟩] }
            hinv1 rfl
          exact ⟨fuel0 + 1, stf,
            (dijkstraLoop_step_stale g t fuel0 st curT u pq' hpop hut
              hstale).trans hloop⟩
        · have hgc : gridQ D curT :=
            hinv.pq_grid (curT, u) (MinHeap.mem_of_pop hpop).1
          obtain ⟨hfinv, hfcase⟩ := relaxCore_foldl_measure hD hgc
            ((g.get u).getD [])
            ⟨st.dist, st.parent, pq', st.maxPqSize⟩
            (fun vw hvw => hedges u vw hvw) hinv1
          rcases hfcase with heq | hm
          · obtain ⟨fuel0, stf, hloop⟩ := ih
              (unreached univ st.dist, distPot D st.dist, pq'.size)
              (lex3_of (Or.inr (Or.inr ⟨rfl, rfl, by omega⟩)))
              { dist := (((g.get u).getD []).foldl (relaxCore u curT)
                  ⟨st.dist, st.parent, pq', st.maxPqSize⟩).dist
                parent := (((g.get u).getD []).foldl (relaxCore u curT)
                  ⟨st.dist, st.parent, pq', st.maxPqSize⟩).parent
                pq := (((g.get u).getD []).foldl (relaxCore u curT)
                  ⟨st.dist, st.parent, pq', st.maxPqSize⟩).pq
                nodesExplored := st.nodesExplored + 1
                visitedOrder :=
                  st.visitedOrder ++ [⟨u, (st.parent.get u).join, none⟩]
                maxPqSize := (((g.get u).getD []).foldl (relaxCore u curT)
                  ⟨st.dist, st.parent, pq', st.maxPqSize⟩).maxPqSize }
              ⟨hfinv.dist_grid, hfinv.dist_nodup, hfinv.dist_keys,
                hfinv.pq_grid⟩
              (by rw [heq])
            exact ⟨fuel0 + 1, stf,
              (dijkstraLoop_step_relax g t fuel0 st curT u pq' hpop hut
                hstale).trans hloop⟩
          · have hm' := hm
            unfold measLT at hm'
            have hUle := measLT_unreached_le hm
            obtain ⟨fuel0, stf, hloop⟩ := ih
              (unreached univ (((g.get u).getD []).foldl (relaxCore u curT)
                  ⟨st.dist, st.parent, pq', st.maxPqSize⟩).dist,
                distPot D (((g.get u).getD []).foldl (relaxCore u curT)
                  ⟨st.dist, st.parent, pq', st.maxPqSize⟩).dist,
                (((g.get u).getD []).foldl (relaxCore u curT)
                  ⟨st.dist, st.parent, pq', st.maxPqSize⟩).pq.size)
              (lex3_of (by
                rcases hm' with h | ⟨he, hp⟩
                · exact Or.inl h
                · exact Or.inr (Or.inl ⟨he, hp⟩)))
              { dist := (((g.get u).getD []).foldl (relaxCore u curT)
                  ⟨st.dist, st.parent, pq', st.maxPqSize⟩).dist
                parent := (((g.get u).getD []).foldl (relaxCore u curT)
                  ⟨st.dist, st.parent, pq', st.maxPqSize⟩).parent
                pq := (((g.get u).getD []).foldl (relaxCore u curT)
                  ⟨st.dist, st.parent, pq', st.maxPqSize⟩).pq
                nodesExplored := st.nodesExplored + 1
                visitedOrder :=
                  st.visitedOrder ++ [⟨u, (st.parent.get u).join, none⟩]
                maxPqSize := (((g.get u).getD []).foldl (relaxCore u curT)
                  ⟨st.dist, st.parent, pq', st.maxPqSize⟩).maxPqSize }
              ⟨hfinv.dist_grid, hfinv.dist_nodup, hfinv.dist_keys,
                hfinv.pq_grid⟩
              rfl
            exact ⟨fuel0 + 1, stf,
              (dijkstraLoop_step_relax g t fuel0 st curT u pq' hpop hut
                hstale).trans hloop⟩
    · exact ⟨1, st, dijkstraLoop_step_empty g t 0 st hpos⟩
  intro st hinv
  exact main (unreached univ st.dist, distPot D st.dist, st.pq.size) st hinv
    rfl

/-- Facts needed for the termination measure of `astar`: stored `gScore`
values on the grid, unique keys, keys inside the finite universe.  (The
frontier needs no invariant: `tentativeG` is recomputed from the `gScore`
map.) -/
structure TermInvA (D : ℕ) (univ : List String) (gScore : JsMap ℚ) :
    Prop where
  gs_grid : ∀ e ∈ gScore.entries, gridQ D e.2
  gs_nodup : (gScore.entries.map (fun e => e.1)).Nodup
  gs_keys : ∀ e ∈ gScore.entries, e.1 ∈ univ

/-- Unfolding equation for the relaxation body of `astar`. -/
theorem astarRelax_eq (h0 : String → ℚ) (u : String) (st : AState)
    (vw : String × ℚ) :
    astarRelax h0 u st vw =
      if ((((st.gScore.get u).getD 0 + vw.2 : ℚ)) : WithTop ℚ) <
          getInf st.gScore vw.1 then
        { st with
          gScore := st.gScore.set vw.1 ((st.gScore.get u).getD 0 + vw.2)
          fScore := st.fScore.set vw.1
            ((st.gScore.get u).getD 0 + vw.2 + h0 vw.1)
          parent := st.parent.set vw.1 (some u)
          pq := st.pq.push ((st.gScore.get u).getD 0 + vw.2 + h0 vw.1,
            ((st.gScore.get u).getD 0 + vw.2, vw.1))
          maxPqSize := max st.maxPqSize
            (st.pq.push ((st.gScore.get u).getD 0 + vw.2 + h0 vw.1,
              ((st.gScore.get u).getD 0 + vw.2, vw.1))).size }
      else st := rfl

/-- One `astar` relaxation step either leaves the state untouched or
strictly decreases the `gScore` measure, and preserves its grid/key
invariant. -/
theorem astarRelax_measure {D : ℕ} (hD : 0 < D) {univ : List String}
    (h0 : String → ℚ) (u : String) (st : AState) (vw : String × ℚ)
    (hinv : TermInvA D univ st.gScore)
    (hgw : gridQ D vw.2) (hvu : vw.1 ∈ univ) :
    TermInvA D univ (astarRelax h0 u st vw).gScore ∧
      (astarRelax h0 u st vw = st ∨
        measLT D univ (astarRelax h0 u st vw).gScore st.gScore) := by
  have hgu : gridQ D ((st.gScore.get u).getD 0) := by
    rcases hget : st.gScore.get u with _ | gu
    · exact gridQ_zero D
    · exact hinv.gs_grid (u, gu)
        (JsMap.get_eq_some_mem st.gScore u gu hget)
  rw [astarRelax_eq]
  by_cases hlt : ((((st.gScore.get u).getD 0 + vw.2 : ℚ)) : WithTop ℚ) <
      getInf st.gScore vw.1
  · rw [if_pos hlt]
    refine ⟨⟨?_, ?_, ?_⟩, Or.inr ?_⟩
    · intro e he
      rcases JsMap.mem_entries_set st.gScore vw.1 _ e he with h | h
      · exact hinv.gs_grid e h
      · rw [h]
        exact gridQ_add hgu hgw
    · exact JsMap.nodup_keys_set st.gScore vw.1 _ hinv.gs_nodup
    · intro e he
      rcases JsMap.mem_entries_set st.gScore vw.1 _ e he with h | h
      · exact hinv.gs_keys e h
      · rw [h]
        exact hvu
    · unfold measLT
      by_cases hhas : st.gScore.has vw.1 = true
      · obtain ⟨old, hold⟩ := JsMap.exists_get_of_has st.gScore vw.1 hhas
        have hltq : (st.gScore.get u).getD 0 + vw.2 < old := by
          rw [getInf_eq_coe hold] at hlt
          exact_mod_cast hlt
        have hgold : gridQ D old :=
          hinv.gs_grid (vw.1, old)
            (JsMap.get_eq_some_mem st.gScore vw.1 old hold)
        exact Or.inr ⟨unreached_set_eq_of_has univ st.gScore vw.1 _ hhas,
          distPot_set_lt D hD st.gScore vw.1 _ old hold hinv.gs_nodup
            hgold (gridQ_add hgu hgw) hltq⟩
      · rw [Bool.not_eq_true] at hhas
        exact Or.inl (unreached_set_lt univ st.gScore vw.1 _ hhas hvu)
  · rw [if_neg hlt]
    exact ⟨hinv, Or.inl rfl⟩

theorem astarRelax_foldl_measure {D : ℕ} (hD : 0 < D) {univ : List String}
    (h0 : String → ℚ) (u : String) :
    ∀ (l : List (String × ℚ)) (st : AState),
      (∀ vw ∈ l, gridQ D vw.2 ∧ vw.1 ∈ univ) →
      TermInvA D univ st.gScore →
      TermInvA D univ (l.foldl (astarRelax h0 u) st).gScore ∧
        (l.foldl (astarRelax h0 u) st = st ∨
          measLT D univ (l.foldl (astarRelax h0 u) st).gScore st.gScore) := by
  intro l
  induction l with
  | nil =>
    intro st _ hinv
    exact ⟨hinv, Or.inl rfl⟩
  | cons vw tl ih =>
    intro st hl hinv
    rw [List.foldl_cons]
    obtain ⟨hw, hu⟩ := hl vw (List.mem_cons_self vw tl)
    obtain ⟨hstep_inv, hstep⟩ := astarRelax_measure hD h0 u st vw hinv hw hu
    obtain ⟨hrec_inv, hrec⟩ := ih (astarRelax h0 u st vw)
      (fun x hx => hl x (List.mem_cons_of_mem vw hx)) hstep_inv
    refine ⟨hrec_inv, ?_⟩
    rcases hstep with heq | hm
    · rw [heq] at hrec ⊢
      exact hrec
    · rcases hrec with heq2 | hm2
      · rw [heq2]
        exact Or.inr hm
      · exact Or.inr (measLT_trans hm2 hm)

theorem astarLoop_step_empty (g : Graph) (h0 : String → ℚ) (t : String)
    (fuel : ℕ) (st : AState) (h : ¬ st.pq.size > 0) :
    astarLoop g h0 t (fuel + 1) st = some st := by
  rw [astarLoop, if_neg h]

theorem astarLoop_step_stale (g : Graph) (h0 : String → ℚ) (t : String)
    (fuel : ℕ) (st : AState) (f curG : ℚ) (u : String)
    (pq' : MinHeap (ℚ × String))
    (hpop : st.pq.pop = some ((f, (curG, u)), pq')) (hut : ¬ u = t)
    (hstale : (curG : WithTop ℚ) > getInf st.gScore u) :
    astarLoop g h0 t (fuel + 1) st =
      astarLoop g h0 t fuel
        { st with
          pq := pq'
          nodesExplored := st.nodesExplored + 1
          visitedOrder :=
            st.visitedOrder ++ [⟨u, (st.parent.get u).join, none⟩] } := by
  have hsz : st.pq.size > 0 := pop_pos_size st.pq _ _ hpop
  rw [astarLoop, if_pos hsz, hpop]
  simp only []
  rw [if_neg hut, if_pos hstale]

theorem astarLoop_step_relax (g : Graph) (h0 : String → ℚ) (t : String)
    (fuel : ℕ) (st : AState) (f curG : ℚ) (u : String)
    (pq' : MinHeap (ℚ × String))
    (hpop : st.pq.pop = some ((f, (curG, u)), pq')) (hut : ¬ u = t)
    (hvalid : ¬ (curG : WithTop ℚ) > getInf st.gScore u) :
    astarLoop g h0 t (fuel + 1) st =
      astarLoop g h0 t fuel
        (((g.get u).getD []).foldl (astarRelax h0 u)
          { st with
            pq := pq'
            nodesExplored := st.nodesExplored + 1
            visitedOrder :=
              st.visitedOrder ++ [⟨u, (st.parent.get u).join, none⟩] }) := by
  have hsz : st.pq.size > 0 := pop_pos_size st.pq _ _ hpop
  rw [astarLoop, if_pos hsz, hpop]
  simp only []
  rw [if_neg hut, if_neg hvalid]

/-- `astarLoop` terminates from every state whose stored `gScore` values lie
on the common weight grid. -/
theorem astarLoop_terminates (g : Graph) (h0 : String → ℚ) (t : String)
    (D : ℕ) (hD : 0 < D) (univ : List String)
    (hedges : ∀ u, ∀ vw ∈ (g.get u).getD [], gridQ D vw.2 ∧ vw.1 ∈ univ) :
    ∀ st : AState, TermInvA D univ st.gScore →
      ∃ fuel st', astarLoop g h0 t fuel st = some st' := by
  have hwf : WellFounded (Prod.Lex (· < · : ℕ → ℕ → Prop)
      (Prod.Lex (· < · : ℕ → ℕ → Prop) (· < · : ℕ → ℕ → Prop))) :=
    IsWellFounded.wf
  have main : ∀ n : ℕ × ℕ × ℕ, ∀ st : AState,
      TermInvA D univ st.gScore →
      (unreached univ st.gScore, distPot D st.gScore, st.pq.size) = n →
      ∃ fuel st', astarLoop g h0 t fuel st = some st' := by
    intro n
    refine @WellFounded.induction _ _ hwf
      (fun x => ∀ st : AState,
        TermInvA D univ st.gScore →
        (unreached univ st.gScore, distPot D st.gScore, st.pq.size) = x →
        ∃ fuel st', astarLoop g h0 t fuel st = some st') n ?_
    intro x ih st hinv hmeas
    subst hmeas
    by_cases hpos : st.pq.size > 0
    · have hne : st.pq.heap ≠ [] := by
        intro hnil
        rw [MinHeap.size, hnil] at hpos
        exact absurd hpos (by simp)
      obtain ⟨e, pq', hpop⟩ := MinHeap.pop_isSome_of_ne_nil st.pq hne
      obtain ⟨f, curG, u⟩ := e
      have hszeq : st.pq.size = pq'.size + 1 :=
        MinHeap.pop_size st.pq _ _ hpop
      by_cases hut : u = t
      · subst hut
        exact ⟨1, _, astarLoop_break_target g h0 u 0 st f curG pq' hpop⟩
      · by_cases hstale : (curG : WithTop ℚ) > getInf st.gScore u
        · obtain ⟨fuel0, stf, hloop⟩ := ih
            (unreached univ st.gScore, distPot D st.gScore, pq'.size)
            (lex3_of (Or.inr (Or.inr ⟨rfl, rfl, by omega⟩)))
            { st with
              pq := pq'
              nodesExplored := st.nodesExplored + 1
              visitedOrder :=
                st.visitedOrder ++ [⟨u, (st.parent.get u).join, none⟩] }
            ⟨hinv.gs_grid, hinv.gs_nodup, hinv.gs_keys⟩ rfl
          exact ⟨fuel0 + 1, stf,
            (astarLoop_step_stale g h0 t fuel0 st f curG u pq' hpop hut
              hstale).trans hloop⟩
        · obtain ⟨hfinv, hfcase⟩ := astarRelax_foldl_measure hD h0 u
            ((g.get u).getD [])
            { st with
              pq := pq'
              nodesExplored := st.nodesExplored + 1
              visitedOrder :=
                st.visitedOrder ++ [⟨u, (st.parent.get u).join, none⟩] }
            (fun vw hvw => hedges u vw hvw)
            ⟨hinv.gs_grid, hinv.gs_nodup, hinv.gs_keys⟩
          rcases hfcase with heq | hm
          · obtain ⟨fuel0, stf, hloop⟩ := ih
              (unreached univ st.gScore, distPot D st.gScore, pq'.size)
              (lex3_of (Or.inr (Or.inr ⟨rfl, rfl, by omega⟩)))
              (((g.get u).getD []).foldl (astarRelax h0 u)
                { st with
                  pq := pq'
                  nodesExplored := st.nodesExplored + 1
                  visitedOrder :=
                    st.visitedOrder ++ [⟨u, (st.parent.get u).join, none⟩] })
              hfinv (by rw [heq])
            exact ⟨fuel0 + 1, stf,
              (astarLoop_step_relax g h0 t fuel0 st f curG u pq' hpop hut
                hstale).trans hloop⟩
          · have hm' := hm
            unfold measLT at hm'
            obtain ⟨fuel0, stf, hloop⟩ := ih
              (unreached univ (((g.get u).getD []).foldl (astarRelax h0 u)
                  { st with
                    pq := pq'
                    nodesExplored := st.nodesExplored + 1
                    visitedOrder := st.visitedOrder ++
                      [⟨u, (st.parent.get u).join, none⟩] }).gScore,
                distPot D (((g.get u).getD []).foldl (astarRelax h0 u)
                  { st with
                    pq := pq'
                    nodesExplored := st.nodesExplored + 1
                    visitedOrder := st.visitedOrder ++
                      [⟨u, (st.parent.get u).join, none⟩] }).gScore,
                (((g.get u).getD []).foldl (astarRelax h0 u)
                  { st with
                    pq := pq'
                    nodesExplored := st.nodesExplored + 1
                    visitedOrder := st.visitedOrder ++
                      [⟨u, (st.parent.get u).join, none⟩] }).pq.size)
              (lex3_of (by
                rcases hm' with h | ⟨he, hp⟩
                · exact Or.inl h
                · exact Or.inr (Or.inl ⟨he, hp⟩)))
              (((g.get u).getD []).foldl (astarRelax h0 u)
                { st with
                  pq := pq'
                  nodesExplored := st.nodesExplored + 1
                  visitedOrder :=
                    st.visitedOrder ++ [⟨u, (st.parent.get u).join, none⟩] })
              hfinv rfl
            exact ⟨fuel0 + 1, stf,
              (astarLoop_step_relax g h0 t fuel0 st f curG u pq' hpop hut
                hstale).trans hloop⟩
    · exact ⟨1, st, astarLoop_step_empty g h0 t 0 st hpos⟩
  intro st hinv
  exact main (unreached univ st.gScore, distPot D st.gScore, st.pq.size) st
    hinv rfl

/-- One expansion of one side of `bidirectionalDijkstra` either keeps the
distance map and shrinks the frontier (strictly so when the frontier was
non-empty) or strictly decreases the (unreached, scaled-distance) measure;
the grid/key invariant is preserved. -/
theorem expandSide_measure {D : ℕ} (hD : 0 < D) {univ : List String}
    (g : Graph) (tag : String) (my : SideState) (od : JsMap ℚ)
    (best : WithTop ℚ) (meeting : Option String) (explored : ℕ)
    (visited : List Visit)
    (hedges : ∀ u, ∀ vw ∈ (g.get u).getD [], gridQ D vw.2 ∧ vw.1 ∈ univ)
    (hinv : TermInvD D univ my.dist my.pq) :
    ∃ my' best' meeting' explored' visited',
      expandSide g tag my od best meeting explored visited =
        (my', best', meeting', explored', visited') ∧
      TermInvD D univ my'.dist my'.pq ∧
      ((my'.dist = my.dist ∧ my'.pq.size ≤ my.pq.size ∧
          (0 < my.pq.size → my'.pq.size < my.pq.size)) ∨
        measLT D univ my'.dist my.dist) := by
  rw [expandSide]
  split
  · next hsz =>
    split
    · next hpopn =>
      exact absurd ((MinHeap.pop_eq_none_iff my.pq).mp hpopn)
        (by
          intro hnil
          rw [MinHeap.size, hnil] at hsz
          exact absurd hsz (by simp))
    · next curT u pq' hpop =>
      have hszeq : my.pq.size = pq'.size + 1 :=
        MinHeap.pop_size my.pq _ _ hpop
      have hgc : gridQ D curT :=
        hinv.pq_grid (curT, u) (MinHeap.mem_of_pop hpop).1
      have hinv1 : TermInvD D univ my.dist pq' :=
        ⟨hinv.dist_grid, hinv.dist_nodup, hinv.dist_keys,
          fun e he => hinv.pq_grid e ((MinHeap.mem_of_pop hpop).2 e he)⟩
      simp only []
      split
      · next hvalid =>
        obtain ⟨hfinv, hfcase⟩ := relaxCore_foldl_measure hD hgc
          ((g.get u).getD [])
          ⟨my.dist, my.parent, pq', my.maxPqSize⟩
          (fun vw hvw => hedges u vw hvw) hinv1
        refine ⟨(⟨(((g.get u).getD []).foldl (relaxCore u curT)
              ⟨my.dist, my.parent, pq', my.maxPqSize⟩).dist,
            (((g.get u).getD []).foldl (relaxCore u curT)
              ⟨my.dist, my.parent, pq', my.maxPqSize⟩).parent,
            (((g.get u).getD []).foldl (relaxCore u curT)
              ⟨my.dist, my.parent, pq', my.maxPqSize⟩).pq,
            (if u ∈ my.settled then my.settled else my.settled ++ [u]),
            (((g.get u).getD []).foldl (relaxCore u curT)
              ⟨my.dist, my.parent, pq', my.maxPqSize⟩).maxPqSize⟩ :
              SideState),
          _, _, _, _, rfl, hfinv, ?_⟩
        rcases hfcase with heq | hm
        · refine Or.inl ⟨?_, ?_, ?_⟩
          · show (((g.get u).getD []).foldl (relaxCore u curT)
              ⟨my.dist, my.parent, pq', my.maxPqSize⟩).dist = my.dist
            rw [heq]
          · show (((g.get u).getD []).foldl (relaxCore u curT)
              ⟨my.dist, my.parent, pq', my.maxPqSize⟩).pq.size ≤ my.pq.size
            rw [heq]
            show pq'.size ≤ my.pq.size
            omega
          · intro _
            show (((g.get u).getD []).foldl (relaxCore u curT)
              ⟨my.dist, my.parent, pq', my.maxPqSize⟩).pq.size < my.pq.size
            rw [heq]
            show pq'.size < my.pq.size
            omega
        · exact Or.inr hm
      · next hstale =>
        refine ⟨{ my with pq := pq' }, best, meeting, explored + 1,
          visited ++ [⟨u, (my.parent.get u).join, some tag⟩], rfl,
          hinv1, Or.inl ⟨rfl, ?_, ?_⟩⟩
        · show pq'.size ≤ my.pq.size
          omega
        · intro _
          show pq'.size < my.pq.size
          omega
  · next hsz =>
    exact ⟨my, best, meeting, explored, visited, rfl, hinv,
      Or.inl ⟨rfl, le_refl _, fun h => absurd h hsz⟩⟩

theorem bidiLoop_step (g rg : Graph) (fuel : ℕ) (st : BState)
    (fwd1 : SideState) (best1 : WithTop ℚ) (meeting1 : Option String)
    (explored1 : ℕ) (visited1 : List Visit)
    (bwd2 : SideState) (best2 : WithTop ℚ) (meeting2 : Option String)
    (explored2 : ℕ) (visited2 : List Visit)
    (hguard : 0 < st.fwd.pq.size ∨ 0 < st.bwd.pq.size)
    (h1 : expandSide g "start" st.fwd st.bwd.dist st.bestPathCost
      st.meetingNode st.nodesExplored st.visitedOrder =
      (fwd1, best1, meeting1, explored1, visited1))
    (h2 : expandSide rg "end" st.bwd fwd1.dist best1 meeting1 explored1
      visited1 = (bwd2, best2, meeting2, explored2, visited2)) :
    bidiLoop g rg (fuel + 1) st =
      if peekMin fwd1.pq + peekMin bwd2.pq ≥ best2 then
        some ⟨fwd1, bwd2, best2, meeting2, explored2, visited2⟩
      else
        bidiLoop g rg fuel
          ⟨fwd1, bwd2, best2, meeting2, explored2, visited2⟩ := by
  rw [bidiLoop]
  rw [if_pos (by rcases hguard with h | h <;> simp [h])]
  rw [h1]
  simp only []
  rw [h2]

/-- The interleaved loop of `bidirectionalDijkstra` terminates from every
state whose two stored distance maps lie on the common weight grid: the
combined measure (total unreached nodes, total scaled distance, total
frontier size) strictly decreases on every iteration that does not exit. -/
theorem bidiLoop_terminates (g rg : Graph) (D : ℕ) (hD : 0 < D)
    (univF univB : List String)
    (hedgesF : ∀ u, ∀ vw ∈ (g.get u).getD [], gridQ D vw.2 ∧ vw.1 ∈ univF)
    (hedgesB : ∀ u, ∀ vw ∈ (rg.get u).getD [],
      gridQ D vw.2 ∧ vw.1 ∈ univB) :
    ∀ st : BState, TermInvD D univF st.fwd.dist st.fwd.pq →
      TermInvD D univB st.bwd.dist st.bwd.pq →
      ∃ fuel st', bidiLoop g rg fuel st = some st' := by
  have hwf : WellFounded (Prod.Lex (· < · : ℕ → ℕ → Prop)
      (Prod.Lex (· < · : ℕ → ℕ → Prop) (· < · : ℕ → ℕ → Prop))) :=
    IsWellFounded.wf
  have main : ∀ n : ℕ × ℕ × ℕ, ∀ st : BState,
      TermInvD D univF st.fwd.dist st.fwd.pq →
      TermInvD D univB st.bwd.dist st.bwd.pq →
      (unreached univF st.fwd.dist + unreached univB st.bwd.dist,
        distPot D st.fwd.dist + distPot D st.bwd.dist,
        st.fwd.pq.size + st.bwd.pq.size) = n →
      ∃ fuel st', bidiLoop g rg fuel st = some st' := by
    intro n
    refine @WellFounded.induction _ _ hwf
      (fun x => ∀ st : BState,
        TermInvD D univF st.fwd.dist st.fwd.pq →
        TermInvD D univB st.bwd.dist st.bwd.pq →
        (unreached univF st.fwd.dist + unreached univB st.bwd.dist,
          distPot D st.fwd.dist + distPot D st.bwd.dist,
          st.fwd.pq.size + st.bwd.pq.size) = x →
        ∃ fuel st', bidiLoop g rg fuel st = some st') n ?_
    intro x ih st hinvF hinvB hmeas
    subst hmeas
    by_cases hguard : 0 < st.fwd.pq.size ∨ 0 < st.bwd.pq.size
    · obtain ⟨fwd1, best1, meeting1, explored1, visited1, h1, hinvF2,
        hcaseF⟩ := expandSide_measure hD g "start" st.fwd st.bwd.dist
          st.bestPathCost st.meetingNode st.nodesExplored st.visitedOrder
          hedgesF hinvF
      obtain ⟨bwd2, best2, meeting2, explored2, visited2, h2, hinvB2,
        hcaseB⟩ := expandSide_measure hD rg "end" st.bwd fwd1.dist best1
          meeting1 explored1 visited1 hedgesB hinvB
      have hF : (unreached univF fwd1.dist = unreached univF st.fwd.dist ∧
          distPot D fwd1.dist = distPot D st.fwd.dist ∧
          fwd1.pq.size ≤ st.fwd.pq.size ∧
          (0 < st.fwd.pq.size → fwd1.pq.size < st.fwd.pq.size)) ∨
          (unreached univF fwd1.dist < unreached univF st.fwd.dist ∨
            (unreached univF fwd1.dist = unreached univF st.fwd.dist ∧
              distPot D fwd1.dist < distPot D st.fwd.dist)) := by
        rcases hcaseF with ⟨hd, hle, hlt⟩ | hm
        · exact Or.inl ⟨by rw [hd], by rw [hd], hle, hlt⟩
        · unfold measLT at hm
          exact Or.inr hm
      have hB : (unreached univB bwd2.dist = unreached univB st.bwd.dist ∧
          distPot D bwd2.dist = distPot D st.bwd.dist ∧
          bwd2.pq.size ≤ st.bwd.pq.size ∧
          (0 < st.bwd.pq.size → bwd2.pq.size < st.bwd.pq.size)) ∨
          (unreached univB bwd2.dist < unreached univB st.bwd.dist ∨
            (unreached univB bwd2.dist = unreached univB st.bwd.dist ∧
              distPot D bwd2.dist < distPot D st.bwd.dist)) := by
        rcases hcaseB with ⟨hd, hle, hlt⟩ | hm
        · exact Or.inl ⟨by rw [hd], by rw [hd], hle, hlt⟩
        · unfold measLT at hm
          exact Or.inr hm
      by_cases hterm : peekMin fwd1.pq + peekMin bwd2.pq ≥ best2
      · refine ⟨1, ⟨fwd1, bwd2, best2, meeting2, explored2, visited2⟩, ?_⟩
        rw [bidiLoop_step g rg 0 st fwd1 best1 meeting1 explored1 visited1
          bwd2 best2 meeting2 explored2 visited2 hguard h1 h2,
          if_pos hterm]
      · obtain ⟨fuel0, stf, hloop⟩ := ih
          (unreached univF fwd1.dist + unreached univB bwd2.dist,
            distPot D fwd1.dist + distPot D bwd2.dist,
            fwd1.pq.size + bwd2.pq.size)
          (lex3_of (by omega))
          ⟨fwd1, bwd2, best2, meeting2, explored2, visited2⟩
          hinvF2 hinvB2 rfl
        refine ⟨fuel0 + 1, stf, ?_⟩
        rw [bidiLoop_step g rg fuel0 st fwd1 best1 meeting1 explored1
          visited1 bwd2 best2 meeting2 explored2 visited2 hguard h1 h2,
          if_neg hterm]
        exact hloop
    · have hf0 : st.fwd.pq.size = 0 := by omega
      have hb0 : st.bwd.pq.size = 0 := by omega
      refine ⟨1, st, ?_⟩
      rw [bidiLoop, if_neg (by simp [hf0, hb0])]
  intro st hinvF hinvB
  exact main
    (unreached univF st.fwd.dist + unreached univB st.bwd.dist,
      distPot D st.fwd.dist + distPot D st.bwd.dist,
      st.fwd.pq.size + st.bwd.pq.size) st hinvF hinvB rfl

/-- Any property of the stored edge weights transfers to the reverse graph:
`buildReverseGraph` copies each weight unchanged. -/
theorem buildReverseGraph_weight_pred (g : Graph) (P : ℚ → Prop)
    (hg : ∀ e ∈ g.entries, ∀ vw ∈ e.2, P vw.2) :
    ∀ e ∈ (buildReverseGraph g).1.entries, ∀ vw ∈ e.2, P vw.2 := by
  have hset : ∀ (m : Graph) (k : String) (L : List (String × ℚ)),
      (∀ e ∈ m.entries, ∀ vw ∈ e.2, P vw.2) →
      (∀ vw ∈ L, P vw.2) →
      ∀ e ∈ (m.set k L).entries, ∀ vw ∈ e.2, P vw.2 := by
    intro m k L hm hL e he
    rcases JsMap.mem_entries_set m k L e he with h | h
    · exact hm e h
    · rw [h]
      exact hL
  have hinner : ∀ (l : List (String × ℚ)) (u : String) (acc : Graph × ℕ),
      (∀ vw ∈ l, P vw.2) →
      (∀ e ∈ acc.1.entries, ∀ vw ∈ e.2, P vw.2) →
      ∀ e ∈ (l.foldl
          (fun (acc : Graph × ℕ) vw =>
            (acc.1.set vw.1 (((acc.1.get vw.1).getD []) ++ [(u, vw.2)]),
              acc.2 + 1))
          acc).1.entries, ∀ vw ∈ e.2, P vw.2 := by
    intro l
    induction l with
    | nil => intro u acc _ hacc; exact hacc
    | cons a t ih =>
      intro u acc hl hacc
      rw [List.foldl_cons]
      refine ih u _ (fun vw hvw => hl vw (List.mem_cons_of_mem a hvw)) ?_
      refine hset acc.1 a.1 _ hacc ?_
      intro vw hvw
      rw [List.mem_append] at hvw
      rcases hvw with hvw | hvw
      · rcases hg2 : acc.1.get a.1 with _ | adj
        · rw [hg2] at hvw
          simp at hvw
        · rw [hg2] at hvw
          simp only [Option.getD_some] at hvw
          exact hacc (a.1, adj) (JsMap.get_eq_some_mem acc.1 a.1 adj hg2)
            vw hvw
      · have : vw = (u, a.2) := by simpa using hvw
        rw [this]
        exact hl a (List.mem_cons_self a t)
  have houter : ∀ (ents : List (String × List (String × ℚ)))
      (acc : Graph × ℕ),
      (∀ e ∈ ents, ∀ vw ∈ e.2, P vw.2) →
      (∀ e ∈ acc.1.entries, ∀ vw ∈ e.2, P vw.2) →
      ∀ e ∈ (ents.foldl
          (fun acc uv =>
            uv.2.foldl
              (fun (acc : Graph × ℕ) vw =>
                (acc.1.set vw.1
                    (((acc.1.get vw.1).getD []) ++ [(uv.1, vw.2)]),
                  acc.2 + 1))
              acc)
          acc).1.entries, ∀ vw ∈ e.2, P vw.2 := by
    intro ents
    induction ents with
    | nil => intro acc _ hacc; exact hacc
    | cons a t ih =>
      intro acc hents hacc
      rw [List.foldl_cons]
      refine ih _ (fun e he => hents e (List.mem_cons_of_mem a he)) ?_
      exact hinner a.2 a.1 acc (hents a (List.mem_cons_self a t)) hacc
  intro e he
  exact houter g.entries (JsMap.empty, 0) hg (by simp [JsMap.empty]) e he

/-- Entries-based form of `gridQ_weight`: every stored weight of the graph
object lies on its common weight grid. -/
theorem gridQ_weight_entries (g : Graph) (hnn : NonnegWeights g) :
    ∀ e ∈ g.entries, ∀ vw ∈ e.2, gridQ (weightsDen g) vw.2 := by
  intro e he vw hvw
  refine ⟨hnn e he vw hvw, ?_⟩
  have hmemw : vw.2 ∈ allWeights g := by
    unfold allWeights
    rw [List.mem_flatMap]
    exact ⟨e, he, List.mem_map_of_mem (fun vw => vw.2) hvw⟩
  obtain ⟨m, hm⟩ := den_dvd_foldl (allWeights g) 1 vw.2 hmemw
  refine ⟨vw.2.num.toNat * m, ?_⟩
  have hnum : 0 ≤ vw.2.num := Rat.num_nonneg.mpr (hnn e he vw hvw)
  push_cast
  rw [show weightsDen g = vw.2.den * m from hm]
  push_cast
  rw [← mul_assoc]
  rw [show (vw.2 : ℚ) * vw.2.den = (vw.2.num : ℚ) from by
    exact_mod_cast Rat.mul_den_eq_num vw.2]
  have h2 : ((vw.2.num.toNat : ℚ)) = (vw.2.num : ℚ) := by
    exact_mod_cast Int.toNat_of_nonneg hnum
  rw [h2]

/-- An entries-based weight property transfers to the adjacency lists the
searches read. -/
theorem weight_pred_get {g : Graph} {P : ℚ → Prop}
    (h : ∀ e ∈ g.entries, ∀ vw ∈ e.2, P vw.2) (u : String) :
    ∀ vw ∈ (g.get u).getD [], P vw.2 := by
  rcases hg : g.get u with _ | adj
  · simp
  · simpa using h (u, adj) (JsMap.get_eq_some_mem g u adj hg)

/-- The `{start: 0}` initial state of a search satisfies the termination
invariant. -/
theorem termInvD_initial (D : ℕ) (univ : List String) (s : String)
    (hs : s ∈ univ) :
    TermInvD D univ (⟨[(s, 0)]⟩ : JsMap ℚ) (MinHeap.mkEmpty.push (0, s)) := by
  refine ⟨?_, by simp, ?_, ?_⟩
  · intro e he
    rw [List.mem_singleton] at he
    rw [he]
    exact gridQ_zero D
  · intro e he
    rw [List.mem_singleton] at he
    rw [he]
    exact hs
  · intro e he
    have hmem :=
      (MinHeap.push_perm MinHeap.mkEmpty ((0 : ℚ), s)).mem_iff.mp he
    rcases List.mem_cons.mp hmem with h | h
    · rw [h]
      exact gridQ_zero D
    · simp [MinHeap.mkEmpty] at h

theorem termInvA_initial (D : ℕ) (univ : List String) (s : String)
    (hs : s ∈ univ) :
    TermInvA D univ (⟨[(s, 0)]⟩ : JsMap ℚ) := by
  refine ⟨?_, by simp, ?_⟩
  · intro e he
    rw [List.mem_singleton] at he
    rw [he]
    exact gridQ_zero D
  · intro e he
    rw [List.mem_singleton] at he
    rw [he]
    exact hs

theorem dijkstra_terminates (g : Graph) (hnn : NonnegWeights g)
    (s t : String) (nc : Coords) :
    ∃ fuel r, dijkstra fuel g s t nc = some r := by
  have hD : 0 < weightsDen g := weightsDen_pos g
  have hedges : ∀ u, ∀ vw ∈ (g.get u).getD [],
      gridQ (weightsDen g) vw.2 ∧ vw.1 ∈ s :: graphNodes g := by
    intro u vw hvw
    exact ⟨gridQ_weight hnn hvw,
      List.mem_cons_of_mem s (target_mem_graphNodes hvw)⟩
  obtain ⟨fuel, stF, hloop⟩ := dijkstraLoop_terminates g t (weightsDen g)
    hD (s :: graphNodes g) hedges
    ⟨⟨[(s, 0)]⟩, ⟨[(s, none)]⟩, MinHeap.mkEmpty.push (0, s), 0, [], 1⟩
    (termInvD_initial (weightsDen g) (s :: graphNodes g) s
      (List.mem_cons_self s (graphNodes g)))
  refine ⟨fuel, ?_⟩
  unfold dijkstra
  simp only []
  rw [hloop]
  simp only []
  by_cases hhas : stF.dist.has t = true
  · exact ⟨_, by rw [if_pos hhas]⟩
  · exact ⟨_, by rw [if_neg hhas]⟩

theorem astar_terminates (g : Graph) (hnn : NonnegWeights g)
    (hdist : HaversineFun) (s t : String) (nc : Coords) :
    ∃ fuel r, astar hdist fuel g s t nc = some r := by
  by_cases hcoords : ¬ (nc.has t = true ∧ nc.has s = true)
  · refine ⟨0, ⟨none, none, 0, [], 0⟩, ?_⟩
    unfold astar
    rw [if_pos hcoords]
  · have hD : 0 < weightsDen g := weightsDen_pos g
    have hedges : ∀ u, ∀ vw ∈ (g.get u).getD [],
        gridQ (weightsDen g) vw.2 ∧ vw.1 ∈ s :: graphNodes g := by
      intro u vw hvw
      exact ⟨gridQ_weight hnn hvw,
        List.mem_cons_of_mem s (target_mem_graphNodes hvw)⟩
    obtain ⟨fuel, stF, hloop⟩ := astarLoop_terminates g
      (astarHeuristic hdist nc ((nc.get t).getD (0, 0))) t (weightsDen g)
      hD (s :: graphNodes g) hedges
      ⟨⟨[(s, 0)]⟩,
        ⟨[(s, astarHeuristic hdist nc ((nc.get t).getD (0, 0)) s)]⟩,
        ⟨[(s, none)]⟩,
        MinHeap.mkEmpty.push
          (astarHeuristic hdist nc ((nc.get t).getD (0, 0)) s, (0, s)),
        0, [], 1⟩
      (termInvA_initial (weightsDen g) (s :: graphNodes g) s
        (List.mem_cons_self s (graphNodes g)))
    refine ⟨fuel, ?_⟩
    unfold astar
    rw [if_neg hcoords]
    simp only []
    rw [hloop]
    simp only []
    by_cases hhas : stF.gScore.has t = true
    · exact ⟨_, by rw [if_pos hhas]⟩
    · exact ⟨_, by rw [if_neg hhas]⟩

theorem bidirectionalDijkstra_terminates (g : Graph)
    (hnn : NonnegWeights g) (s t : String) (nc : Coords) :
    ∃ fuel r, bidirectionalDijkstra fuel g s t nc = some r := by
  have hD : 0 < weightsDen g := weightsDen_pos g
  have hedgesF : ∀ u, ∀ vw ∈ (g.get u).getD [],
      gridQ (weightsDen g) vw.2 ∧ vw.1 ∈ s :: graphNodes g := by
    intro u vw hvw
    exact ⟨gridQ_weight hnn hvw,
      List.mem_cons_of_mem s (target_mem_graphNodes hvw)⟩
  have hrgw : ∀ e ∈ (buildReverseGraph g).1.entries, ∀ vw ∈ e.2,
      gridQ (weightsDen g) vw.2 :=
    buildReverseGraph_weight_pred g (gridQ (weightsDen g))
      (gridQ_weight_entries g hnn)
  have hedgesB : ∀ u, ∀ vw ∈ ((buildReverseGraph g).1.get u).getD [],
      gridQ (weightsDen g) vw.2 ∧
        vw.1 ∈ t :: graphNodes (buildReverseGraph g).1 := by
    intro u vw hvw
    exact ⟨weight_pred_get hrgw u vw hvw,
      List.mem_cons_of_mem t (target_mem_graphNodes hvw)⟩
  obtain ⟨fuel, stF, hloop⟩ := bidiLoop_terminates g
    (buildReverseGraph g).1 (weightsDen g) hD (s :: graphNodes g)
    (t :: graphNodes (buildReverseGraph g).1) hedgesF hedgesB
    ⟨⟨⟨[(s, 0)]⟩, ⟨[(s, none)]⟩, MinHeap.mkEmpty.push (0, s), [], 1⟩,
      ⟨⟨[(t, 0)]⟩, ⟨[(t, none)]⟩, MinHeap.mkEmpty.push (0, t), [], 1⟩,
      ⊤, none, 0, []⟩
    (termInvD_initial (weightsDen g) (s :: graphNodes g) s
      (List.mem_cons_self s (graphNodes g)))
    (termInvD_initial (weightsDen g)
      (t :: graphNodes (buildReverseGraph g).1) t
      (List.mem_cons_self t (graphNodes (buildReverseGraph g).1)))
  refine ⟨fuel, ?_⟩
  unfold bidirectionalDijkstra
  simp only []
  rw [hloop]
  simp only []
  rcases hmn : stF.meetingNode with _ | mt
  · exact ⟨_, rfl⟩
  · exact ⟨_, rfl⟩

/-- C10: for every finite graph with the data model's non-negative edge
weights and every start/target pair, each of the three search functions
terminates with a result once given enough fuel: every iteration either
removes a frontier entry outright, or relaxes some node whose best-known
cost strictly decreases on the common grid of the finitely many edge
weights, which can happen only finitely often. -/
theorem C10_termination (g : Graph) (hnn : NonnegWeights g)
    (s t : String) (nc : Coords) (hdist : HaversineFun) :
    (∃ fuel r, dijkstra fuel g s t nc = some r) ∧
    (∃ fuel r, astar hdist fuel g s t nc = some r) ∧
    (∃ fuel r, bidirectionalDijkstra fuel g s t nc = some r) :=
  ⟨dijkstra_terminates g hnn s t nc,
    astar_terminates g hnn hdist s t nc,
    bidirectionalDijkstra_terminates g hnn s t nc⟩

theorem C10_witness :
    NonnegWeights exampleGraph ∧
      ((∃ fuel r, dijkstra fuel exampleGraph "A" "C" emptyCoords = some r) ∧
        (∃ fuel r,
          astar cexHdist fuel exampleGraph "A" "C" emptyCoords = some r) ∧
        (∃ fuel r,
          bidirectionalDijkstra fuel exampleGraph "A" "C" emptyCoords =
            some r)) := by
  have hnn : NonnegWeights exampleGraph := by
    intro e he vw hvw
    fin_cases he <;> simp_all <;> rcases hvw with h | h <;> simp_all
  exact ⟨hnn,
    C10_termination exampleGraph hnn "A" "C" emptyCoords cexHdist⟩
